import Mathlib

/-!
Verification of the dOmega maximum-clique solver against its specification.

This file shallowly embeds the core components of the solver: the subgraph
data model, the Buss kernel, the Nemhauser-Trotter kernel, the k-vertex-cover
solver, the degeneracy-ordering engine, the complement-subgraph materialiser,
and the parametric binary search.  Machine integers of the original code are
modelled as Int where values can be negative (the parameter k and the status
codes) and as Nat where the code only ever stores sizes and indices.  Mutable
arrays are modelled as Lean lists updated in place; loops whose termination
is not structural take an explicit fuel argument, instantiated generously at
call sites.  The original worker threads only race on an all-or-nothing
success flag, so the parallel search is modelled by its deterministic
single-worker schedule, which yields the same bounds.
-/

namespace DOmega

/-- Vertex record: name, scope-local degree, position in the vertex vector. -/
structure vertex where
  v : Nat
  degree : Nat
  pos : Nat
deriving Repr, DecidableEq, Inhabited

/-- Subgraph record, as in Graph.h. -/
structure subgraph where
  n : Nat
  m : Nat
  created : Bool
  vertices : List vertex
  adjLists : List (List Nat)
  largestDegreeVertex : Nat
deriving Repr, DecidableEq, Inhabited

/-- Default-constructed subgraph record. -/
def subgraph.empty : subgraph :=
  { n := 0, m := 0, created := false, vertices := [], adjLists := [],
    largestDegreeVertex := 0 }

/-- Read of a vector of lists at an index. -/
def listAt (ls : List (List Nat)) (i : Nat) : List Nat := ls.getD i []

/-- Read of a boolean vector at an index. -/
def boolAt (ls : List Bool) (i : Nat) : Bool := ls.getD i false

/-- Read of an integer vector at an index. -/
def natAt (ls : List Nat) (i : Nat) : Nat := ls.getD i 0

/-- Read of an int vector at an index. -/
def intAt (ls : List Int) (i : Nat) : Int := ls.getD i 0

/-- Read of a vertex vector at an index. -/
def vertAt (vs : List vertex) (i : Nat) : vertex :=
  vs.getD i { v := 0, degree := 0, pos := 0 }

/-- Read of a subgraph vector at an index. -/
def sgAt (ls : List subgraph) (i : Nat) : subgraph := ls.getD i subgraph.empty

/-- Read of a square boolean matrix stored as rows. -/
def matAt (m : List (List Bool)) (i j : Nat) : Bool := boolAt (m.getD i []) j

/-- Write of a square boolean matrix stored as rows. -/
def matSet (m : List (List Bool)) (i j : Nat) (x : Bool) :
    List (List Bool) :=
  m.set i ((m.getD i []).set j x)

/-!
## Buss kernel (Buss.cpp)

The mutable state visible to Buss.getKernel: the subgraph pointed to by the
member sG, the member k, the out-parameters kernel and highDegVertices, and
the local names numRemoved and removed.  Every assignment of the original
body is an update of this record, so the frame behaviour of the routine is
an observable property of the embedding.
-/

structure BussState where
  sG : subgraph
  k : Int
  kernel : subgraph
  highDegVertices : Nat
  numRemoved : Nat
  removed : List Bool
deriving Repr, DecidableEq, Inhabited

/-- One for-pass of the high-degree marking loop in Buss.getKernel.  The
original loop guard rechecks highDegVertices before every vertex; marking
does not test the removed flag, exactly as in the source. -/
def bussMarkPass (k : Int) (vs : List vertex)
    (removed : List Bool) (h numRemoved : Nat) (change : Bool) :
    List Bool × Nat × Nat × Bool :=
  match vs with
  | [] => (removed, h, numRemoved, change)
  | i :: rest =>
    if (h : Int) ≤ k then
      if (i.degree : Int) > k - (h : Int) then
        bussMarkPass k rest (removed.set i.pos true) (h + 1) (numRemoved + 1) true
      else
        bussMarkPass k rest removed h numRemoved change
    else
      (removed, h, numRemoved, change)

/-- The while-loop of the marking phase.  Each executed pass either leaves
the state unchanged or increases highDegVertices, so the fuel used by
bussGetKernel below never runs out before the loop exits. -/
def bussMarkLoop (fuel : Nat) (k : Int) (vs : List vertex)
    (removed : List Bool) (h numRemoved : Nat) : List Bool × Nat × Nat :=
  match fuel with
  | 0 => (removed, h, numRemoved)
  | fuel' + 1 =>
    if (h : Int) ≤ k then
      match bussMarkPass k vs removed h numRemoved false with
      | (removed', h', numRemoved', change) =>
        if change then bussMarkLoop fuel' k vs removed' h' numRemoved'
        else (removed', h', numRemoved')
    else
      (removed, h, numRemoved)

/-- The isolated-vertex pass of Buss.getKernel: a surviving vertex whose
neighbours are all marked is marked as well. -/
def bussIsolatedPass (adjLists : List (List Nat)) (vs : List vertex)
    (removed : List Bool) (numRemoved : Nat) : List Bool × Nat :=
  match vs with
  | [] => (removed, numRemoved)
  | i :: rest =>
    if boolAt removed i.pos = false then
      let isolated := (listAt adjLists i.pos).all (fun cur => boolAt removed cur)
      if isolated then
        bussIsolatedPass adjLists rest (removed.set i.pos true) (numRemoved + 1)
      else
        bussIsolatedPass adjLists rest removed numRemoved
    else
      bussIsolatedPass adjLists rest removed numRemoved

/-- VertexCover.subgraphUpdate: rebuilds the subgraph induced by the
unmarked vertices.  First fold: the surviving vertex records and the mask
from old to new positions. -/
def subgraphUpdateVerts (n : Nat) (vertices : List vertex)
    (removed : List Bool) : List vertex × List Nat :=
  vertices.foldl
    (fun acc v =>
      if boolAt removed v.pos = false then
        (acc.1 ++ [{ v := v.v, degree := 0, pos := acc.1.length }],
         acc.2.set v.pos acc.1.length)
      else acc)
    ([], List.replicate n 0)

/-- VertexCover.subgraphUpdate, second fold: adjacency lists, degrees, the
degree sum and the largest-degree vertex. -/
def subgraphUpdateAdj (vertices : List vertex) (adjLists : List (List Nat))
    (removed : List Bool) (mask : List Nat) (newVerts : List vertex) :
    List vertex × List (List Nat) × Nat × Nat :=
  vertices.foldl
    (fun acc v =>
      if boolAt removed v.pos = false then
        let nbrs := (listAt adjLists v.pos).filter
          (fun cur => boolAt removed cur = false)
        let deg := nbrs.length
        let nv := natAt mask v.pos
        let verts' := acc.1.map
          (fun w => if w.pos = nv then { w with degree := deg } else w)
        let adj' := acc.2.1.set nv (nbrs.map (natAt mask))
        let mSum := acc.2.2.1 + deg
        let ldv := if acc.2.2.2.1 < deg then nv else acc.2.2.2.2
        let ld := if acc.2.2.2.1 < deg then deg else acc.2.2.2.1
        (verts', adj', mSum, ld, ldv)
      else acc)
    (newVerts, List.replicate newVerts.length ([] : List Nat), 0, 0, 0)
    |> fun acc => (acc.1, acc.2.1, acc.2.2.1, acc.2.2.2.2)

/-- VertexCover.subgraphUpdate from VertexCover.cpp. -/
def subgraphUpdate (n numRemoved : Nat) (vertices : List vertex)
    (adjLists : List (List Nat)) (removed : List Bool) : subgraph :=
  let (newVerts, mask) := subgraphUpdateVerts n vertices removed
  let (verts, adj, mSum, ldv) :=
    subgraphUpdateAdj vertices adjLists removed mask newVerts
  { n := n - numRemoved, m := mSum / 2, created := true,
    vertices := verts, adjLists := adj, largestDegreeVertex := ldv }

/-- Buss.getKernel from Buss.cpp, threading the full mutable state.  The
return value is the status; kernel and highDegVertices are read off the
final state. -/
def bussGetKernel (st : BussState) : Int × BussState :=
  let vs := st.sG.vertices
  let removed0 := List.replicate st.sG.n false
  match bussMarkLoop (st.k.toNat + 2) st.k vs removed0 st.highDegVertices 0 with
  | (removed, h, numRemoved) =>
    if (h : Int) > st.k then
      (-1, { st with highDegVertices := h, numRemoved := numRemoved,
                     removed := removed })
    else if h = 0 then
      (0, { st with kernel := st.sG, highDegVertices := h,
                    numRemoved := numRemoved, removed := removed })
    else
      match bussIsolatedPass st.sG.adjLists vs removed numRemoved with
      | (removed', numRemoved') =>
        let kern := subgraphUpdate st.sG.n numRemoved' vs st.sG.adjLists removed'
        let st' := { st with kernel := kern, highDegVertices := h,
                             numRemoved := numRemoved', removed := removed' }
        if (kern.n : Int) ≤ st.k - (h : Int) then (1, st')
        else if (kern.m : Int) > st.k * (st.k - (h : Int)) then (-1, st')
        else (0, st')

/-- Initial Buss state for a call site that passes a fresh kernel and a
highDegVertices counter initialised to zero, as processSubgraphs does. -/
def bussInit (sG : subgraph) (k : Int) : BussState :=
  { sG := sG, k := k, kernel := subgraph.empty, highDegVertices := 0,
    numRemoved := 0, removed := [] }

/-- Convenience wrapper returning status, kernel and highDegVertices. -/
def bussRun (sG : subgraph) (k : Int) : Int × subgraph × Nat :=
  match bussGetKernel (bussInit sG k) with
  | (status, st) => (status, st.kernel, st.highDegVertices)

/-!
## Specification-side notions used to judge the kernels
-/

/-- The edge list of a subgraph: ordered pairs u < w with w in the
adjacency list of u. -/
def subgraph.edgePairs (sG : subgraph) : List (Nat × Nat) :=
  (List.range sG.n).flatMap
    (fun u => ((listAt sG.adjLists u).filter (fun w => u < w)).map
      (fun w => (u, w)))

/-- A list of positions covers the subgraph when every edge has an endpoint
in it. -/
def coversSubgraph (sG : subgraph) (cover : List Nat) : Bool :=
  sG.edgePairs.all (fun e => cover.contains e.1 || cover.contains e.2)

/-- Specification notion: the subgraph admits a vertex cover with at most k
vertices.  Candidate covers are the duplicate-free sublists of the position
range. -/
def hasVC (sG : subgraph) (k : Int) : Prop :=
  ∃ cover ∈ (List.range sG.n).sublists,
    (cover.length : Int) ≤ k ∧ coversSubgraph sG cover = true

instance (sG : subgraph) (k : Int) : Decidable (hasVC sG k) := by
  unfold hasVC; infer_instance

/-- Build a subgraph record directly from adjacency lists, with vertex
names and positions equal to the indices, the way degeneracyOrdering and
the kernels lay out their vertex vectors. -/
def mkSubgraph (adj : List (List Nat)) : subgraph :=
  { n := adj.length,
    m := (adj.foldl (fun a l => a + l.length) 0) / 2,
    created := true,
    vertices := (List.range adj.length).map
      (fun i => { v := i, degree := (listAt adj i).length, pos := i }),
    adjLists := adj,
    largestDegreeVertex := 0 }

/-!
## Graph store and degeneracy-ordering engine (Graph.cpp)

The CSR arrays EdgesBegin and EdgeTo of the Graph class are the
concatenation of the per-vertex sorted neighbour lists, so the embedding
keeps the adjacency lists directly; iterating EdgeTo between EdgesBegin of
a vertex and its degree is iterating that list.
-/

/-- The immutable graph: per-vertex sorted neighbour lists. -/
structure Graph where
  adj : List (List Nat)
deriving Repr, DecidableEq

/-- Number of vertices. -/
def Graph.n (g : Graph) : Nat := g.adj.length

/-- Degree of a vertex. -/
def Graph.degree (g : Graph) (i : Nat) : Nat := (listAt g.adj i).length

/-- Maximum degree, as accumulated by the constructor loop starting from 0. -/
def Graph.Delta (g : Graph) : Nat :=
  (List.range g.n).foldl (fun acc i => max acc (g.degree i)) 0

/-- Strictly increasing list of naturals, checked directly. -/
def sortedLtB : List Nat → Bool
  | [] => true
  | [_] => true
  | a :: b :: rest => decide (a < b) && sortedLtB (b :: rest)

/-- Well-formedness of the input graph: every adjacency list is strictly
sorted (hence duplicate-free), mentions only valid vertices, has no loop,
and adjacency is symmetric.  The constructor produces exactly such lists
from its set-based dedup pass. -/
def Graph.wfB (g : Graph) : Bool :=
  (List.range g.n).all (fun i =>
    let l := listAt g.adj i
    sortedLtB l &&
    l.all (fun w => decide (w < g.n) && decide (w ≠ i) &&
      (listAt g.adj w).contains i))

/-- Propositional well-formedness. -/
def Graph.wf (g : Graph) : Prop := g.wfB = true

instance (g : Graph) : Decidable g.wf := by unfold Graph.wf; infer_instance

/-- The mutable state of Graph.degeneracyOrdering: the ordering arrays, the
bucket pointers, the degeneracy accumulator, the clique bounds, the
d-regularity detector and the subgraph slots being populated. -/
structure DegenState where
  rightDegree : List Nat
  position : List Nat
  ordering : List Nat
  buckets : List Nat
  d : Nat
  cliqueLB : Nat
  cliqueUB : Nat
  dRegular : Int
  subgraphs : List subgraph
deriving Repr, DecidableEq

/-- Initial bucket histogram, position, ordering and the final downward
shift of the bucket pointers, exactly as the four initialisation loops of
degeneracyOrdering compute them. -/
def degenInit (g : Graph) : DegenState :=
  let rd : List Nat := (List.range g.n).map (fun i => g.degree i)
  let buckets0 : List Nat :=
    (List.range g.n).foldl
      (fun b i => b.set (natAt rd i) (natAt b (natAt rd i) + 1))
      (List.replicate (g.Delta + 1) 0)
  let buckets1 : List Nat :=
    ((List.range (g.Delta + 1)).foldl
      (fun (acc : List Nat × Nat) k =>
        (acc.1.set k acc.2, acc.2 + natAt acc.1 k))
      (buckets0, 0)).1
  let placed : List Nat × List Nat × List Nat :=
    (List.range g.n).foldl
      (fun (acc : List Nat × List Nat × List Nat) i =>
        let (pos, ord, b) := acc
        let p := natAt b (natAt rd i)
        (pos.set i p, ord.set p i, b.set (natAt rd i) (p + 1)))
      (List.replicate g.n 0, List.replicate g.n 0, buckets1)
  let (pos, ord, buckets2) := placed
  let buckets3 : List Nat :=
    ((List.range g.Delta).reverse.map (· + 1)).foldl
      (fun b k => b.set k (natAt b (k - 1))) buckets2
  { rightDegree := rd, position := pos, ordering := ord,
    buckets := buckets3.set 0 0, d := 0, cliqueLB := 0, cliqueUB := 0,
    dRegular := -1, subgraphs := List.replicate g.n subgraph.empty }

/-- Processing of one neighbour inside the removal step of minV: record it
in the subgraph vertex set when it is still to the right, then move it one
bucket down with the swap-with-bucket-head trick.  The second component of
the state is the local counter nV. -/
def degenNbr (minV : Nat) (st : DegenState × Nat) (neighbor : Nat) :
    DegenState × Nat :=
  let (s, nV) := st
  if natAt s.position neighbor > natAt s.position minV then
    let sub := sgAt s.subgraphs minV
    let newVerts := sub.vertices.set nV
      ({ v := neighbor, degree := 0, pos := nV } : vertex)
    let sub := { sub with vertices := newVerts }
    let s := { s with subgraphs := s.subgraphs.set minV sub }
    let nV := nV + 1
    if natAt s.rightDegree neighbor = natAt s.rightDegree minV then
      let s :=
        if neighbor ≠ natAt s.ordering (natAt s.buckets (natAt s.rightDegree minV)) then
          let pu := natAt s.buckets (natAt s.rightDegree minV)
          let u := natAt s.ordering pu
          { s with
            ordering := (s.ordering.set pu neighbor).set
              (natAt s.position neighbor) u,
            position := (s.position.set u (natAt s.position neighbor)).set
              neighbor pu }
        else s
      let b1 := s.buckets.set (natAt s.rightDegree minV - 1)
        (natAt s.position minV + 1)
      let s := { s with buckets := b1 }
      let b2 := s.buckets.set (natAt s.rightDegree neighbor)
        (natAt s.buckets (natAt s.rightDegree neighbor) + 1)
      let s := { s with buckets := b2 }
      let rd2 := s.rightDegree.set neighbor (natAt s.rightDegree neighbor - 1)
      ({ s with rightDegree := rd2 }, nV)
    else
      let pu := natAt s.buckets (natAt s.rightDegree neighbor)
      let u := natAt s.ordering pu
      let s :=
        if neighbor ≠ u then
          { s with
            ordering := (s.ordering.set pu neighbor).set
              (natAt s.position neighbor) u,
            position := (s.position.set u (natAt s.position neighbor)).set
              neighbor pu }
        else s
      let b2 := s.buckets.set (natAt s.rightDegree neighbor)
        (natAt s.buckets (natAt s.rightDegree neighbor) + 1)
      let s := { s with buckets := b2 }
      let rd2 := s.rightDegree.set neighbor (natAt s.rightDegree neighbor - 1)
      ({ s with rightDegree := rd2 }, nV)
  else
    (s, nV)

/-- One step of the main removal loop of degeneracyOrdering: place the
vertex at position i, initialise its subgraph vertex set, update the
degeneracy, the d-regularity detector and the clique lower bound, then
process its neighbours. -/
def degenStep (g : Graph) (s : DegenState) (i : Nat) : DegenState :=
  let minV := natAt s.ordering i
  let rdMin := natAt s.rightDegree minV
  let sub0 : subgraph :=
    { n := rdMin + 1, m := 0, created := false,
      vertices := (List.replicate (rdMin + 1)
        ({ v := 0, degree := 0, pos := 0 } : vertex)).set 0
        { v := minV, degree := 0, pos := 0 },
      adjLists := [], largestDegreeVertex := 0 }
  let s := { s with subgraphs := s.subgraphs.set minV sub0,
                    buckets := s.buckets.set rdMin (natAt s.buckets rdMin + 1) }
  let s :=
    if rdMin > s.d then
      { s with d := rdMin,
               dRegular :=
                 if natAt s.rightDegree (natAt s.ordering (g.n - 1)) = rdMin
                 then (i : Int) else s.dRegular }
    else s
  let s :=
    if s.cliqueLB = 0 ∧ natAt s.rightDegree (natAt s.ordering i) = g.n - i - 1 then
      { s with cliqueLB := natAt s.rightDegree (natAt s.ordering i) + 1 }
    else s
  ((listAt g.adj minV).foldl (degenNbr minV) (s, 1)).1

/-- The component-size scan after the main loop: drain the queue from the
current head, pushing undiscovered vertices at positions strictly beyond
dRegular.  The queue of the original code is a fixed vector indexed by a
growing tail and can overflow it, which is undefined behaviour in C++; the
embedding gives the write-past-the-end the natural growing-queue meaning. -/
def bfsDrain (g : Graph) (pos : List Nat) (dReg : Nat) :
    Nat → List Nat → Nat → List Bool → Nat →
    List Nat × Nat × List Bool × Nat
  | 0, S, head, disc, cnt => (S, head, disc, cnt)
  | fuel + 1, S, head, disc, cnt =>
    if head < S.length then
      let v := S.getD head 0
      let pushed := (listAt g.adj v).foldl
        (fun (acc : List Nat × List Bool × Nat) w =>
          if natAt pos w > dReg ∧ boolAt acc.2.1 w = false then
            (acc.1 ++ [w], acc.2.1.set w true, acc.2.2 + 1)
          else acc)
        (S, disc, cnt)
      bfsDrain g pos dReg fuel pushed.1 (head + 1) pushed.2.1 pushed.2.2
    else
      (S, head, disc, cnt)

/-- The start loop of the component-size scan: one BFS per position from
dRegular on, sharing the queue and the discovered flags, stopping at the
first component of exactly d plus one vertices. -/
def bfsStarts (g : Graph) (pos : List Nat) (dReg dVal : Nat) :
    List Nat → List Nat → Nat → List Bool → Bool
  | [], _, _, _ => false
  | start :: rest, S, head, disc =>
    let S := S ++ [start]
    let disc := disc.set start true
    match bfsDrain g pos dReg (2 * g.n + 2) S head disc 1 with
    | (S', head', disc', cnt) =>
      if cnt = dVal + 1 then true
      else bfsStarts g pos dReg dVal rest S' head' disc'

/-- Graph.degeneracyOrdering from Graph.cpp: the bucket-based removal loop,
the clique bounds, and the upper-bound tightening scan. -/
def degeneracyOrdering (g : Graph) : DegenState :=
  let s := (List.range g.n).foldl (degenStep g) (degenInit g)
  let s := { s with cliqueUB := s.d + 1 }
  if s.dRegular > 0 ∧ s.cliqueLB < s.cliqueUB then
    let starts := ((List.range g.n).drop s.dRegular.toNat).map
      (natAt s.ordering)
    let clique := bfsStarts g s.position s.dRegular.toNat s.d starts [] 0
      (List.replicate g.n false)
    if clique then s else { s with cliqueUB := s.d }
  else s

/-!
## Specification-side notions used to judge the upper-bound tightening

These definitions follow the words of the specification, not the code: the
first position of right-degree d, the d-regularity of the tail, and the
connected components of the subgraph induced by the tail positions,
computed as a reachability closure.
-/

/-- Spec-side: the smallest position whose right-degree equals the
degeneracy. -/
def specIStar (g : Graph) (s : DegenState) : Nat :=
  (List.range g.n).findIdx
    (fun p => decide (natAt s.rightDegree (natAt s.ordering p) = s.d))

/-- Spec-side: every vertex at a position at or beyond the first position
of right-degree d has right-degree exactly d. -/
def specDCoreRegularB (g : Graph) (s : DegenState) : Bool :=
  ((List.range g.n).drop (specIStar g s)).all
    (fun p => decide (natAt s.rightDegree (natAt s.ordering p) = s.d))

/-- One edge step whose target sits at a position at least dReg. -/
def stepGE (g : Graph) (pos : List Nat) (dReg : Nat) (u w : Nat) : Prop :=
  (listAt g.adj u).contains w = true ∧ dReg ≤ natAt pos w

/-- One edge step whose target sits at a position strictly beyond dReg. -/
def stepGT (g : Graph) (pos : List Nat) (dReg : Nat) (u w : Nat) : Prop :=
  (listAt g.adj u).contains w = true ∧ dReg < natAt pos w

/-- Reachability inside the tail region with both endpoints of every hop
at positions at least dReg after the start. -/
def reachGE (g : Graph) (pos : List Nat) (dReg : Nat) (v w : Nat) : Prop :=
  Relation.ReflTransGen (stepGE g pos dReg) v w

/-- Reachability whose hops only land at positions strictly beyond dReg. -/
def reachGT (g : Graph) (pos : List Nat) (dReg : Nat) (v w : Nat) : Prop :=
  Relation.ReflTransGen (stepGT g pos dReg) v w

/-- One round of the closure: adjoin every tail vertex adjacent to the
current set that is not yet in it. -/
def compGrow (g : Graph) (pos : List Nat) (dReg : Nat) (cur : List Nat) :
    List Nat :=
  cur ++ ((List.range g.n).filter (fun w =>
    decide (dReg ≤ natAt pos w) && !(cur.contains w) &&
      cur.any (fun u => (listAt g.adj u).contains w)))

/-- Iterated closure rounds. -/
def compIter (g : Graph) (pos : List Nat) (dReg : Nat) :
    Nat → List Nat → List Nat
  | 0, cur => cur
  | fuel + 1, cur => compIter g pos dReg fuel (compGrow g pos dReg cur)

/-- Spec-side: the connected component of v in the subgraph induced by
the vertices at positions at least dReg, as the stabilised closure. -/
def specComponent (g : Graph) (pos : List Nat) (dReg : Nat) (v : Nat) :
    List Nat :=
  compIter g pos dReg g.n [v]

/-- Spec-side: some connected component of the subgraph induced by the
positions at least dReg has exactly target vertices. -/
def specBigComponentB (g : Graph) (pos : List Nat) (dReg target : Nat) :
    Bool :=
  (List.range g.n).any (fun v =>
    decide (dReg ≤ natAt pos v) &&
      decide ((specComponent g pos dReg v).length = target))

/-- The ordering and position arrays are mutually inverse on the tail
positions: the scan and the specification agree on which vertices make up
the tail region exactly when this holds. -/
def tailPermB (g : Graph) (s : DegenState) (dReg : Nat) : Bool :=
  (((List.range g.n).drop dReg).all (fun p =>
    decide (natAt s.ordering p < g.n) &&
      decide (natAt s.position (natAt s.ordering p) = p))) &&
  ((List.range g.n).all (fun w =>
    !(decide (dReg ≤ natAt s.position w)) ||
      (decide (natAt s.position w < g.n) &&
        decide (natAt s.ordering (natAt s.position w) = w))))

/-!
## Complement subgraph materialiser (Graph.generateCompGraphRightNeighbors)

The routine walks, for each vertex i of the pivot subgraph, the vertex set
of the subgraph of i in parallel with the vertex set of the pivot, both
sorted by vertex name, and records a complement edge for every pair that is
not adjacent in G, with the earlier endpoint in the ordering doing the
recording.  The vertex records of the pivot slot are mutated in place
(degree counts), so the embedding threads the live vertex vector.
-/

/-- Record a complement edge between the outer vertex at index ii and the
walk vertex at index c1: set both incidence bits, bump both degrees and the
edge count. -/
def compAddEdge (ii c1 : Nat) (verts : List vertex)
    (inc : List (List Bool)) (m : Nat) :
    List vertex × List (List Bool) × Nat :=
  let iRec := vertAt verts ii
  let cRec := vertAt verts c1
  let inc := matSet inc iRec.pos cRec.pos true
  let inc := matSet inc cRec.pos iRec.pos true
  let verts := verts.set ii { iRec with degree := iRec.degree + 1 }
  let verts := verts.set c1
    { (vertAt verts c1) with degree := (vertAt verts c1).degree + 1 }
  (verts, inc, m + 1)

/-- The merge walk of generateCompGraphRightNeighbors for one outer vertex:
current1 runs over the pivot vertex set, current2 over the vertex set of
the outer vertex; both start at index 1. -/
def compWalk (position : List Nat) (iV : Nat) (ii : Nat) (l2 : List vertex) :
    Nat → Nat → Nat → List vertex → List (List Bool) → Nat →
    Nat × List vertex × List (List Bool) × Nat
  | 0, c1, _, verts, inc, m => (c1, verts, inc, m)
  | fuel + 1, c1, c2, verts, inc, m =>
    if c1 < verts.length ∧ c2 < l2.length then
      let cur1 := vertAt verts c1
      let cur2 := vertAt l2 c2
      if cur2.v < cur1.v then
        compWalk position iV ii l2 fuel c1 (c2 + 1) verts inc m
      else if cur1.v = cur2.v then
        compWalk position iV ii l2 fuel (c1 + 1) (c2 + 1) verts inc m
      else if cur1.v = iV then
        compWalk position iV ii l2 fuel (c1 + 1) c2 verts inc m
      else
        if natAt position iV < natAt position cur1.v then
          match compAddEdge ii c1 verts inc m with
          | (verts', inc', m') =>
            compWalk position iV ii l2 fuel (c1 + 1) c2 verts' inc' m'
        else
          compWalk position iV ii l2 fuel (c1 + 1) c2 verts inc m
    else
      (c1, verts, inc, m)

/-- The tail loop after current2 is exhausted: every remaining current1
that lies to the right of the outer vertex yields a complement edge. -/
def compTail (position : List Nat) (iV : Nat) (ii : Nat) :
    Nat → Nat → List vertex → List (List Bool) → Nat →
    List vertex × List (List Bool) × Nat
  | 0, _, verts, inc, m => (verts, inc, m)
  | fuel + 1, c1, verts, inc, m =>
    if c1 < verts.length then
      let cur1 := vertAt verts c1
      if natAt position iV < natAt position cur1.v then
        match compAddEdge ii c1 verts inc m with
        | (verts', inc', m') =>
          compTail position iV ii fuel (c1 + 1) verts' inc' m'
      else
        compTail position iV ii fuel (c1 + 1) verts inc m
    else
      (verts, inc, m)

/-- One outer iteration of the materialiser: run the merge walk for the
vertex at index ii and update the largest-degree slot.  The local variable
largestDegree of the source is initialised to zero and never updated, so
the comparison is always against zero, exactly as in the code. -/
def compVertexStep (position : List Nat) (sgs : List subgraph)
    (acc : List vertex × List (List Bool) × Nat × Nat) (ii : Nat) :
    List vertex × List (List Bool) × Nat × Nat :=
  let (verts, inc, m, ldv) := acc
  let iRec := vertAt verts ii
  let l2 := (sgAt sgs iRec.v).vertices
  match compWalk position iRec.v ii l2
      (verts.length + l2.length + 2) 1 1 verts inc m with
  | (c1, verts1, inc1, m1) =>
    match compTail position iRec.v ii (verts1.length + 2) c1 verts1 inc1 m1 with
    | (verts', inc', m') =>
      let iRec' := vertAt verts' ii
      let ldv' := if iRec'.degree > 0 then iRec'.pos else ldv
      (verts', inc', m', ldv')

/-- Graph.generateCompGraphRightNeighbors from Graph.cpp, for a pivot v:
sets the created flag, fills the incidence matrix of the complement through
the merge walks, and extracts the adjacency rows from the matrix. -/
def generateComp (position : List Nat) (sgs : List subgraph) (v : Nat) :
    List subgraph :=
  let sub := sgAt sgs v
  let init : List vertex × List (List Bool) × Nat × Nat :=
    (sub.vertices, List.replicate sub.n (List.replicate sub.n false),
     sub.m, sub.largestDegreeVertex)
  let res := ((List.range sub.vertices.length).drop 1).foldl
    (compVertexStep position sgs) init
  match res with
  | (verts, inc, m, ldv) =>
    let rows := ((List.range verts.length).drop 1).foldl
      (fun (acc : List (List Nat)) r =>
        acc.set (vertAt verts r).pos
          (((List.range sub.n).drop 1).filter
            (fun j => matAt inc (vertAt verts r).pos j)))
      (List.replicate sub.n ([] : List Nat))
    let sub' : subgraph :=
      { n := sub.n, m := m, created := true, vertices := verts,
        adjLists := rows, largestDegreeVertex := ldv }
    sgs.set v sub'

/-- Name of the vertex record at an index. -/
def nameAt (vs : List vertex) (i : Nat) : Nat := (vertAt vs i).v

/-- The state contract that the degeneracy phase establishes for a pivot
before the materialiser runs, phrased against the specification: the pivot
slot holds the pivot followed by its name-sorted right neighbours with
positional records, the tail members sit at pairwise distinct positions,
and every tail member owns a slot whose tail is exactly its name-sorted
right neighbourhood. -/
def compInputOkB (g : Graph) (position : List Nat) (sgs : List subgraph)
    (v : Nat) : Bool :=
  let sub := sgAt sgs v
  let vs := sub.vertices
  decide (vs.length = sub.n) &&
  decide (0 < vs.length) &&
  decide (nameAt vs 0 = v) &&
  (List.range vs.length).all (fun i => decide ((vertAt vs i).pos = i)) &&
  sortedLtB ((vs.map (fun x => x.v)).drop 1) &&
  ((List.range vs.length).drop 1).all (fun i =>
    (listAt g.adj v).contains (nameAt vs i)) &&
  decide (((vs.map (fun x => natAt position x.v)).drop 1).Nodup) &&
  ((List.range vs.length).drop 1).all (fun i =>
    let a := nameAt vs i
    let l2 := (sgAt sgs a).vertices
    sortedLtB ((l2.map (fun x => x.v)).drop 1) &&
    ((l2.map (fun x => x.v)).drop 1).all (fun b =>
      (listAt g.adj a).contains b &&
        decide (natAt position a < natAt position b)) &&
    (listAt g.adj a).all (fun b =>
      !(decide (natAt position a < natAt position b)) ||
        ((l2.map (fun x => x.v)).drop 1).contains b))

/-- The firing condition of the merge walk for one slot index idx of the
pivot vertex set: the outer vertex iV precedes the slot name in the
ordering and the slot name does not occur in the tail of the outer list. -/
def walkFires (position : List Nat) (iV : Nat) (l2 : List vertex)
    (nm : Nat → Nat) (idx : Nat) : Prop :=
  natAt position iV < natAt position (nm idx) ∧
  ∀ q, 1 ≤ q → q < l2.length → nameAt l2 q ≠ nm idx

/-- The firing condition of a whole outer pass ii of the materialiser. -/
def compFire (position : List Nat) (sgs : List subgraph) (nm : Nat → Nat)
    (ii idx : Nat) : Prop :=
  walkFires position (nm ii) (sgAt sgs (nm ii)).vertices nm idx

/-!
## Nemhauser-Trotter kernel (NemhauserTrotter.cpp)

The object state of the NemhauserTrotter class: the subgraph pointer sG,
the parameter k, the matching arrays, and the Tarjan bookkeeping.  The
sentinel INT_MAX of limits.h is kept literally; all genuine distances are
far below it.  The stack S is modelled head-first.
-/

/-- The INT_MAX sentinel of limits.h on the original platform. -/
def intMax : Int := 2147483647

structure NTState where
  sG : subgraph
  k : Int
  matchL : List Int
  matchR : List Int
  index : Nat
  onStack : List Bool
  indices : List Int
  lowLink : List Nat
  S : List Nat
  componentMap : List Nat
  components : List (List Nat)
  vertexMap : List Int
  toBeRemoved : List Bool
  numComponents : Nat
deriving Repr, DecidableEq

/-- Fresh NemhauserTrotter object for a subgraph and parameter, as the
constructor builds it. -/
def ntInit (sG : subgraph) (k : Int) : NTState :=
  { sG := sG, k := k,
    matchL := List.replicate sG.n (-1), matchR := List.replicate sG.n (-1),
    index := 0, onStack := [], indices := [], lowLink := [], S := [],
    componentMap := [], components := [], vertexMap := [],
    toBeRemoved := [], numComponents := 0 }

/-- Body of the BFS queue drain of NemhauserTrotter.BFS: pop the front,
and when its label is below the cutoff, relax all neighbours, fixing the
cutoff at the first unmatched right vertex. -/
def ntBFSDrain (st : NTState) :
    Nat → List Nat → Nat → List Int → Int → List Int × Int
  | 0, _, _, dist, dMax => (dist, dMax)
  | fuel + 1, queue, head, dist, dMax =>
    if head < queue.length then
      let u := queue.getD head 0
      if intAt dist u < dMax then
        let step := (listAt st.sG.adjLists u).foldl
          (fun (acc : List Nat × List Int × Int) v =>
            let (q, dist, dMax) := acc
            if intAt st.matchR v = -1 then
              if dMax = intMax then (q, dist, intAt dist u + 1)
              else (q, dist, dMax)
            else
              if intAt dist (intAt st.matchR v).toNat = intMax then
                (q ++ [(intAt st.matchR v).toNat],
                 dist.set (intAt st.matchR v).toNat (intAt dist u + 1), dMax)
              else (q, dist, dMax))
          (queue, dist, dMax)
        ntBFSDrain st fuel step.1 (head + 1) step.2.1 step.2.2
      else
        ntBFSDrain st fuel queue (head + 1) dist dMax
    else
      (dist, dMax)

/-- NemhauserTrotter.BFS: label unmatched left vertices with distance zero,
the rest with the sentinel, then drain the queue.  Returns the new labels,
the cutoff, and whether an unmatched right vertex was reached. -/
def ntBFS (st : NTState) : List Int × Int × Bool :=
  let init := (st.sG.vertices.take st.sG.n).foldl
    (fun (acc : List Int × List Nat) u =>
      if intAt st.matchL u.pos = -1 then
        (acc.1.set u.pos 0, acc.2 ++ [u.pos])
      else
        (acc.1.set u.pos intMax, acc.2))
    (List.replicate st.sG.n 0, [])
  match ntBFSDrain st (2 * st.sG.n + 2) init.2 0 init.1 intMax with
  | (dist, dMax) => (dist, dMax, dMax ≠ intMax)

/-- NemhauserTrotter.DFS: augment along a shortest alternating path.  The
argument u of the source is an int that is -1 at the end of a path; the
embedding keeps the same convention.  Returns the updated matching arrays,
the updated labels and the success flag. -/
def ntDFS (adjLists : List (List Nat)) (dMax : Int) :
    Nat → Int → List Int → List Int → List Int →
    List Int × List Int × List Int × Bool
  | 0, _, matchL, matchR, dist => (matchL, matchR, dist, false)
  | fuel + 1, u, matchL, matchR, dist =>
    if u ≠ -1 then
      let rec tryNbrs : List Nat → List Int → List Int → List Int →
          List Int × List Int × List Int × Bool
        | [], matchL, matchR, dist => (matchL, matchR, dist, false)
        | v :: rest, matchL, matchR, dist =>
          let kk := intAt matchR v
          let distK := if kk ≥ 0 then intAt dist (intAt matchR v).toNat
                       else dMax
          if distK = intAt dist u.toNat + 1 then
            match ntDFS adjLists dMax fuel kk matchL matchR dist with
            | (matchL', matchR', dist', ok) =>
              if ok then
                (matchL'.set u.toNat (v : Int), matchR'.set v u, dist', true)
              else
                tryNbrs rest matchL' matchR' dist'
          else
            tryNbrs rest matchL matchR dist
      match tryNbrs (listAt adjLists u.toNat) matchL matchR dist with
      | (matchL', matchR', dist', ok) =>
        if ok then (matchL', matchR', dist', true)
        else (matchL', matchR', dist'.set u.toNat intMax, false)
    else
      (matchL, matchR, dist, true)

/-- One phase of NemhauserTrotter.HopcroftKarp: after a successful BFS,
try to augment from every unmatched left vertex. -/
def ntHKPhase (vs : List vertex) (adjLists : List (List Nat)) (n : Nat)
    (dMax : Int) (dist : List Int) (matchL matchR : List Int) :
    List Int × List Int :=
  ((vs.take n).foldl
    (fun (acc : List Int × List Int × List Int) u =>
      let (matchL, matchR, dist) := acc
      if intAt matchL u.pos = -1 then
        match ntDFS adjLists dMax (n + 2) (u.pos : Int) matchL matchR dist with
        | (matchL', matchR', dist', _) => (matchL', matchR', dist')
      else acc)
    (matchL, matchR, dist))
  |> fun acc => (acc.1, acc.2.1)

/-- NemhauserTrotter.HopcroftKarp: repeat BFS and augmenting DFS phases
until the BFS finds no unmatched right vertex. -/
def ntHopcroftKarp : Nat → NTState → NTState
  | 0, st => st
  | fuel + 1, st =>
    match ntBFS st with
    | (dist, dMax, ok) =>
      if ok then
        match ntHKPhase st.sG.vertices st.sG.adjLists st.sG.n dMax dist
            st.matchL st.matchR with
        | (matchL', matchR') =>
          ntHopcroftKarp fuel { st with matchL := matchL', matchR := matchR' }
      else st

/-- Component extraction at the root of NemhauserTrotter.strongConnect:
pop the stack down to v inclusive, recording each member in the component,
clearing its stack flag, and noting in toBeRemoved when both copies of a
vertex fall into the same component. -/
def ntPopComponent (n v : Nat) :
    Nat → NTState → List Nat → NTState × List Nat
  | 0, st, acc => (st, acc)
  | fuel + 1, st, acc =>
    match st.S with
    | [] => (st, acc)
    | u :: rest =>
      let tbr :=
        if intAt st.vertexMap (u % n) = (st.numComponents : Int) then
          st.toBeRemoved.set st.numComponents false
        else st.toBeRemoved
      let st := { st with
        componentMap := st.componentMap.set u st.numComponents,
        vertexMap := st.vertexMap.set (u % n) (st.numComponents : Int),
        toBeRemoved := tbr,
        onStack := st.onStack.set u false,
        S := rest }
      let acc := acc ++ [u]
      if u = v then (st, acc)
      else ntPopComponent n v fuel st acc

/-- The neighbour visit of NemhauserTrotter.strongConnect for a left copy:
recurse into an undiscovered right copy, or take the low link of one still
on the stack.  The recursive call is passed in as rec. -/
def ntVisitNbr (rec : NTState → Nat → NTState) (v n : Nat)
    (st : NTState) (u : Nat) : NTState :=
  if intAt st.indices (u + n) = -1 then
    let st := rec st (u + n)
    let ll := st.lowLink.set v
      (min (natAt st.lowLink v) (natAt st.lowLink (u + n)))
    { st with lowLink := ll }
  else if boolAt st.onStack (u + n) then
    let ll := st.lowLink.set v
      (min (natAt st.lowLink v) (natAt st.lowLink (u + n)))
    { st with lowLink := ll }
  else st

/-- The single visit of NemhauserTrotter.strongConnect for a right copy:
only the reverse matching arc is followed. -/
def ntVisitMatch (rec : NTState → Nat → NTState) (v n : Nat)
    (st : NTState) : NTState :=
  let u := intAt st.matchR (v - n)
  if u ≥ 0 then
    if intAt st.indices u.toNat = -1 then
      let st := rec st u.toNat
      let ll := st.lowLink.set v
        (min (natAt st.lowLink v) (natAt st.lowLink u.toNat))
      { st with lowLink := ll }
    else if boolAt st.onStack u.toNat then
      let ll := st.lowLink.set v
        (min (natAt st.lowLink v) (natAt st.lowLink u.toNat))
      { st with lowLink := ll }
    else st
  else st

/-- The root block of NemhauserTrotter.strongConnect: when v is a root,
extract the component from the stack. -/
def ntRootBlock (n v : Nat) (st : NTState) : NTState :=
  if (natAt st.lowLink v : Int) = intAt st.indices v then
    let st := { st with toBeRemoved := st.toBeRemoved ++ [true] }
    match ntPopComponent n v (st.S.length + 1) st [] with
    | (st, comp) =>
      { st with components := st.components ++ [comp],
                numComponents := st.numComponents + 1 }
  else st

/-- The discovery bookkeeping at the top of NemhauserTrotter.strongConnect:
set index and low link, push on the stack and mark on-stack. -/
def ntMarkVisited (v : Nat) (st : NTState) : NTState :=
  { st with
    indices := st.indices.set v (st.index : Int),
    lowLink := st.lowLink.set v st.index,
    index := st.index + 1,
    S := v :: st.S,
    onStack := st.onStack.set v true }

/-- NemhauserTrotter.strongConnect: the Tarjan visit of a bipartite copy v.
Left copies follow all bipartite arcs, right copies only the reverse arc of
their matching edge. -/
def ntStrongConnect : Nat → NTState → Nat → NTState
  | 0, st, _ => st
  | fuel + 1, st, v =>
    ntRootBlock st.sG.n v
      (if v < st.sG.n then
        (listAt (ntMarkVisited v st).sG.adjLists v).foldl
          (ntVisitNbr (ntStrongConnect fuel) v st.sG.n) (ntMarkVisited v st)
      else
        ntVisitMatch (ntStrongConnect fuel) v st.sG.n (ntMarkVisited v st))

/-- NemhauserTrotter.Tarjan: reset the bookkeeping and visit every left
copy not yet discovered. -/
def ntTarjan (st : NTState) : NTState :=
  let n := st.sG.n
  let st := { st with
    indices := List.replicate (2 * n) (-1),
    lowLink := List.replicate (2 * n) 0,
    onStack := List.replicate (2 * n) false,
    componentMap := List.replicate (2 * n) 0,
    vertexMap := List.replicate n (-1),
    numComponents := 0, index := 0,
    S := [], components := [], toBeRemoved := [] }
  (List.range n).foldl
    (fun st i => if intAt st.indices i = -1 then
        ntStrongConnect (2 * n + 2) st i
      else st)
    st

/-- The condensation build in NemhauserTrotter.getKernel: one arc per pair
of components, with out-degrees counted on the tail component and the
connected map deduplicating arcs. -/
def ntCompGraph (st : NTState) :
    List (List Nat) × List Int × List Int :=
  let n := st.sG.n
  (List.range st.numComponents).foldl
    (fun acc t =>
      ((st.components.getD t []).foldl
        (fun (acc : List (List Nat) × List Int × List Int) v =>
          if v < n then
            (listAt st.sG.adjLists v).foldl
              (fun (acc : List (List Nat) × List Int × List Int) u =>
                let (alc, outd, conn) := acc
                if natAt st.componentMap v ≠ natAt st.componentMap (u + n) then
                  if intAt conn (natAt st.componentMap (u + n)) ≠
                      (natAt st.componentMap v : Int) then
                    (alc.set (natAt st.componentMap (u + n))
                       (listAt alc (natAt st.componentMap (u + n)) ++
                         [natAt st.componentMap v]),
                     outd.set (natAt st.componentMap v)
                       (intAt outd (natAt st.componentMap v) + 1),
                     conn.set (natAt st.componentMap (u + n))
                       (natAt st.componentMap v : Int))
                  else acc
                else acc)
              acc
          else
            let (alc, outd, conn) := acc
            let mr := intAt st.matchR (v - n)
            if mr ≥ 0 ∧ natAt st.componentMap v ≠ natAt st.componentMap mr.toNat then
              if intAt conn (natAt st.componentMap mr.toNat) ≠
                  (natAt st.componentMap v : Int) then
                (alc.set (natAt st.componentMap mr.toNat)
                   (listAt alc (natAt st.componentMap mr.toNat) ++
                     [natAt st.componentMap v]),
                 outd.set (natAt st.componentMap v)
                   (intAt outd (natAt st.componentMap v) + 1),
                 conn.set (natAt st.componentMap mr.toNat)
                   (natAt st.componentMap v : Int))
              else acc
            else acc)
        acc))
    (List.replicate st.numComponents ([] : List Nat),
     List.replicate st.numComponents (0 : Int),
     List.replicate st.numComponents (-1 : Int))

/-- The working state of the sink-removal loop of
NemhauserTrotter.getKernel. -/
structure NTRemovalState where
  removed : List Bool
  degDecrease : List Nat
  compRemoved : List Bool
  compOutDegree : List Int
  numRemoved : Nat
  numInVC : Nat
  update : Bool
deriving Repr, DecidableEq

/-- One pass of the sink-removal loop over all components.  The singleton
branch of the source ends in continue, skipping both the out-degree
updates of the predecessors and the update flag. -/
def ntRemovalPass (st : NTState) (alc : List (List Nat))
    (rs : NTRemovalState) : NTRemovalState :=
  let n := st.sG.n
  (List.range st.numComponents).foldl
    (fun rs p =>
      if rs.compRemoved.getD p false = false ∧ rs.compOutDegree.getD p 0 = 0 ∧
          boolAt st.toBeRemoved p = true then
        let rs := { rs with compRemoved := rs.compRemoved.set p true }
        let comp := st.components.getD p []
        if comp.length = 1 ∧ boolAt rs.removed (comp.getD 0 0 % n) = false then
          let w := comp.getD 0 0 % n
          let dd := (listAt st.sG.adjLists w).foldl
            (fun dd cur => if boolAt rs.removed cur = false then
                dd.set cur (natAt dd cur + 1) else dd)
            rs.degDecrease
          { rs with removed := rs.removed.set w true, degDecrease := dd,
                    numRemoved := rs.numRemoved + 1 }
        else
          let rs := comp.foldl
            (fun rs v =>
              if boolAt rs.removed (v % n) = false then
                let dd := (listAt st.sG.adjLists (v % n)).foldl
                  (fun dd cur => if boolAt rs.removed cur = false then
                      dd.set cur (natAt dd cur + 1) else dd)
                  rs.degDecrease
                { rs with removed := rs.removed.set (v % n) true,
                          degDecrease := dd,
                          numRemoved := rs.numRemoved + 1,
                          numInVC := if v ≥ n then rs.numInVC + 1
                                     else rs.numInVC }
              else rs)
            rs
          let rs := (listAt alc p).foldl
            (fun rs v =>
              let od := rs.compOutDegree.set v (intAt rs.compOutDegree v - 1)
              { rs with compOutDegree := od })
            rs
          { rs with update := true }
      else rs)
    rs

/-- The while-loop around the sink-removal passes. -/
def ntRemovalLoop (st : NTState) (alc : List (List Nat)) :
    Nat → NTRemovalState → NTRemovalState
  | 0, rs => rs
  | fuel + 1, rs =>
    if rs.update then
      let rs := ntRemovalPass st alc { rs with update := false }
      ntRemovalLoop st alc fuel rs
    else rs

/-- NemhauserTrotter.getKernel: matching, strongly connected components,
condensation, iterated sink removal, and the four-way status decision.
Returns the status, the kernel, the two out-parameters and the final
object state. -/
def ntGetKernel (st : NTState) : Int × subgraph × Nat × Nat × NTState :=
  let st := ntHopcroftKarp (st.sG.n + 2) st
  let st := ntTarjan st
  match ntCompGraph st with
  | (alc, outd, _) =>
    let rs0 : NTRemovalState :=
      { removed := List.replicate st.sG.n false,
        degDecrease := List.replicate st.sG.n 0,
        compRemoved := List.replicate st.numComponents false,
        compOutDegree := outd,
        numRemoved := 0, numInVC := 0, update := true }
    let rs := ntRemovalLoop st alc (st.numComponents + 2) rs0
    if (rs.numInVC : Int) > st.k then
      (-1, subgraph.empty, rs.numRemoved, rs.numInVC, st)
    else if rs.numRemoved = 0 then
      (0, st.sG, rs.numRemoved, rs.numInVC, st)
    else if (st.sG.n : Int) - (rs.numRemoved : Int) ≤
        st.k - (rs.numInVC : Int) then
      (1, subgraph.empty, rs.numRemoved, rs.numInVC, st)
    else
      let removedList := (List.range st.sG.n).map (boolAt rs.removed)
      let kern := subgraphUpdate st.sG.n rs.numRemoved st.sG.vertices
        st.sG.adjLists removedList
      if (kern.m : Int) > st.k * (st.k - (rs.numInVC : Int)) then
        (-1, kern, rs.numRemoved, rs.numInVC, st)
      else
        (0, kern, rs.numRemoved, rs.numInVC, st)

/-!
## k-vertex-cover solver (VertexCover.cpp)

degreePreprocessing reduces by high-degree, degree-zero-or-one and
degree-two rules, with the two-neighbour fold rebuilding adjacency lists in
place; kVertexCover then branches on the largest-degree vertex of the
kernel.  Effective degrees are original degrees minus the degDecrease
account, exactly as in the source.
-/

/-- Index of the first neighbour not yet removed, scanning a list suffix
from a start index; the source advances a raw iterator and relies on such
a neighbour existing. -/
def firstUnremovedFrom (removed : List Bool) : List Nat → Nat → Nat
  | [], i => i
  | x :: rest, i =>
    if boolAt removed x then firstUnremovedFrom removed rest (i + 1) else i

/-- Index of the first unremoved neighbour of l at or after a start
index. -/
def firstUnremoved (l : List Nat) (removed : List Bool) (start : Nat) :
    Nat :=
  firstUnremovedFrom removed (l.drop start) start

/-- Insertion before the first element that is not smaller: the effect of
the lower-bound insert of the source on its sorted lists. -/
def lbInsert (l : List Nat) (x : Nat) : List Nat :=
  match l with
  | [] => [x]
  | y :: rest => if x ≤ y then x :: y :: rest else y :: lbInsert rest x

/-- The mutable state of the degreePreprocessing loop.  The degDecrease
account is an int array: a fold can attach more new neighbours to the
folded vertex than it lost. -/
structure DPState where
  adjLists : List (List Nat)
  removed : List Bool
  degDecrease : List Int
  numRemoved : Nat
  newK : Int
  change : Bool
deriving Repr, DecidableEq

/-- The merge of the two neighbour lists during a degree-two fold: walk
the lists of the two removed neighbours, skip removed vertices and the
folded vertex itself (recognised by name, as in the source), attach every
survivor to the folded vertex and insert the folded vertex into the list
of the survivor.  Returns the unconsumed remainders of both lists together
with the updated adjacency store, the new list of the folded vertex and
the degDecrease account. -/
def foldMerge (vertices : List vertex) (iName iPos : Nat)
    (removed : List Bool) :
    Nat → List Nat → List Nat → List (List Nat) → List Nat →
    List Int →
    List Nat × List Nat × List (List Nat) × List Nat × List Int
  | 0, la, lb, adj, newlist, dd => (la, lb, adj, newlist, dd)
  | fuel + 1, la, lb, adj, newlist, dd =>
    match la, lb with
    | [], _ => (la, lb, adj, newlist, dd)
    | _, [] => (la, lb, adj, newlist, dd)
    | c1 :: ra, c2 :: rb =>
      if boolAt removed c1 = true ∨ (vertAt vertices c1).v = iName then
        foldMerge vertices iName iPos removed fuel ra (c2 :: rb) adj newlist dd
      else if boolAt removed c2 = true ∨ (vertAt vertices c2).v = iName then
        foldMerge vertices iName iPos removed fuel (c1 :: ra) rb adj newlist dd
      else if c1 < c2 then
        let adj := adj.set c1 (lbInsert (listAt adj c1) iPos)
        foldMerge vertices iName iPos removed fuel ra (c2 :: rb) adj
          (newlist ++ [c1]) (dd.set iPos (intAt dd iPos - 1))
      else if c2 < c1 then
        let adj := adj.set c2 (lbInsert (listAt adj c2) iPos)
        foldMerge vertices iName iPos removed fuel (c1 :: ra) rb adj
          (newlist ++ [c2]) (dd.set iPos (intAt dd iPos - 1))
      else
        let adj := adj.set c1 (lbInsert (listAt adj c1) iPos)
        let dd := dd.set iPos (intAt dd iPos - 1)
        let dd := dd.set c1 (intAt dd c1 + 1)
        foldMerge vertices iName iPos removed fuel ra rb adj
          (newlist ++ [c1]) dd

/-- A tail loop of the fold merge over one remaining list. -/
def foldTail (vertices : List vertex) (iName iPos : Nat)
    (removed : List Bool) :
    List Nat → List (List Nat) → List Nat → List Int →
    List (List Nat) × List Nat × List Int
  | [], adj, newlist, dd => (adj, newlist, dd)
  | c :: rest, adj, newlist, dd =>
    if boolAt removed c = false ∧ (vertAt vertices c).v ≠ iName then
      let adj := adj.set c (lbInsert (listAt adj c) iPos)
      foldTail vertices iName iPos removed rest adj (newlist ++ [c])
        (dd.set iPos (intAt dd iPos - 1))
    else
      foldTail vertices iName iPos removed rest adj newlist dd

/-- Bump the degDecrease account of every unremoved neighbour in a list,
as done after each forced removal. -/
def ddBump (l : List Nat) (removed : List Bool) (dd : List Int) :
    List Int :=
  l.foldl (fun dd cur => if boolAt removed cur = false then
      dd.set cur (intAt dd cur + 1) else dd) dd

/-- Effective degree of a vertex record under the degDecrease account. -/
def effDeg (dd : List Int) (x : vertex) : Int :=
  (x.degree : Int) - intAt dd x.pos

/-- The body of the for-loop of degreePreprocessing for the vertex record
at index idx, covering the high-degree, the degree-at-most-one and the
degree-two rules. -/
def dpVertexStep (vertices : List vertex) (st : DPState)
    (idx : Nat) : DPState :=
  if st.newK < 0 then st
  else
    let i := vertAt vertices idx
    if boolAt st.removed i.pos = false ∧ effDeg st.degDecrease i > st.newK then
      let removed := st.removed.set i.pos true
      let dd := ddBump (listAt st.adjLists i.pos) removed st.degDecrease
      { st with removed := removed, degDecrease := dd,
                numRemoved := st.numRemoved + 1, newK := st.newK - 1,
                change := true }
    else if boolAt st.removed i.pos = false ∧ effDeg st.degDecrease i ≤ 1 then
      let removed := st.removed.set i.pos true
      let st' := { st with removed := removed,
                           numRemoved := st.numRemoved + 1 }
      if effDeg st.degDecrease i = 1 then
        let l := listAt st.adjLists i.pos
        let nbIdx := firstUnremoved l st.removed 0
        let neighbor := l.getD nbIdx 0
        let removed' := removed.set neighbor true
        let dd := ddBump (listAt st.adjLists neighbor) removed' st.degDecrease
        { st' with removed := removed', degDecrease := dd,
                   numRemoved := st'.numRemoved + 1, newK := st.newK - 1,
                   change := true }
      else st'
    else if boolAt st.removed i.pos = false ∧ effDeg st.degDecrease i = 2 then
      let l := listAt st.adjLists i.pos
      let n1Idx := firstUnremoved l st.removed 0
      let n2Idx := firstUnremoved l st.removed (n1Idx + 1)
      let nb1 := l.getD n1Idx 0
      let nb2 := l.getD n2Idx 0
      let adjacent :=
        if effDeg st.degDecrease (vertAt vertices nb1) ≤
            effDeg st.degDecrease (vertAt vertices nb2) then
          (listAt st.adjLists nb1).contains nb2
        else
          (listAt st.adjLists nb2).contains nb1
      let removed := (st.removed.set nb1 true).set nb2 true
      if adjacent then
        let removed := removed.set i.pos true
        let dd := ddBump (listAt st.adjLists nb1) removed st.degDecrease
        let dd := ddBump (listAt st.adjLists nb2) removed dd
        { st with removed := removed, degDecrease := dd,
                  numRemoved := st.numRemoved + 3, newK := st.newK - 2,
                  change := true }
      else
        let dd := st.degDecrease.set i.pos (intAt st.degDecrease i.pos + 2)
        let la := listAt st.adjLists nb1
        let lb := listAt st.adjLists nb2
        match foldMerge vertices i.v i.pos removed
            (la.length + lb.length + 2) la lb st.adjLists [] dd with
        | (ra, rb, adj, newlist, dd) =>
          match foldTail vertices i.v i.pos removed ra adj newlist dd with
          | (adj, newlist, dd) =>
            match foldTail vertices i.v i.pos removed rb adj newlist dd with
            | (adj, newlist, dd) =>
              let adj := adj.set i.pos newlist
              { st with adjLists := adj, removed := removed,
                        degDecrease := dd,
                        numRemoved := st.numRemoved + 2,
                        newK := st.newK - 1, change := true }
    else st

/-- The while-loop of degreePreprocessing. -/
def dpLoop (n : Nat) (vertices : List vertex) :
    Nat → DPState → DPState
  | 0, st => st
  | fuel + 1, st =>
    if st.change = true ∧ (n : Int) - (st.numRemoved : Int) > st.newK ∧
        st.newK ≥ 0 then
      let st := (List.range n).foldl (dpVertexStep vertices)
        { st with change := false }
      dpLoop n vertices fuel st
    else st

/-- The kernel generation at the end of degreePreprocessing: renumber the
survivors, rebuild their adjacency lists through the mask, accumulate the
degree sum and track the largest degree. -/
def dpKernel (n : Nat) (vertices : List vertex) (st : DPState) : subgraph :=
  let firstFold := (List.range n).foldl
    (fun (acc : List vertex × List Nat) i =>
      let v := vertAt vertices i
      if boolAt st.removed v.pos = false then
        (acc.1 ++ [{ v := v.v, degree := 0, pos := acc.1.length }],
         acc.2.set v.pos acc.1.length)
      else acc)
    ([], List.replicate n 0)
  match firstFold with
  | (verts, mask) =>
    let secondFold := (List.range n).foldl
      (fun (acc : List vertex × List (List Nat) × Nat × Nat × Nat) i =>
        let v := vertAt vertices i
        if boolAt st.removed v.pos = false then
          let nbrs := (listAt st.adjLists v.pos).filter
            (fun cur => boolAt st.removed cur = false)
          let deg := nbrs.length
          let nv := natAt mask v.pos
          let verts' := acc.1.map
            (fun w => if w.pos = nv then { w with degree := deg } else w)
          let adj' := acc.2.1.set nv (nbrs.map (natAt mask))
          let mSum := acc.2.2.1 + deg
          let ld := if acc.2.2.2.1 < deg then deg else acc.2.2.2.1
          let ldv := if acc.2.2.2.1 < deg then nv else acc.2.2.2.2
          (verts', adj', mSum, ld, ldv)
        else acc)
      (verts, List.replicate verts.length ([] : List Nat), 0, 0, 0)
    match secondFold with
    | (verts', adj', mSum, _, ldv) =>
      { n := verts.length, m := mSum / 2, created := false,
        vertices := verts', adjLists := adj', largestDegreeVertex := ldv }

/-- VertexCover.degreePreprocessing: returns the status, the new value of
k and the kernel. -/
def degreePreprocessing (n : Nat) (k : Int) (vertices : List vertex)
    (adjLists : List (List Nat)) : Int × Int × subgraph :=
  let st0 : DPState :=
    { adjLists := adjLists, removed := List.replicate n false,
      degDecrease := List.replicate n 0, numRemoved := 0, newK := k,
      change := true }
  let st := dpLoop n vertices (n + k.toNat + 2) st0
  if (n : Int) - (st.numRemoved : Int) ≤ st.newK then
    (1, st.newK, subgraph.empty)
  else if st.newK ≤ 0 then
    (-1, st.newK, subgraph.empty)
  else
    let kern := dpKernel n vertices st
    if (kern.m : Int) > k * st.newK then (-1, st.newK, kern)
    else (0, st.newK, kern)

/-- VertexCover.kVertexCover: reduce, then branch on the largest-degree
vertex a of the kernel.  The upper branch reads its vertex names from the
vertices argument of the call, not from the kernel, exactly as the source
does. -/
def kVertexCover : Nat → Nat → Int → List vertex → List (List Nat) → Bool
  | 0, _, _, _, _ => false
  | fuel + 1, n, k, vertices, adjLists =>
    match degreePreprocessing n k vertices adjLists with
    | (status, newK, sG) =>
      if status = -1 then false
      else if status = 1 then true
      else
        let a := sG.largestDegreeVertex
        let up := (List.range sG.n).foldl
          (fun (acc : List vertex × List (List Nat)) i =>
            if i ≠ a then
              let v := vertAt vertices i
              let row := (listAt sG.adjLists v.pos).foldl
                (fun (r : List Nat) cur =>
                  if cur < a then r ++ [cur]
                  else if cur > a then r ++ [cur - 1]
                  else r)
                []
              (acc.1 ++ [{ v := v.v, degree := row.length,
                           pos := acc.1.length }],
               acc.2 ++ [row])
            else acc)
          ([], [])
        if kVertexCover fuel (sG.n - 1) (newK - 1) up.1 up.2 = true then
          true
        else
          let degA := (vertAt sG.vertices a).degree
          let removedDown : Nat → Bool := fun x =>
            if x = a then true
            else (listAt sG.adjLists a).contains x
          let downFirst := (List.range sG.n).foldl
            (fun (acc : List vertex × List Nat) i =>
              let v := vertAt sG.vertices i
              if removedDown v.pos = false then
                (acc.1 ++ [{ v := v.v, degree := 0, pos := acc.1.length }],
                 acc.2.set v.pos acc.1.length)
              else acc)
            ([], List.replicate sG.n 0)
          match downFirst with
          | (dVerts, mask) =>
            let downSecond := (List.range sG.n).foldl
              (fun (acc : List vertex × List (List Nat)) i =>
                let v := vertAt sG.vertices i
                if removedDown v.pos = false then
                  let row := ((listAt sG.adjLists v.pos).filter
                    (fun cur => removedDown cur = false)).map (natAt mask)
                  let nv := natAt mask v.pos
                  (acc.1.map (fun w => if w.pos = nv then
                      { w with degree := row.length } else w),
                   acc.2.set nv row)
                else acc)
              (dVerts, List.replicate dVerts.length ([] : List Nat))
            kVertexCover fuel (sG.n - 1 - degA) (newK - (degA : Int))
              downSecond.1 downSecond.2

/-!
## Parametric search (Clique.cpp)

processSubgraphs is the worker body; the coordinator loop of findMaxClique
binary-searches the candidate clique size.  Worker threads only cooperate
through the monotone success flag and each pivot is judged by a pure
computation, so the bounds produced by any schedule coincide with the
single-worker schedule embedded here.  The midpoint of the coordinator is
computed in double precision in the source; for the integer magnitudes
involved that arithmetic is exact and equals the rounded-up integer
midpoint used here.
-/

/-- The body of processSubgraphs for the pivots of one worker, in queue
order: materialise the pivot complement on demand, then run the Buss
kernel, the Nemhauser-Trotter kernel and the branching solver until one of
them decides.  Returns the success flag and the updated subgraph slots. -/
def processPivots (g : Graph) (rd position : List Nat) (clq : Nat) :
    List Nat → List subgraph → Bool × List subgraph
  | [], sgs => (false, sgs)
  | v :: rest, sgs =>
    let k : Int := (natAt rd v : Int) + 1 - (clq : Int)
    if k ≥ 0 then
      let sgs := if (sgAt sgs v).created = false then generateComp position sgs v
                 else sgs
      match bussGetKernel (bussInit (sgAt sgs v) k) with
      | (status, bst) =>
        if status = -1 then processPivots g rd position clq rest sgs
        else if status = 1 then (true, sgs)
        else
          let k := k - (bst.highDegVertices : Int)
          match ntGetKernel (ntInit bst.kernel k) with
          | (status, kernel2, _, numInVC, _) =>
            if status = -1 then processPivots g rd position clq rest sgs
            else if status = 1 then (true, sgs)
            else
              let k := k - (numInVC : Int)
              if kVertexCover (kernel2.n + 1) kernel2.n k kernel2.vertices
                  kernel2.adjLists = true then
                (true, sgs)
              else
                processPivots g rd position clq rest sgs
    else
      (false, sgs)

/-- The counting sort of findMaxClique: pivots in descending order of
right degree. -/
def sortedPivots (g : Graph) (d : Nat) (rd : List Nat) : List Nat :=
  let buckets0 : List Nat :=
    (List.range g.n).foldl
      (fun b i => b.set (natAt rd i) (natAt b (natAt rd i) + 1))
      (List.replicate (d + 1) 0)
  let buckets1 : List Nat :=
    (((List.range (d + 1)).reverse).foldl
      (fun (acc : List Nat × Nat) k =>
        (acc.1.set k acc.2, acc.2 + natAt acc.1 k))
      (buckets0, 0)).1
  ((List.range g.n).foldl
    (fun (acc : List Nat × List Nat) i =>
      (acc.1.set (natAt acc.2 (natAt rd i)) i,
       acc.2.set (natAt rd i) (natAt acc.2 (natAt rd i) + 1)))
    (List.replicate g.n 0, buckets1)).1

/-- The coordinator loop of findMaxClique, also recording for each
iteration the bounds at entry and the candidate it tests. -/
def cliqueLoop (g : Graph) (rd position : List Nat)
    (pivots : List Nat) :
    Nat → Nat → Nat → Nat → List subgraph →
    List (Nat × Nat × Nat) →
    Nat × Nat × List (Nat × Nat × Nat)
  | 0, lb, ub, _, _, trace => (lb, ub, trace)
  | fuel + 1, lb, ub, clq, sgs, trace =>
    if lb < ub then
      let trace := trace ++ [(lb, ub, clq)]
      match processPivots g rd position clq pivots sgs with
      | (found, sgs) =>
        let lb' := if found then clq else lb
        let ub' := if found then ub else clq - 1
        let clq' := (lb' + ub' + 1) / 2
        cliqueLoop g rd position pivots fuel lb' ub' clq' sgs trace
    else
      (lb, ub, trace)

/-- Clique.findMaxClique: run the degeneracy engine, then binary-search
between the bounds it produced, starting with the upper bound as the first
candidate.  Returns the final bounds and the iteration trace. -/
def findMaxClique (g : Graph) : Nat × Nat × List (Nat × Nat × Nat) :=
  let s := degeneracyOrdering g
  if s.cliqueLB < s.cliqueUB then
    let pivots := sortedPivots g s.d s.rightDegree
    cliqueLoop g s.rightDegree s.position pivots (s.d + 2)
      s.cliqueLB s.cliqueUB s.cliqueUB s.subgraphs []
  else
    (s.cliqueLB, s.cliqueUB, [])

/-- One step of the parametric search, read off the trace: from an
iteration with bounds and candidate e = (l, u, c) to the next one f, a
successful probe sets the lower bound to c, a failed one sets the upper
bound to c - 1, and the next candidate is always the ceiling midpoint of
the new bounds. -/
def entryStep (e f : Nat × Nat × Nat) : Bool :=
  ((f.1 = e.2.2 && f.2.1 = e.2.1) || (f.1 = e.1 && f.2.1 = e.2.2 - 1)) &&
    f.2.2 = (f.1 + f.2.1 + 1) / 2

/-- Every pair of consecutive trace entries is one parametric-search
step. -/
def chainSeq : List (Nat × Nat × Nat) → Bool
  | [] => true
  | [_] => true
  | e :: f :: rest => entryStep e f && chainSeq (f :: rest)

/-!
## Brute-force clique number
-/

/-- A list of vertices of g is a clique when its members are pairwise
adjacent. -/
def isClique (g : Graph) (vs : List Nat) : Bool :=
  decide (vs.Pairwise (fun u w => ((listAt g.adj u).contains w) = true))

/-- The clique number by brute force: the largest pairwise-adjacent
sublist of the vertex range. -/
def omegaBrute (g : Graph) : Nat :=
  ((List.range g.n).sublists.filter (fun vs => isClique g vs)).foldl
    (fun acc vs => max acc vs.length) 0

/-!
## Command-line driver (main.cpp and the Graph constructor)

The driver prints diagnostics and summaries; the only observable judged
here is the process exit code.  main has no return statement and never
calls exit, so every path falls off the end of main, which yields exit
code zero; the constructor communicates failure only through the read
flag.  A failed header extraction on an unopened stream leaves zero
values, so the n times m test also fails then.
-/

/-- The inputs that determine the control path of main: the argument
count, which algorithm string was passed, whether the input file opens,
and the two header numbers. -/
structure MainInput where
  argc : Nat
  algorithmIsD : Bool
  algorithmIsM : Bool
  fileOpens : Bool
  headerN : Nat
  headerM : Nat
deriving Repr, DecidableEq

/-- Whether the Graph constructor leaves its read flag true. -/
def graphReadOk (inp : MainInput) : Bool :=
  let effN := if inp.fileOpens then inp.headerN else 0
  let effM := if inp.fileOpens then inp.headerM else 0
  inp.fileOpens && decide (effN * effM ≠ 0)

/-- The exit code of main on the given inputs: every branch of the source
ends by falling off the end of main. -/
def mainExitCode (inp : MainInput) : Nat :=
  if inp.argc < 4 then
    0
  else
    if graphReadOk inp then
      if inp.algorithmIsD then 0
      else if inp.algorithmIsM then 0
      else 0
    else
      0

/-!
## Concrete instances

The seven-vertex graph below makes the full pipeline terminate with bounds
three while its clique number is four; the five-vertex graph is a
four-cycle with a pendant vertex; the path appears in the Buss analysis.
-/

/-- Seven-vertex graph on which the solver underestimates the clique
number: vertices 0, 1, 3, 5 are pairwise adjacent. -/
def g7 : Graph :=
  { adj := [[1, 2, 3, 5], [0, 3, 5, 6], [0, 4, 5, 6], [0, 1, 4, 5, 6],
            [2, 3, 5, 6], [0, 1, 2, 3, 4], [1, 2, 3, 4]] }

/-- A four-cycle with one pendant vertex attached to vertex 0. -/
def pendantC4 : Graph :=
  { adj := [[1, 3, 4], [0, 2], [1, 3], [0, 2], [0]] }

/-- The path on three vertices, as a subgraph record. -/
def pathP3 : subgraph := mkSubgraph [[1], [0, 2], [1]]

/-- A single isolated vertex, as a subgraph record. -/
def oneVertex : subgraph := mkSubgraph [[]]

/-- A single edge, as a subgraph record. -/
def oneEdge : subgraph := mkSubgraph [[1], [0]]

/-!
# Theorems
-/

/-- C1: on the seven-vertex graph g7 the solver terminates with
cliqueLB = cliqueUB = 3, while brute-force enumeration of complete
subgraphs gives a clique number of 4, so the parametric search does not
compute the clique number. -/
theorem C1_g7_pipeline_underestimates_omega :
    (findMaxClique g7).1 = 3 ∧ (findMaxClique g7).2.1 = 3 ∧
      omegaBrute g7 = 4 := by
  decide

/-- C3: Buss.getKernel is not sound for status -1: on the path with three
vertices and k = 1 it returns -1, although the middle vertex alone is a
vertex cover of size 1. -/
theorem C3_buss_minus_one_unsound :
    (bussRun pathP3 1).1 = -1 ∧ hasVC pathP3 1 := by
  decide

/-- C7 counterexample: on g7 the first iteration of the parametric-search
loop runs with bounds L = 3 and U = 5 and tests the candidate 5, which is
not the rounded-up midpoint 4 of the bounds. -/
theorem C7_first_candidate_not_midpoint :
    (findMaxClique g7).2.2.head? = some (3, 5, 5) ∧ (3 + 5 + 1) / 2 ≠ 5 := by
  decide

/-- C8 counterexample: on a subgraph consisting of one isolated vertex and
k = 0, Buss.getKernel returns 0 and its kernel is that subgraph, whose
only vertex has no neighbour inside the kernel. -/
theorem C8_status_zero_with_isolated_vertex :
    (bussRun oneVertex 0).1 = 0 ∧ (bussRun oneVertex 0).2.1 = oneVertex ∧
      (bussRun oneVertex 0).2.1.n = 1 ∧
      listAt (bussRun oneVertex 0).2.1.adjLists 0 = [] := by
  decide

/-- C9 counterexample: with a single command-line argument the argument
list is malformed, yet the process exit code is 0, not non-zero. -/
theorem C9_malformed_args_exit_zero :
    mainExitCode
      { argc := 1, algorithmIsD := false, algorithmIsM := false,
        fileOpens := false, headerN := 0, headerM := 0 } = 0 ∧ 1 < 4 := by
  decide

/-- C9 amended: the process exits with code 0 on every control path, also
on an unopenable input file, a zero header product and malformed
arguments; failures only suppress the run and print a diagnostic. -/
theorem C9_always_exits_zero (inp : MainInput) : mainExitCode inp = 0 := by
  unfold mainExitCode
  split <;> simp

/-!
## The marking loop of the Buss kernel never stops with marks in hand

The high-degree loop of Buss.getKernel compares original degrees against
k minus the running count, so a vertex that fired once fires on every
later pass; the loop therefore only stops at count zero or beyond k.
-/

/-- A raised change flag stays raised through the rest of a pass. -/
theorem bussMarkPass_change_stays (k : Int) (vs : List vertex) :
    ∀ removed h numRemoved,
      (bussMarkPass k vs removed h numRemoved true).2.2.2 = true := by
  induction vs with
  | nil => intro removed h numRemoved; rfl
  | cons i rest ih =>
    intro removed h numRemoved
    by_cases hk : (h : Int) ≤ k
    · by_cases hfire : (i.degree : Int) > k - (h : Int)
      · simpa [bussMarkPass, hk, hfire] using
          ih (removed.set i.pos true) (h + 1) (numRemoved + 1)
      · simpa [bussMarkPass, hk, hfire] using ih removed h numRemoved
    · simp [bussMarkPass, hk]

/-- A pass that reports no change did nothing and was already called with
the change flag down. -/
theorem bussMarkPass_no_change (k : Int) (vs : List vertex) :
    ∀ removed h numRemoved ch,
      (bussMarkPass k vs removed h numRemoved ch).2.2.2 = false →
      bussMarkPass k vs removed h numRemoved ch =
        (removed, h, numRemoved, ch) ∧ ch = false := by
  induction vs with
  | nil => intro removed h numRemoved ch hch
           exact ⟨rfl, by simpa [bussMarkPass] using hch⟩
  | cons i rest ih =>
    intro removed h numRemoved ch hch
    by_cases hk : (h : Int) ≤ k
    · by_cases hfire : (i.degree : Int) > k - (h : Int)
      · exfalso
        have : (bussMarkPass k rest (removed.set i.pos true) (h + 1)
            (numRemoved + 1) true).2.2.2 = false := by
          simpa [bussMarkPass, hk, hfire] using hch
        have htr := bussMarkPass_change_stays k rest (removed.set i.pos true)
          (h + 1) (numRemoved + 1)
        rw [htr] at this
        exact Bool.true_eq_false.mp this
      · have hch' : (bussMarkPass k rest removed h numRemoved ch).2.2.2 = false := by
          simpa [bussMarkPass, hk, hfire] using hch
        obtain ⟨he, hc⟩ := ih removed h numRemoved ch hch'
        refine ⟨?_, hc⟩
        simpa [bussMarkPass, hk, hfire] using he
    · exact ⟨by simp [bussMarkPass, hk], by simpa [bussMarkPass, hk] using hch⟩

/-- The running count never decreases within a pass. -/
theorem bussMarkPass_h_mono (k : Int) (vs : List vertex) :
    ∀ (removed : List Bool) (h numRemoved : Nat) (ch : Bool),
      h ≤ (bussMarkPass k vs removed h numRemoved ch).2.1 := by
  induction vs with
  | nil => intro removed h numRemoved ch; exact Nat.le_refl h
  | cons i rest ih =>
    intro removed h numRemoved ch
    by_cases hk : (h : Int) ≤ k
    · by_cases hfire : (i.degree : Int) > k - (h : Int)
      · have hrec := ih (removed.set i.pos true) (h + 1) (numRemoved + 1) true
        simpa [bussMarkPass, hk, hfire] using
          Nat.le_trans (Nat.le_succ h) hrec
      · simpa [bussMarkPass, hk, hfire] using ih removed h numRemoved ch
    · simp [bussMarkPass, hk]

/-- A pass that raises the change flag strictly increases the count. -/
theorem bussMarkPass_change_grows (k : Int) (vs : List vertex) :
    ∀ (removed : List Bool) (h numRemoved : Nat),
      (bussMarkPass k vs removed h numRemoved false).2.2.2 = true →
      h < (bussMarkPass k vs removed h numRemoved false).2.1 := by
  induction vs with
  | nil => intro removed h numRemoved hch; cases hch
  | cons i rest ih =>
    intro removed h numRemoved hch
    by_cases hk : (h : Int) ≤ k
    · by_cases hfire : (i.degree : Int) > k - (h : Int)
      · have hrec := bussMarkPass_h_mono k rest (removed.set i.pos true)
          (h + 1) (numRemoved + 1) true
        simpa [bussMarkPass, hk, hfire] using
          Nat.lt_of_lt_of_le (Nat.lt_succ_self h) hrec
      · have hch' : (bussMarkPass k rest removed h numRemoved false).2.2.2 = true := by
          simpa [bussMarkPass, hk, hfire] using hch
        simpa [bussMarkPass, hk, hfire] using ih removed h numRemoved hch'
    · simp [bussMarkPass, hk] at hch

/-- A vertex of degree above the current threshold forces the pass to
report a change. -/
theorem bussMarkPass_witness_fires (k : Int) (vs : List vertex) :
    ∀ (removed : List Bool) (h numRemoved : Nat) (i : vertex),
      i ∈ vs → (h : Int) ≤ k → (i.degree : Int) > k - (h : Int) →
      (bussMarkPass k vs removed h numRemoved false).2.2.2 = true := by
  induction vs with
  | nil => intro removed h numRemoved i hi; cases hi
  | cons j rest ih =>
    intro removed h numRemoved i hi hk hdeg
    rcases List.mem_cons.mp hi with hji | hmem
    · subst hji
      have := bussMarkPass_change_stays k rest (removed.set i.pos true)
        (h + 1) (numRemoved + 1)
      simpa [bussMarkPass, hk, hdeg] using this
    · by_cases hfire : (j.degree : Int) > k - (h : Int)
      · have := bussMarkPass_change_stays k rest (removed.set j.pos true)
          (h + 1) (numRemoved + 1)
        simpa [bussMarkPass, hk, hfire] using this
      · have hrec := ih removed h numRemoved i hmem hk hdeg
        simpa [bussMarkPass, hk, hfire] using hrec

/-- A nonzero count is always justified by a vertex whose degree beats the
current threshold, and passes preserve this. -/
theorem bussMarkPass_justified (k : Int) (vsAll : List vertex) :
    ∀ (vs : List vertex) (removed : List Bool) (h numRemoved : Nat)
      (ch : Bool), (∀ x ∈ vs, x ∈ vsAll) →
      (h ≠ 0 → ∃ i ∈ vsAll, (i.degree : Int) > k - (h : Int)) →
      ((bussMarkPass k vs removed h numRemoved ch).2.1 ≠ 0 →
        ∃ i ∈ vsAll, (i.degree : Int) >
          k - ((bussMarkPass k vs removed h numRemoved ch).2.1 : Int)) := by
  intro vs
  induction vs with
  | nil =>
    intro removed h numRemoved ch _ hJ
    simpa [bussMarkPass] using hJ
  | cons j rest ih =>
    intro removed h numRemoved ch hsub hJ
    have hsub' : ∀ x ∈ rest, x ∈ vsAll :=
      fun x hx => hsub x (List.mem_cons_of_mem j hx)
    by_cases hk : (h : Int) ≤ k
    · by_cases hfire : (j.degree : Int) > k - (h : Int)
      · have hJ' : (h + 1 ≠ 0 →
            ∃ i ∈ vsAll, (i.degree : Int) > k - ((h + 1 : Nat) : Int)) := by
          intro _
          refine ⟨j, hsub j (List.mem_cons_self j rest), ?_⟩
          push_cast
          omega
        have := ih (removed.set j.pos true) (h + 1) (numRemoved + 1) true
          hsub' hJ'
        simpa [bussMarkPass, hk, hfire] using this
      · have := ih removed h numRemoved ch hsub' hJ
        simpa [bussMarkPass, hk, hfire] using this
    · simpa [bussMarkPass, hk] using hJ

/-- The while-loop of the marking phase stops only at count zero or with
the count beyond k, given enough fuel and a justified count. -/
theorem bussMarkLoop_exit (k : Int) (vs : List vertex) :
    ∀ (fuel : Nat) (removed : List Bool) (h numRemoved : Nat),
      (h ≠ 0 → ∃ i ∈ vs, (i.degree : Int) > k - (h : Int)) →
      k.toNat + 2 ≤ fuel + h →
      (bussMarkLoop fuel k vs removed h numRemoved).2.1 = 0 ∨
        ((bussMarkLoop fuel k vs removed h numRemoved).2.1 : Int) > k := by
  intro fuel
  induction fuel with
  | zero =>
    intro removed h numRemoved _ hfuel
    right
    have hfuel' : k.toNat + 2 ≤ h := by omega
    have hcast : (k.toNat : Int) + 2 ≤ (h : Int) := by exact_mod_cast hfuel'
    have hself : k ≤ (k.toNat : Int) := Int.self_le_toNat k
    simp only [bussMarkLoop]
    omega
  | succ fuel ih =>
    intro removed h numRemoved hJ hfuel
    by_cases hk : (h : Int) ≤ k
    · rcases hEq : bussMarkPass k vs removed h numRemoved false with
        ⟨r', h', numRemoved', ch⟩
      cases ch with
      | false =>
        obtain ⟨hstate, -⟩ := bussMarkPass_no_change k vs removed h
          numRemoved false (by rw [hEq])
        rw [hEq] at hstate
        have hh : h' = h := congrArg (fun q => q.2.1) hstate
        simp only [bussMarkLoop, if_pos hk, hEq]
        left
        by_cases hz : h = 0
        · simpa [hh] using hz
        · exfalso
          obtain ⟨i, hi, hdeg⟩ := hJ hz
          have hfire := bussMarkPass_witness_fires k vs removed h numRemoved
            i hi hk hdeg
          rw [hEq] at hfire
          exact Bool.false_ne_true hfire
      | true =>
        have hgrow : h < h' := by
          have := bussMarkPass_change_grows k vs removed h numRemoved
            (by rw [hEq])
          rwa [hEq] at this
        have hJ' : h' ≠ 0 → ∃ i ∈ vs, (i.degree : Int) > k - (h' : Int) := by
          have := bussMarkPass_justified k vs vs removed h numRemoved false
            (fun x hx => hx) hJ
          rwa [hEq] at this
        have hrec := ih r' h' numRemoved' hJ' (by omega)
        simpa [bussMarkLoop, if_pos hk, hEq] using hrec
    · right
      simp only [bussMarkLoop, if_neg hk]
      omega

/-- C8 amended: whenever Buss.getKernel returns 0 from a call with the
counter initialised to zero, nothing was removed: the reported
highDegVertices is 0 and the kernel is exactly the input subgraph, so the
kernel contains an isolated vertex precisely when the input does. -/
theorem C8_status_zero_kernel_is_input (sG : subgraph) (k : Int)
    (hzero : (bussRun sG k).1 = 0) :
    (bussRun sG k).2.1 = sG ∧ (bussRun sG k).2.2 = 0 := by
  have hexit := bussMarkLoop_exit k sG.vertices (k.toNat + 2)
    (List.replicate sG.n false) 0 0 (fun hc => absurd rfl hc)
    (Nat.le_add_right _ _)
  rcases hEq : bussMarkLoop (k.toNat + 2) k sG.vertices
      (List.replicate sG.n false) 0 0 with ⟨removed, h, numRemoved⟩
  rw [hEq] at hexit
  simp only at hexit
  unfold bussRun bussGetKernel bussInit at hzero ⊢
  simp only [hEq] at hzero ⊢
  rcases hexit with hz | hgt
  · subst hz
    rcases lt_or_ge k 0 with hklt | hkge
    · exfalso
      have hcond : ((0 : Nat) : Int) > k := by exact_mod_cast hklt
      rw [if_pos hcond] at hzero
      simp at hzero
    · have hcond : ¬ (((0 : Nat) : Int) > k) := by
        push_cast
        omega
      rw [if_neg hcond] at hzero ⊢
      simp
  · exfalso
    rw [if_pos hgt] at hzero
    simp at hzero
/-- Witness for the amended C8 statement: on a single edge with k = 1 the
kernel call returns 0, and the theorem yields kernel = input and a zero
count there. -/
theorem C8_status_zero_kernel_is_input_witness :
    (bussRun oneEdge 1).1 = 0 ∧
      ((bussRun oneEdge 1).2.1 = oneEdge ∧ (bussRun oneEdge 1).2.2 = 0) :=
  ⟨by decide, C8_status_zero_kernel_is_input oneEdge 1 (by decide)⟩

/-!
## Frame behaviour of the kernels

Neither Buss.getKernel nor NemhauserTrotter.getKernel writes to the input
subgraph: every assignment of both routines targets out-parameters, object
bookkeeping or locals.  The lemmas walk each helper.
-/

/-- Folding a state-preserving function preserves the state property. -/
theorem foldl_preserves {α β : Type} (P : α → Prop) (f : α → β → α)
    (hf : ∀ a b, P a → P (f a b)) :
    ∀ (l : List β) (a : α), P a → P (l.foldl f a) := by
  intro l
  induction l with
  | nil => intro a ha; exact ha
  | cons x xs ih => intro a ha; exact ih (f a x) (hf a x ha)

/-- The Hopcroft-Karp phases only touch the matching arrays. -/
theorem ntHopcroftKarp_preserves :
    ∀ (fuel : Nat) (st : NTState),
      (ntHopcroftKarp fuel st).sG = st.sG ∧
        (ntHopcroftKarp fuel st).k = st.k := by
  intro fuel
  induction fuel with
  | zero => intro st; exact ⟨rfl, rfl⟩
  | succ fuel ih =>
    intro st
    unfold ntHopcroftKarp
    rcases hB : ntBFS st with ⟨dist, dMax, ok⟩
    cases ok with
    | false => simp
    | true =>
      rcases hP : ntHKPhase st.sG.vertices st.sG.adjLists st.sG.n dMax dist
          st.matchL st.matchR with ⟨mL, mR⟩
      simp only [hP, if_pos]
      exact ih { st with matchL := mL, matchR := mR }

/-- Popping a component only touches the Tarjan bookkeeping. -/
theorem ntPopComponent_preserves (n v : Nat) :
    ∀ (fuel : Nat) (st : NTState) (acc : List Nat),
      (ntPopComponent n v fuel st acc).1.sG = st.sG ∧
        (ntPopComponent n v fuel st acc).1.k = st.k := by
  intro fuel
  induction fuel with
  | zero => intro st acc; exact ⟨rfl, rfl⟩
  | succ fuel ih =>
    intro st acc
    unfold ntPopComponent
    rcases hS : st.S with _ | ⟨u, rest⟩
    · exact ⟨rfl, rfl⟩
    · by_cases hv : u = v
      · simp [hv]
      · simpa [hv] using ih _ _

/-- The neighbour visit preserves the input subgraph and parameter when the
recursive call does. -/
theorem ntVisitNbr_preserves (rec : NTState → Nat → NTState)
    (hrec : ∀ s u, (rec s u).sG = s.sG ∧ (rec s u).k = s.k)
    (v n : Nat) (st : NTState) (u : Nat) :
    (ntVisitNbr rec v n st u).sG = st.sG ∧
      (ntVisitNbr rec v n st u).k = st.k := by
  unfold ntVisitNbr
  split
  · exact ⟨(hrec st (u + n)).1, (hrec st (u + n)).2⟩
  split
  · exact ⟨rfl, rfl⟩
  · exact ⟨rfl, rfl⟩

/-- The matching-arc visit preserves the input subgraph and parameter when
the recursive call does. -/
theorem ntVisitMatch_preserves (rec : NTState → Nat → NTState)
    (hrec : ∀ s u, (rec s u).sG = s.sG ∧ (rec s u).k = s.k)
    (v n : Nat) (st : NTState) :
    (ntVisitMatch rec v n st).sG = st.sG ∧
      (ntVisitMatch rec v n st).k = st.k := by
  unfold ntVisitMatch
  dsimp only
  split
  · split
    · exact ⟨(hrec st _).1, (hrec st _).2⟩
    split
    · exact ⟨rfl, rfl⟩
    · exact ⟨rfl, rfl⟩
  · exact ⟨rfl, rfl⟩

/-- The root block only moves components around. -/
theorem ntRootBlock_preserves (n v : Nat) (st : NTState) :
    (ntRootBlock n v st).sG = st.sG ∧ (ntRootBlock n v st).k = st.k := by
  unfold ntRootBlock
  split
  · rcases hP : ntPopComponent n v (st.S.length + 1)
        { st with toBeRemoved := st.toBeRemoved ++ [true] } [] with ⟨st2, comp⟩
    have h := ntPopComponent_preserves n v (st.S.length + 1)
      { st with toBeRemoved := st.toBeRemoved ++ [true] } []
    rw [hP] at h
    simp only [hP]
    exact h
  · exact ⟨rfl, rfl⟩

/-- The whole Tarjan visit leaves the subgraph and the parameter alone. -/
theorem ntStrongConnect_preserves :
    ∀ (fuel : Nat) (st : NTState) (v : Nat),
      (ntStrongConnect fuel st v).sG = st.sG ∧
        (ntStrongConnect fuel st v).k = st.k := by
  intro fuel
  induction fuel with
  | zero => intro st v; exact ⟨rfl, rfl⟩
  | succ fuel ih =>
    intro st v
    have hstep : ∀ (a : NTState) (b : Nat),
        a.sG = st.sG ∧ a.k = st.k →
          (ntVisitNbr (ntStrongConnect fuel) v st.sG.n a b).sG = st.sG ∧
            (ntVisitNbr (ntStrongConnect fuel) v st.sG.n a b).k = st.k := by
      intro a b hab
      have h := ntVisitNbr_preserves (ntStrongConnect fuel) ih v st.sG.n a b
      exact ⟨h.1.trans hab.1, h.2.trans hab.2⟩
    unfold ntStrongConnect
    refine ⟨(ntRootBlock_preserves st.sG.n v _).1.trans ?_,
            (ntRootBlock_preserves st.sG.n v _).2.trans ?_⟩
    · split
      · exact (foldl_preserves (fun a : NTState => a.sG = st.sG ∧ a.k = st.k)
          _ hstep (listAt (ntMarkVisited v st).sG.adjLists v)
          (ntMarkVisited v st) ⟨rfl, rfl⟩).1
      · exact (ntVisitMatch_preserves (ntStrongConnect fuel) ih v st.sG.n
          (ntMarkVisited v st)).1
    · split
      · exact (foldl_preserves (fun a : NTState => a.sG = st.sG ∧ a.k = st.k)
          _ hstep (listAt (ntMarkVisited v st).sG.adjLists v)
          (ntMarkVisited v st) ⟨rfl, rfl⟩).2
      · exact (ntVisitMatch_preserves (ntStrongConnect fuel) ih v st.sG.n
          (ntMarkVisited v st)).2

/-- Tarjan over all copies preserves the subgraph and the parameter. -/
theorem ntTarjan_preserves (st : NTState) :
    (ntTarjan st).sG = st.sG ∧ (ntTarjan st).k = st.k := by
  unfold ntTarjan
  refine foldl_preserves (fun a : NTState => a.sG = st.sG ∧ a.k = st.k)
    _ ?_ _ _ ⟨rfl, rfl⟩
  intro a b hab
  dsimp only
  split
  · have h := ntStrongConnect_preserves (2 * st.sG.n + 2) a b
    exact ⟨h.1.trans hab.1, h.2.trans hab.2⟩
  · exact hab

/-- NemhauserTrotter.getKernel hands back the object state with subgraph
and parameter untouched. -/
theorem ntGetKernel_preserves (st : NTState) :
    (ntGetKernel st).2.2.2.2.sG = st.sG ∧
      (ntGetKernel st).2.2.2.2.k = st.k := by
  have h1 := ntHopcroftKarp_preserves (st.sG.n + 2) st
  have h2 := ntTarjan_preserves (ntHopcroftKarp (st.sG.n + 2) st)
  have hfin : (ntTarjan (ntHopcroftKarp (st.sG.n + 2) st)).sG = st.sG ∧
      (ntTarjan (ntHopcroftKarp (st.sG.n + 2) st)).k = st.k :=
    ⟨h2.1.trans h1.1, h2.2.trans h1.2⟩
  unfold ntGetKernel
  rcases hC : ntCompGraph (ntTarjan (ntHopcroftKarp (st.sG.n + 2) st))
      with ⟨alc, outd, conn⟩
  simp only [hC]
  split
  · exact hfin
  split
  · exact hfin
  split
  · exact hfin
  split
  · exact hfin
  · exact hfin

/-- Buss.getKernel hands back the object state with subgraph and parameter
untouched. -/
theorem bussGetKernel_preserves (st : BussState) :
    (bussGetKernel st).2.sG = st.sG ∧ (bussGetKernel st).2.k = st.k := by
  unfold bussGetKernel
  rcases hM : bussMarkLoop (st.k.toNat + 2) st.k st.sG.vertices
      (List.replicate st.sG.n false) st.highDegVertices 0
      with ⟨removed, h, numRemoved⟩
  simp only [hM]
  split
  · exact ⟨rfl, rfl⟩
  split
  · exact ⟨rfl, rfl⟩
  rcases hI : bussIsolatedPass st.sG.adjLists st.sG.vertices removed numRemoved
      with ⟨removed2, numRemoved2⟩
  simp only [hI]
  split
  · exact ⟨rfl, rfl⟩
  split
  · exact ⟨rfl, rfl⟩
  · exact ⟨rfl, rfl⟩

/-- C10: neither kernelisation routine modifies the input subgraph or the
cover parameter.  Buss.getKernel and NemhauserTrotter.getKernel return
their results through the status and the out-parameters only: for every
object state, the subgraph record sG (vertex count, edge count, vertex
records and adjacency lists) and the parameter k held by the object after
the call are exactly the ones held before it. -/
theorem C10_kernels_preserve_input_subgraph :
    (∀ st : BussState,
      (bussGetKernel st).2.sG = st.sG ∧ (bussGetKernel st).2.k = st.k) ∧
      (∀ st : NTState,
        (ntGetKernel st).2.2.2.2.sG = st.sG ∧
          (ntGetKernel st).2.2.2.2.k = st.k) :=
  ⟨fun st => bussGetKernel_preserves st, fun st => ntGetKernel_preserves st⟩

/-!
## Structure of the parametric-search loop
-/

/-- The coordinator loop appends its new entries to the incoming trace. -/
theorem cliqueLoop_trace_append (g : Graph) (rd pos pivots : List Nat) :
    ∀ (fuel lb ub clq : Nat) (sgs : List subgraph)
      (t : List (Nat × Nat × Nat)),
      (cliqueLoop g rd pos pivots fuel lb ub clq sgs t).2.2 =
        t ++ (cliqueLoop g rd pos pivots fuel lb ub clq sgs []).2.2 := by
  intro fuel
  induction fuel with
  | zero => intro lb ub clq sgs t; simp [cliqueLoop]
  | succ fuel ih =>
    intro lb ub clq sgs t
    by_cases h : lb < ub
    · unfold cliqueLoop
      rcases hp : processPivots g rd pos clq pivots sgs with ⟨found, sgs2⟩
      simp only [if_pos h, hp, List.nil_append]
      conv_rhs => rw [ih]
      rw [ih]
      simp
    · unfold cliqueLoop
      simp only [if_neg h]
      simp

/-- Shape of the coordinator trace started from an empty trace: it is
empty or headed by the entry bounds and candidate, it is nonempty as soon
as the loop has fuel and open bounds, consecutive entries are
parametric-search steps, and every recorded iteration entered with strict
bounds. -/
theorem cliqueLoop_chain (g : Graph) (rd pos pivots : List Nat) :
    ∀ (fuel lb ub clq : Nat) (sgs : List subgraph),
      ((cliqueLoop g rd pos pivots fuel lb ub clq sgs []).2.2 = [] ∨
        ((cliqueLoop g rd pos pivots fuel lb ub clq sgs []).2.2).head? =
          some (lb, ub, clq)) ∧
      (lb < ub → 0 < fuel →
        (cliqueLoop g rd pos pivots fuel lb ub clq sgs []).2.2 ≠ []) ∧
      chainSeq ((cliqueLoop g rd pos pivots fuel lb ub clq sgs []).2.2) =
        true ∧
      (∀ e ∈ (cliqueLoop g rd pos pivots fuel lb ub clq sgs []).2.2,
        e.1 < e.2.1) := by
  intro fuel
  induction fuel with
  | zero =>
    intro lb ub clq sgs
    refine ⟨Or.inl rfl, ?_, rfl, ?_⟩
    · intro _ h0; exact absurd h0 (Nat.lt_irrefl 0)
    · intro e he; exact absurd he (List.not_mem_nil e)
  | succ fuel ih =>
    intro lb ub clq sgs
    by_cases h : lb < ub
    · rcases hp : processPivots g rd pos clq pivots sgs with ⟨found, sgs2⟩
      have h1 : cliqueLoop g rd pos pivots (fuel + 1) lb ub clq sgs [] =
          cliqueLoop g rd pos pivots fuel
            (if found = true then clq else lb)
            (if found = true then ub else clq - 1)
            (((if found = true then clq else lb) +
              (if found = true then ub else clq - 1) + 1) / 2)
            sgs2 [(lb, ub, clq)] := by
        conv_lhs => unfold cliqueLoop
        simp only [if_pos h, hp, List.nil_append]
      have hred : (cliqueLoop g rd pos pivots (fuel + 1) lb ub clq sgs
            []).2.2 =
          (lb, ub, clq) ::
            (cliqueLoop g rd pos pivots fuel
              (if found = true then clq else lb)
              (if found = true then ub else clq - 1)
              (((if found = true then clq else lb) +
                (if found = true then ub else clq - 1) + 1) / 2)
              sgs2 []).2.2 := by
        rw [h1, cliqueLoop_trace_append]
        simp
      obtain ⟨ihHead, ihNe, ihChain, ihAll⟩ :=
        ih (if found = true then clq else lb)
          (if found = true then ub else clq - 1)
          (((if found = true then clq else lb) +
            (if found = true then ub else clq - 1) + 1) / 2) sgs2
      rw [hred]
      refine ⟨Or.inr rfl, fun _ _ => by simp, ?_, ?_⟩
      · rcases hrest : (cliqueLoop g rd pos pivots fuel
            (if found = true then clq else lb)
            (if found = true then ub else clq - 1)
            (((if found = true then clq else lb) +
              (if found = true then ub else clq - 1) + 1) / 2)
            sgs2 []).2.2 with _ | ⟨f, rest⟩
        · rfl
        · rw [hrest] at ihHead ihChain
          have hf : f = ((if found = true then clq else lb),
              (if found = true then ub else clq - 1),
              ((if found = true then clq else lb) +
                (if found = true then ub else clq - 1) + 1) / 2) := by
            rcases ihHead with h0 | h1
            · cases h0
            · simpa using h1
          show (entryStep (lb, ub, clq) f && chainSeq (f :: rest)) = true
          rw [ihChain, Bool.and_true, hf]
          cases found <;> simp [entryStep]
      · intro e he
        rcases List.mem_cons.mp he with he1 | he2
        · rw [he1]; exact h
        · exact ihAll e he2
    · have hred : (cliqueLoop g rd pos pivots (fuel + 1) lb ub clq sgs
            []).2.2 = [] := by
        unfold cliqueLoop
        simp [if_neg h]
      rw [hred]
      refine ⟨Or.inl rfl, ?_, rfl, ?_⟩
      · intro hlt _; exact absurd hlt h
      · intro e he; exact absurd he (List.not_mem_nil e)

/-- C7, amended: the outer loop runs while the lower bound is below the
upper bound; the first iteration tests the candidate inherited from the
degeneracy bounds, namely the upper bound itself, and every later
iteration tests the ceiling midpoint of the bounds current at its entry;
a successful probe raises the lower bound to the candidate, a failed one
lowers the upper bound to the candidate minus one.  The original claim
that every iteration tests the ceiling midpoint is refuted by the first
iteration (see the counterexample theorem). -/
theorem C7_loop_structure (g : Graph)
    (h : (degeneracyOrdering g).cliqueLB < (degeneracyOrdering g).cliqueUB) :
    (findMaxClique g).2.2.head? =
      some ((degeneracyOrdering g).cliqueLB,
        (degeneracyOrdering g).cliqueUB, (degeneracyOrdering g).cliqueUB) ∧
      chainSeq (findMaxClique g).2.2 = true ∧
      ∀ e ∈ (findMaxClique g).2.2, e.1 < e.2.1 := by
  have hfmc : findMaxClique g =
      cliqueLoop g (degeneracyOrdering g).rightDegree
        (degeneracyOrdering g).position
        (sortedPivots g (degeneracyOrdering g).d
          (degeneracyOrdering g).rightDegree)
        ((degeneracyOrdering g).d + 2)
        (degeneracyOrdering g).cliqueLB (degeneracyOrdering g).cliqueUB
        (degeneracyOrdering g).cliqueUB (degeneracyOrdering g).subgraphs
        [] := by
    unfold findMaxClique
    rw [if_pos h]
  obtain ⟨hHead, hNe, hChain, hAll⟩ :=
    cliqueLoop_chain g (degeneracyOrdering g).rightDegree
      (degeneracyOrdering g).position
      (sortedPivots g (degeneracyOrdering g).d
        (degeneracyOrdering g).rightDegree)
      ((degeneracyOrdering g).d + 2)
      (degeneracyOrdering g).cliqueLB (degeneracyOrdering g).cliqueUB
      (degeneracyOrdering g).cliqueUB (degeneracyOrdering g).subgraphs
  have hne := hNe h (Nat.succ_pos _)
  rcases hHead with h0 | h1
  · exact absurd h0 hne
  · rw [hfmc]
    exact ⟨h1, hChain, hAll⟩

/-- The loop-structure theorem applied to the seven-vertex instance: its
degeneracy bounds are open, the first trace entry is the bounds with the
upper bound as candidate, and the whole trace is a parametric-search
chain of iterations with strict bounds. -/
theorem C7_loop_structure_witness :
    (degeneracyOrdering g7).cliqueLB < (degeneracyOrdering g7).cliqueUB ∧
      ((findMaxClique g7).2.2.head? =
        some ((degeneracyOrdering g7).cliqueLB,
          (degeneracyOrdering g7).cliqueUB, (degeneracyOrdering g7).cliqueUB) ∧
        chainSeq (findMaxClique g7).2.2 = true ∧
        ∀ e ∈ (findMaxClique g7).2.2, e.1 < e.2.1) :=
  ⟨by decide, C7_loop_structure g7 (by decide)⟩

/-!
## Correctness of the upper-bound tightening scan

The scan of degeneracyOrdering is a shared-queue breadth-first search over
the tail positions.  The lemmas below relate it to the specification-side
component closure: adjacency facts from well-formedness, stabilisation of
the closure, an exact account of the queue drain, and the start loop.
-/

/-- Adjacency targets are valid distinct vertices and adjacency is
symmetric. -/
theorem wf_adj_mem (g : Graph) (hwf : g.wf) {u w : Nat}
    (h : (listAt g.adj u).contains w = true) :
    w < g.n ∧ w ≠ u ∧ (listAt g.adj w).contains u = true := by
  by_cases hu : u < g.n
  · unfold Graph.wf Graph.wfB at hwf
    rw [List.all_eq_true] at hwf
    have h1 := hwf u (List.mem_range.mpr hu)
    simp only [Bool.and_eq_true, List.all_eq_true] at h1
    have hmem : w ∈ listAt g.adj u := by simpa using h
    have h2 := h1.2 w hmem
    simp only [Bool.and_eq_true, decide_eq_true_eq] at h2
    exact ⟨h2.1.1, h2.1.2, h2.2⟩
  · exfalso
    have hempty : listAt g.adj u = [] :=
      List.getD_eq_default _ _ (le_of_not_lt hu)
    rw [hempty] at h
    simp at h

/-- Members of the current set stay in the grown set. -/
theorem compGrow_subset_left (g : Graph) (pos : List Nat) (dReg : Nat)
    (cur : List Nat) : ∀ w ∈ cur, w ∈ compGrow g pos dReg cur := by
  intro w hw
  unfold compGrow
  exact List.mem_append_left _ hw

/-- Anatomy of a member of the grown set. -/
theorem compGrow_mem (g : Graph) (pos : List Nat) (dReg : Nat)
    (cur : List Nat) {w : Nat} (h : w ∈ compGrow g pos dReg cur) :
    w ∈ cur ∨ (w < g.n ∧ dReg ≤ natAt pos w ∧ w ∉ cur ∧
      ∃ u ∈ cur, (listAt g.adj u).contains w = true) := by
  unfold compGrow at h
  rcases List.mem_append.mp h with h1 | h2
  · exact Or.inl h1
  · right
    have hw := List.mem_of_mem_filter h2
    have hp := List.of_mem_filter h2
    simp only [Bool.and_eq_true, decide_eq_true_eq, Bool.not_eq_true,
      List.any_eq_true] at hp
    refine ⟨List.mem_range.mp hw, hp.1.1, ?_, ?_⟩
    · intro hin
      have hc : cur.contains w = true := by simpa using hin
      simp [hc] at hp
      exact hp.1.2 hin
    · obtain ⟨u, hu, hc⟩ := hp.2
      exact ⟨u, hu, hc⟩

/-- The grown set has no duplicates when the current one has none. -/
theorem compGrow_nodup (g : Graph) (pos : List Nat) (dReg : Nat)
    (cur : List Nat) (h : cur.Nodup) : (compGrow g pos dReg cur).Nodup := by
  unfold compGrow
  refine List.Nodup.append h ((List.nodup_range _).filter _) ?_
  intro a ha hb
  have hp := List.of_mem_filter hb
  simp only [Bool.and_eq_true, Bool.not_eq_true] at hp
  have hc : cur.contains a = true := by simpa using ha
  simp [hc] at hp
  exact hp.1.2 ha

/-- If one round adds nothing, the set is closed under tail steps. -/
theorem compGrow_stable_closed (g : Graph) (pos : List Nat) (dReg : Nat)
    (cur : List Nat) (h : compGrow g pos dReg cur = cur) :
    ∀ u ∈ cur, ∀ w, w < g.n → stepGE g pos dReg u w → w ∈ cur := by
  intro u hu w hwn hstep
  by_contra hnot
  unfold compGrow at h
  have hlen := congrArg List.length h
  simp at hlen
  rcases hstep with ⟨hadj, hpos⟩
  exact hlen w hwn hpos hnot u hu (by simpa using hadj)

/-- If a round adds something, the set grows strictly. -/
theorem compGrow_grows (g : Graph) (pos : List Nat) (dReg : Nat)
    (cur : List Nat) :
    compGrow g pos dReg cur = cur ∨
      cur.length < (compGrow g pos dReg cur).length := by
  rcases hfil : ((List.range g.n).filter (fun w =>
      decide (dReg ≤ natAt pos w) && !(cur.contains w) &&
        cur.any (fun u => (listAt g.adj u).contains w))) with _ | ⟨x, xs⟩
  · left
    unfold compGrow
    rw [hfil]
    simp
  · right
    unfold compGrow
    rw [hfil]
    simp

/-- The closure rounds are iterates of the growth round. -/
theorem compIter_eq_iterate (g : Graph) (pos : List Nat) (dReg : Nat) :
    ∀ (fuel : Nat) (cur : List Nat),
      compIter g pos dReg fuel cur = (compGrow g pos dReg)^[fuel] cur := by
  intro fuel
  induction fuel with
  | zero => intro cur; rfl
  | succ fuel ih =>
    intro cur
    show compIter g pos dReg fuel (compGrow g pos dReg cur) = _
    rw [ih, Function.iterate_succ_apply]

/-- Elements of the closure are the start plus valid tail vertices. -/
theorem compIter_elems (g : Graph) (pos : List Nat) (dReg : Nat) :
    ∀ (fuel : Nat) (cur : List Nat),
      ∀ w ∈ compIter g pos dReg fuel cur, w ∈ cur ∨ w < g.n := by
  intro fuel
  induction fuel with
  | zero => intro cur w hw; exact Or.inl hw
  | succ fuel ih =>
    intro cur w hw
    rcases ih (compGrow g pos dReg cur) w hw with h1 | h2
    · rcases compGrow_mem g pos dReg cur h1 with h3 | h4
      · exact Or.inl h3
      · exact Or.inr h4.1
    · exact Or.inr h2

/-- The closure preserves duplicate-freeness. -/
theorem compIter_nodup (g : Graph) (pos : List Nat) (dReg : Nat) :
    ∀ (fuel : Nat) (cur : List Nat), cur.Nodup →
      (compIter g pos dReg fuel cur).Nodup := by
  intro fuel
  induction fuel with
  | zero => intro cur h; exact h
  | succ fuel ih =>
    intro cur h
    exact ih _ (compGrow_nodup g pos dReg cur h)

/-- The closure keeps its start set. -/
theorem compIter_subset_left (g : Graph) (pos : List Nat) (dReg : Nat) :
    ∀ (fuel : Nat) (cur : List Nat), ∀ w ∈ cur,
      w ∈ compIter g pos dReg fuel cur := by
  intro fuel
  induction fuel with
  | zero => intro cur w hw; exact hw
  | succ fuel ih =>
    intro cur w hw
    exact ih _ _ (compGrow_subset_left g pos dReg cur w hw)

/-- Everything in the closure is reachable from the seeds. -/
theorem compIter_reach (g : Graph) (pos : List Nat) (dReg : Nat) (v : Nat) :
    ∀ (fuel : Nat) (cur : List Nat),
      (∀ x ∈ cur, reachGE g pos dReg v x) →
      ∀ w ∈ compIter g pos dReg fuel cur, reachGE g pos dReg v w := by
  intro fuel
  induction fuel with
  | zero => intro cur hcur w hw; exact hcur w hw
  | succ fuel ih =>
    intro cur hcur w hw
    refine ih _ ?_ w hw
    intro x hx
    rcases compGrow_mem g pos dReg cur hx with h1 | h2
    · exact hcur x h1
    · obtain ⟨u, hu, hadj⟩ := h2.2.2.2
      exact Relation.ReflTransGen.tail (hcur u hu) ⟨hadj, h2.2.1⟩

/-- The closure of a singleton valid start stabilises within n rounds. -/
theorem compIter_final_stable (g : Graph) (pos : List Nat) (dReg : Nat)
    (v : Nat) (hv : v < g.n) :
    compGrow g pos dReg (specComponent g pos dReg v) =
      specComponent g pos dReg v := by
  unfold specComponent
  rw [compIter_eq_iterate]
  by_contra hfin
  have hpre : ∀ j ≤ g.n,
      compGrow g pos dReg ((compGrow g pos dReg)^[j] [v]) ≠
        (compGrow g pos dReg)^[j] [v] := by
    intro j hj hstable
    apply hfin
    have : (compGrow g pos dReg)^[g.n] [v] =
        (compGrow g pos dReg)^[j] [v] := by
      have hsplit : g.n = (g.n - j) + j := by omega
      rw [hsplit, Function.iterate_add_apply]
      exact Function.iterate_fixed hstable _
    rw [this]
    exact hstable
  have hgrow : ∀ j ≤ g.n, j + 1 ≤ ((compGrow g pos dReg)^[j] [v]).length := by
    intro j
    induction j with
    | zero => intro _; simp
    | succ j ihj =>
      intro hj
      have h1 := ihj (by omega)
      have h2 := hpre j (by omega)
      rcases compGrow_grows g pos dReg ((compGrow g pos dReg)^[j] [v]) with
        h3 | h3
      · exact absurd h3 h2
      · rw [Function.iterate_succ_apply']
        omega
  have hlen := hgrow g.n (le_refl _)
  have hnodup : ((compGrow g pos dReg)^[g.n] [v]).Nodup := by
    have := compIter_nodup g pos dReg g.n [v] (List.nodup_singleton v)
    rwa [compIter_eq_iterate] at this
  have hsub : (compGrow g pos dReg)^[g.n] [v] ⊆ List.range g.n := by
    intro w hw
    have := compIter_elems g pos dReg g.n [v] w
      (by rwa [compIter_eq_iterate])
    rcases this with h1 | h2
    · rcases List.mem_singleton.mp h1 with rfl
      exact List.mem_range.mpr hv
    · exact List.mem_range.mpr h2
  have hle := (List.subperm_of_subset hnodup hsub).length_le
  rw [List.length_range] at hle
  omega

/-- The component of a valid vertex is closed under tail steps. -/
theorem specComponent_closed (g : Graph) (hwf : g.wf) (pos : List Nat)
    (dReg : Nat) (v : Nat) (hv : v < g.n) :
    ∀ u ∈ specComponent g pos dReg v, ∀ w, stepGE g pos dReg u w →
      w ∈ specComponent g pos dReg v := by
  intro u hu w hstep
  have hwn : w < g.n := (wf_adj_mem g hwf hstep.1).1
  exact compGrow_stable_closed g pos dReg _
    (compIter_final_stable g pos dReg v hv) u hu w hwn hstep

/-- The component contains everything tail-reachable from its root. -/
theorem specComponent_complete (g : Graph) (hwf : g.wf) (pos : List Nat)
    (dReg : Nat) (v : Nat) (hv : v < g.n) :
    ∀ w, reachGE g pos dReg v w → w ∈ specComponent g pos dReg v := by
  intro w hw
  induction hw with
  | refl =>
    exact compIter_subset_left g pos dReg g.n [v] v (List.mem_singleton_self v)
  | tail hr hstep ih =>
    exact specComponent_closed g hwf pos dReg v hv _ ih _ hstep

/-- Everything in the component is tail-reachable from its root. -/
theorem specComponent_sound (g : Graph) (pos : List Nat) (dReg : Nat)
    (v : Nat) : ∀ w ∈ specComponent g pos dReg v, reachGE g pos dReg v w := by
  intro w hw
  refine compIter_reach g pos dReg v g.n [v] ?_ w hw
  intro x hx
  rcases List.mem_singleton.mp hx with rfl
  exact Relation.ReflTransGen.refl

/-- Read of an appended vector below the boundary. -/
theorem getD_append_lt {α : Type} (l₁ l₂ : List α) (d : α) (i : Nat)
    (h : i < l₁.length) : (l₁ ++ l₂).getD i d = l₁.getD i d := by
  unfold List.getD
  rw [List.get?_append h]

/-- Read of a written cell. -/
theorem getD_set_self {α : Type} (l : List α) (i : Nat) (h : i < l.length)
    (b d : α) : (l.set i b).getD i d = b := by
  unfold List.getD
  rw [List.get?_set_eq]
  simp [List.get?_eq_getElem?, h]

/-- Read of an untouched cell. -/
theorem getD_set_other {α : Type} (l : List α) (i j : Nat) (h : i ≠ j)
    (b d : α) : (l.set i b).getD j d = l.getD j d := by
  unfold List.getD
  rw [List.get?_set_ne _ _ h]

/-- Read of a written boolean cell. -/
theorem boolAt_set_self (l : List Bool) (w : Nat) (h : w < l.length)
    (b : Bool) : boolAt (l.set w b) w = b := by
  unfold boolAt
  exact getD_set_self l w h b false

/-- Read of an untouched boolean cell. -/
theorem boolAt_set_other (l : List Bool) (w x : Nat) (h : w ≠ x)
    (b : Bool) : boolAt (l.set w b) x = boolAt l x := by
  unfold boolAt
  exact getD_set_other l w x h b false

/-- A defaulted read inside the vector is a member. -/
theorem getD_mem {α : Type} (l : List α) (i : Nat) (d : α)
    (h : i < l.length) : l.getD i d ∈ l := by
  rw [List.getD_eq_getElem l d h]
  exact List.getElem_mem h

/-- Splitting a drop at its head. -/
theorem drop_eq_getD_cons {α : Type} (l : List α) (i : Nat) (d : α)
    (h : i < l.length) : l.drop i = l.getD i d :: l.drop (i + 1) := by
  rw [List.drop_eq_getElem_cons h]
  congr 1
  rw [List.getD_eq_getElem l d h]

/-- Membership in a deeper drop. -/
theorem mem_drop_of_mem_drop_succ {α : Type} (l : List α) (i : Nat) (x : α)
    (h : x ∈ l.drop (i + 1)) : x ∈ l.drop i := by
  have hd : l.drop (i + 1) = (l.drop i).drop 1 := by rw [List.drop_drop]
  rw [hd] at h
  exact List.mem_of_mem_drop h

/-- Contains over an append. -/
theorem contains_append_nat (l₁ l₂ : List Nat) (x : Nat) :
    (l₁ ++ l₂).contains x = (l₁.contains x || l₂.contains x) := by
  simp [List.contains_eq_any_beq, List.any_append]

/-- Equally duplicate-free lists with the same members have the same
length. -/
theorem nodup_length_eq_of_mem_iff {l₁ l₂ : List Nat} (h₁ : l₁.Nodup)
    (h₂ : l₂.Nodup) (h : ∀ x, x ∈ l₁ ↔ x ∈ l₂) : l₁.length = l₂.length := by
  rw [← List.toFinset_card_of_nodup h₁, ← List.toFinset_card_of_nodup h₂]
  congr 1
  apply Finset.ext
  intro x
  simp only [List.mem_toFinset]
  exact h x

/-- Positions along a tail walk stay in the tail beyond the start. -/
theorem reachGE_pos (g : Graph) (pos : List Nat) (dReg : Nat) {v w : Nat}
    (h : reachGE g pos dReg v w) : w = v ∨ dReg ≤ natAt pos w := by
  induction h with
  | refl => exact Or.inl rfl
  | tail _ hstep _ => exact Or.inr hstep.2

/-- Tail walks reverse when the start is itself in the tail. -/
theorem reachGE_symm (g : Graph) (hwf : g.wf) (pos : List Nat) (dReg : Nat)
    {v : Nat} (hv : dReg ≤ natAt pos v) :
    ∀ {w : Nat}, reachGE g pos dReg v w → reachGE g pos dReg w v := by
  intro w h
  induction h with
  | refl => exact Relation.ReflTransGen.refl
  | @tail x c hr hstep ih =>
    rcases hstep with ⟨hadj, _⟩
    have hsym := (wf_adj_mem g hwf hadj).2.2
    have hxpos : dReg ≤ natAt pos x := by
      rcases reachGE_pos g pos dReg hr with rfl | hx
      · exact hv
      · exact hx
    exact Relation.ReflTransGen.head ⟨hsym, hxpos⟩ ih

/-- Strict tail walks are tail walks. -/
theorem reachGT_mono (g : Graph) (pos : List Nat) (dReg : Nat) {v w : Nat}
    (h : reachGT g pos dReg v w) : reachGE g pos dReg v w :=
  Relation.ReflTransGen.mono (fun _ _ hs => ⟨hs.1, le_of_lt hs.2⟩) h

/-- From the unique vertex at the boundary position, tail walks are
strict tail walks. -/
theorem reachGE_to_GT_boundary (g : Graph) (hwf : g.wf) (pos : List Nat)
    (dReg : Nat) {r : Nat}
    (hru : ∀ w, w < g.n → natAt pos w = dReg → w = r) :
    ∀ {w : Nat}, reachGE g pos dReg r w → reachGT g pos dReg r w := by
  intro w h
  induction h with
  | refl => exact Relation.ReflTransGen.refl
  | @tail x c hr hstep ih =>
    rcases hstep with ⟨hadj, hposc⟩
    have hcn : c < g.n := (wf_adj_mem g hwf hadj).1
    rcases lt_or_eq_of_le hposc with hlt | heq
    · exact Relation.ReflTransGen.tail ih ⟨hadj, hlt⟩
    · have hcr : c = r := hru c hcn heq.symm
      rw [hcr]
      exact Relation.ReflTransGen.refl

/-- From a start whose tail walks avoid the boundary vertex, tail walks
are strict tail walks. -/
theorem reachGE_to_GT_avoid (g : Graph) (hwf : g.wf) (pos : List Nat)
    (dReg : Nat) {r v : Nat}
    (hru : ∀ w, w < g.n → natAt pos w = dReg → w = r)
    (hnor : ¬ reachGE g pos dReg v r) :
    ∀ {w : Nat}, reachGE g pos dReg v w → reachGT g pos dReg v w := by
  intro w h
  induction h with
  | refl => exact Relation.ReflTransGen.refl
  | @tail x c hr hstep ih =>
    rcases hstep with ⟨hadj, hposc⟩
    have hcn : c < g.n := (wf_adj_mem g hwf hadj).1
    rcases lt_or_eq_of_le hposc with hlt | heq
    · exact Relation.ReflTransGen.tail ih ⟨hadj, hlt⟩
    · exfalso
      apply hnor
      have hcr : c = r := hru c hcn heq.symm
      rw [← hcr]
      exact Relation.ReflTransGen.tail hr ⟨hadj, hposc⟩

/-- Two mutually reachable tail vertices have components of the same
size. -/
theorem specComponent_congr (g : Graph) (hwf : g.wf) (pos : List Nat)
    (dReg : Nat) {v u : Nat} (hv : v < g.n) (hu : u < g.n)
    (hvpos : dReg ≤ natAt pos v) (hr : reachGE g pos dReg v u) :
    (specComponent g pos dReg v).length =
      (specComponent g pos dReg u).length := by
  have hsym : reachGE g pos dReg u v := reachGE_symm g hwf pos dReg hvpos hr
  apply nodup_length_eq_of_mem_iff
    (compIter_nodup g pos dReg g.n [v] (List.nodup_singleton v))
    (compIter_nodup g pos dReg g.n [u] (List.nodup_singleton u))
  intro x
  constructor
  · intro hx
    exact specComponent_complete g hwf pos dReg u hu x
      (hsym.trans (specComponent_sound g pos dReg v x hx))
  · intro hx
    exact specComponent_complete g hwf pos dReg v hv x
      (hr.trans (specComponent_sound g pos dReg u x hx))

/-- Writing true into a false cell lowers the number of false cells by
one. -/
theorem count_false_set_true :
    ∀ (disc : List Bool) (w : Nat), w < disc.length →
      boolAt disc w = false →
      (disc.set w true).count false + 1 = disc.count false := by
  intro disc
  induction disc with
  | nil => intro w hw _; simp at hw
  | cons b bs ih =>
    intro w hw hf
    cases w with
    | zero =>
      have hb : b = false := by simpa [boolAt] using hf
      subst hb
      simp [List.count_cons]
    | succ w =>
      have hw2 : w < bs.length := by simpa using hw
      have hf2 : boolAt bs w = false := by simpa [boolAt] using hf
      have hrec := ih w hw2 hf2
      cases b <;> simp [List.count_cons] <;> omega

/-- Exact account of one neighbour sweep of the scan: the sweep appends
the eligible undiscovered neighbours, marks them, counts them, and
afterwards every eligible neighbour is marked. -/
theorem bfsPush_fold (g : Graph) (pos : List Nat) (dReg : Nat) :
    ∀ (l S : List Nat) (disc : List Bool) (cnt : Nat),
      (∀ w ∈ l, w < g.n) → disc.length = g.n →
      ∃ (Δ : List Nat) (df : List Bool),
        l.foldl
            (fun (acc : List Nat × List Bool × Nat) w =>
              if natAt pos w > dReg ∧ boolAt acc.2.1 w = false then
                (acc.1 ++ [w], acc.2.1.set w true, acc.2.2 + 1)
              else acc)
            (S, disc, cnt) = (S ++ Δ, df, cnt + Δ.length) ∧
        (∀ x, boolAt df x = (boolAt disc x || decide (x ∈ Δ))) ∧
        df.length = g.n ∧
        Δ.Nodup ∧
        (∀ w ∈ Δ, w ∈ l ∧ dReg < natAt pos w ∧ boolAt disc w = false) ∧
        (∀ w ∈ l, dReg < natAt pos w → boolAt df w = true) ∧
        df.count false + Δ.length = disc.count false := by
  intro l
  induction l with
  | nil =>
    intro S disc cnt _ hdl
    refine ⟨[], disc, ?_, ?_, hdl, List.nodup_nil, ?_, ?_, ?_⟩
    · simp
    · intro x; simp
    · intro w hw; cases hw
    · intro w hw; cases hw
    · simp
  | cons w ws ih =>
    intro S disc cnt hln hdl
    have hwn : w < g.n := hln w (List.mem_cons_self w ws)
    have hlw : w < disc.length := by rw [hdl]; exact hwn
    by_cases hcond : natAt pos w > dReg ∧ boolAt disc w = false
    · obtain ⟨Δ2, df, heq, hpt, hlen, hnd, hmem, hcov, hcnt⟩ :=
        ih (S ++ [w]) (disc.set w true) (cnt + 1)
          (fun x hx => hln x (List.mem_cons_of_mem w hx))
          (by rw [List.length_set]; exact hdl)
      refine ⟨w :: Δ2, df, ?_, ?_, hlen, ?_, ?_, ?_, ?_⟩
      · simp only [List.foldl_cons]
        rw [if_pos hcond]
        have hA : S ++ w :: Δ2 = S ++ [w] ++ Δ2 := by simp
        have hC : cnt + (w :: Δ2).length = cnt + 1 + Δ2.length := by
          simp only [List.length_cons]
          omega
        rw [hA, hC]
        exact heq
      · intro x
        rw [hpt x]
        by_cases hx : x = w
        · subst hx
          rw [boolAt_set_self disc x hlw]
          simp
        · rw [boolAt_set_other disc w x (fun hh => hx hh.symm)]
          simp [hx]
      · rw [List.nodup_cons]
        constructor
        · intro hin
          have hss := (hmem w hin).2.2
          rw [boolAt_set_self disc w hlw] at hss
          cases hss
        · exact hnd
      · intro x hx
        rcases List.mem_cons.mp hx with rfl | hx2
        · exact ⟨List.mem_cons_self x ws, hcond.1, hcond.2⟩
        · have h3 := hmem x hx2
          have hxw : x ≠ w := by
            intro hh
            subst hh
            rw [boolAt_set_self disc x hlw] at h3
            exact absurd h3.2.2 (by simp)
          refine ⟨List.mem_cons_of_mem w h3.1, h3.2.1, ?_⟩
          have hot := h3.2.2
          rwa [boolAt_set_other disc w x (fun hh => hxw hh.symm)] at hot
      · intro x hx hxpos
        rcases List.mem_cons.mp hx with rfl | hx2
        · rw [hpt x, boolAt_set_self disc x hlw]
          simp
        · exact hcov x hx2 hxpos
      · have := count_false_set_true disc w hlw hcond.2
        simp only [List.length_cons]
        omega
    · obtain ⟨Δ2, df, heq, hpt, hlen, hnd, hmem, hcov, hcnt⟩ :=
        ih S disc cnt (fun x hx => hln x (List.mem_cons_of_mem w hx)) hdl
      refine ⟨Δ2, df, ?_, hpt, hlen, hnd, ?_, ?_, hcnt⟩
      · simp only [List.foldl_cons]
        rw [if_neg hcond]
        exact heq
      · intro x hx
        have h3 := hmem x hx
        exact ⟨List.mem_cons_of_mem w h3.1, h3.2.1, h3.2.2⟩
      · intro x hx hxpos
        rcases List.mem_cons.mp hx with rfl | hx2
        · have hdisc : boolAt disc x = true := by
            rcases hb : boolAt disc x with _ | _
            · exact absurd ⟨hxpos, hb⟩ hcond
            · rfl
          rw [hpt x, hdisc]
          simp
        · exact hcov x hx2 hxpos

/-- Exact account of the queue drain of the tightening scan: it processes
every queued vertex, appends exactly the newly discovered tail region,
counts it, leaves the marks closed under strict tail steps, and every new
discovery is strictly reachable from some unprocessed queue entry. -/
theorem bfsDrain_spec (g : Graph) (pos : List Nat) (dReg : Nat)
    (hadjn : ∀ u : Nat, ∀ w ∈ listAt g.adj u, w < g.n) :
    ∀ (fuel : Nat) (S : List Nat) (head : Nat) (disc : List Bool)
      (cnt : Nat),
      disc.length = g.n →
      head ≤ S.length →
      (S.length - head) + disc.count false ≤ fuel →
      (∀ i, i < head → ∀ w, stepGT g pos dReg (S.getD i 0) w →
        boolAt disc w = true) →
      ∃ (Δ : List Nat) (df : List Bool),
        bfsDrain g pos dReg fuel S head disc cnt =
          (S ++ Δ, S.length + Δ.length, df, cnt + Δ.length) ∧
        (∀ x, boolAt df x = (boolAt disc x || decide (x ∈ Δ))) ∧
        df.length = g.n ∧
        Δ.Nodup ∧
        (∀ w ∈ Δ, w < g.n ∧ dReg < natAt pos w ∧ boolAt disc w = false) ∧
        (∀ i, i < S.length + Δ.length → ∀ w,
          stepGT g pos dReg ((S ++ Δ).getD i 0) w → boolAt df w = true) ∧
        (∀ w ∈ Δ, ∃ u ∈ S.drop head, reachGT g pos dReg u w) := by
  intro fuel
  induction fuel with
  | zero =>
    intro S head disc cnt hdl hhead hphi hclosed
    have hhe : head = S.length := by omega
    refine ⟨[], disc, ?_, ?_, hdl, List.nodup_nil, ?_, ?_, ?_⟩
    · show (S, head, disc, cnt) = _
      rw [hhe]
      simp
    · intro x; simp
    · intro w hw; cases hw
    · intro i hi w hsw
      refine hclosed i ?_ w ?_
      · simpa [hhe] using hi
      · simpa using hsw
    · intro w hw; cases hw
  | succ fuel ih =>
    intro S head disc cnt hdl hhead hphi hclosed
    by_cases hlt : head < S.length
    · obtain ⟨Δv, d1, hfeq, hfpt, hflen, hfnd, hfmem, hfcov, hfcnt⟩ :=
        bfsPush_fold g pos dReg (listAt g.adj (S.getD head 0)) S disc cnt
          (fun w hw => hadjn _ w hw) hdl
      have hun : bfsDrain g pos dReg (fuel + 1) S head disc cnt =
          bfsDrain g pos dReg fuel (S ++ Δv) (head + 1) d1
            (cnt + Δv.length) := by
        conv_lhs => unfold bfsDrain
        rw [if_pos hlt]
        simp only [hfeq]
      have hφ1 : ((S ++ Δv).length - (head + 1)) + d1.count false ≤
          fuel := by
        have h2 : (S ++ Δv).length = S.length + Δv.length := by simp
        omega
      have hhead1 : head + 1 ≤ (S ++ Δv).length := by
        simp only [List.length_append]
        omega
      have hclosed1 : ∀ i, i < head + 1 → ∀ w,
          stepGT g pos dReg ((S ++ Δv).getD i 0) w →
            boolAt d1 w = true := by
        intro i hi w hsw
        by_cases hih : i < head
        · have hg : (S ++ Δv).getD i 0 = S.getD i 0 :=
            getD_append_lt S Δv 0 i (lt_of_lt_of_le hih hhead)
          rw [hg] at hsw
          have hold := hclosed i hih w hsw
          rw [hfpt w, hold]
          simp
        · have hieq : i = head := by omega
          subst hieq
          have hg : (S ++ Δv).getD i 0 = S.getD i 0 :=
            getD_append_lt S Δv 0 i hlt
          rw [hg] at hsw
          have hwmem : w ∈ listAt g.adj (S.getD i 0) := by
            simpa using hsw.1
          exact hfcov w hwmem hsw.2
      obtain ⟨Δ2, df, heq2, hpt2, hlen2, hnd2, hmem2, hcov2, hatt2⟩ :=
        ih (S ++ Δv) (head + 1) d1 (cnt + Δv.length) hflen hhead1 hφ1
          hclosed1
      refine ⟨Δv ++ Δ2, df, ?_, ?_, hlen2, ?_, ?_, ?_, ?_⟩
      · rw [hun, heq2]
        simp [List.append_assoc, Nat.add_assoc]
      · intro x
        rw [hpt2 x, hfpt x]
        by_cases h1 : x ∈ Δv <;> by_cases h2 : x ∈ Δ2 <;>
          simp [h1, h2, List.mem_append]
      · refine List.Nodup.append hfnd hnd2 ?_
        intro a ha hb
        have hfa := (hmem2 a hb).2.2
        rw [hfpt a] at hfa
        simp [ha] at hfa
      · intro w hw
        rcases List.mem_append.mp hw with h1 | h2
        · have h3 := hfmem w h1
          exact ⟨hadjn _ w h3.1, h3.2.1, h3.2.2⟩
        · have h3 := hmem2 w h2
          have hfa := h3.2.2
          rw [hfpt w] at hfa
          rcases Bool.or_eq_false_iff.mp hfa with ⟨ha, _⟩
          exact ⟨h3.1, h3.2.1, ha⟩
      · intro i hi w hsw
        have hA : S ++ (Δv ++ Δ2) = (S ++ Δv) ++ Δ2 :=
          (List.append_assoc S Δv Δ2).symm
        rw [hA] at hsw
        refine hcov2 i ?_ w hsw
        simp only [List.length_append] at hi ⊢
        omega
      · intro w hw
        have hv0 : S.getD head 0 ∈ S.drop head := by
          rw [drop_eq_getD_cons S head 0 hlt]
          exact List.mem_cons_self _ _
        rcases List.mem_append.mp hw with h1 | h2
        · have h3 := hfmem w h1
          refine ⟨S.getD head 0, hv0, ?_⟩
          exact Relation.ReflTransGen.single ⟨by simpa using h3.1, h3.2.1⟩
        · obtain ⟨u, hu, hr⟩ := hatt2 w h2
          rw [List.drop_append_of_le_length (by omega)] at hu
          rcases List.mem_append.mp hu with hu1 | hu2
          · exact ⟨u, mem_drop_of_mem_drop_succ S head u hu1, hr⟩
          · have h3 := hfmem u hu2
            refine ⟨S.getD head 0, hv0, ?_⟩
            exact Relation.ReflTransGen.trans
              (Relation.ReflTransGen.single ⟨by simpa using h3.1, h3.2.1⟩)
              hr
    · have hhe : head = S.length := by omega
      have hun : bfsDrain g pos dReg (fuel + 1) S head disc cnt =
          (S, head, disc, cnt) := by
        conv_lhs => unfold bfsDrain
        rw [if_neg hlt]
      refine ⟨[], disc, ?_, ?_, hdl, List.nodup_nil, ?_, ?_, ?_⟩
      · rw [hun, hhe]
        simp
      · intro x; simp
      · intro w hw; cases hw
      · intro i hi w hsw
        refine hclosed i ?_ w ?_
        · simpa [hhe] using hi
        · simpa using hsw
      · intro w hw; cases hw

/-- A membership gives a defaulted index. -/
theorem mem_getD_index (l : List Nat) (u : Nat) (h : u ∈ l) :
    ∃ i, i < l.length ∧ l.getD i 0 = u := by
  obtain ⟨i, hi, hg⟩ := List.mem_iff_getElem.mp h
  exact ⟨i, hi, by rw [List.getD_eq_getElem l 0 hi]; exact hg⟩

/-- Marking a vertex that is already marked changes nothing. -/
theorem set_true_of_boolAt_true (l : List Bool) (v : Nat)
    (h : boolAt l v = true) : l.set v true = l := by
  by_cases hv : v < l.length
  · apply List.ext_getElem
    · simp
    · intro i h1 h2
      by_cases hiv : i = v
      · subst hiv
        have hg : l[i] = true := by
          unfold boolAt List.getD at h
          rw [List.get?_eq_getElem?, List.getElem?_eq_getElem h2] at h
          simpa using h
        rw [hg, List.getElem_set_self _]
      · rw [List.getElem_set_ne (fun hh => hiv hh.symm) _]
  · exact List.set_eq_of_length_le (le_of_not_lt hv)

/-- True marks survive further marking. -/
theorem boolAt_set_true_mono (l : List Bool) (v x : Nat)
    (h : boolAt l x = true) : boolAt (l.set v true) x = true := by
  by_cases hvx : v = x
  · subst hvx
    by_cases hv : v < l.length
    · rw [boolAt_set_self l v hv]
    · rw [List.set_eq_of_length_le (le_of_not_lt hv)]
      exact h
  · rw [boolAt_set_other l v x hvx]
    exact h

/-- A set of marks closed under tail steps swallows tail walks. -/
theorem reach_closed_disc (g : Graph) (pos : List Nat) (dReg : Nat)
    (disc : List Bool)
    (hclosed : ∀ u w, boolAt disc u = true → stepGE g pos dReg u w →
      boolAt disc w = true)
    {x y : Nat} (hx : boolAt disc x = true)
    (hr : reachGE g pos dReg x y) : boolAt disc y = true := by
  induction hr with
  | refl => exact hx
  | tail _ hstep ih => exact hclosed _ _ ih hstep

/-- Membership in a dropped range. -/
theorem mem_drop_range (p n m : Nat) :
    p ∈ (List.range n).drop m ↔ m ≤ p ∧ p < n := by
  constructor
  · intro h
    obtain ⟨i, hi, hg⟩ := List.mem_iff_getElem.mp h
    simp only [List.length_drop, List.length_range] at hi
    rw [List.getElem_drop, List.getElem_range] at hg
    omega
  · intro hp
    refine List.mem_iff_getElem.mpr ⟨p - m, ?_, ?_⟩
    · simp only [List.length_drop, List.length_range]
      omega
    · rw [List.getElem_drop, List.getElem_range]
      omega

/-- One fresh start of the scan: the drain returns the size of the
component of the start in the subgraph induced by the tail positions, and
marks exactly that component in addition to what was marked before.  The
bridge hypothesis says the start is either the boundary vertex itself or
the boundary vertex was already discovered. -/
theorem bfsScan_step_fresh (g : Graph) (hwf : g.wf) (pos : List Nat)
    (dReg : Nat) (r : Nat)
    (hru : ∀ w, w < g.n → natAt pos w = dReg → w = r)
    (S : List Nat) (head : Nat) (disc : List Bool) (v : Nat)
    (hhead : head = S.length)
    (hdl : disc.length = g.n)
    (hmemiff : ∀ x, boolAt disc x = true ↔ x ∈ S)
    (hclosedGE : ∀ u w, boolAt disc u = true → stepGE g pos dReg u w →
      boolAt disc w = true)
    (hvn : v < g.n) (hvpos : dReg ≤ natAt pos v)
    (hfresh : boolAt disc v = false)
    (hbridge : natAt pos v = dReg ∨ boolAt disc r = true) :
    ∃ (S2 : List Nat) (d2 : List Bool),
      bfsDrain g pos dReg (2 * g.n + 2) (S ++ [v]) head (disc.set v true)
          1 =
        (S2, S2.length, d2, (specComponent g pos dReg v).length) ∧
      d2.length = g.n ∧
      (∀ x, boolAt d2 x = true ↔
        (boolAt disc x = true ∨ reachGE g pos dReg v x)) ∧
      (∀ x, boolAt d2 x = true ↔ x ∈ S2) ∧
      (∀ u w, boolAt d2 u = true → stepGE g pos dReg u w →
        boolAt d2 w = true) := by
  subst hhead
  have hadjn : ∀ u : Nat, ∀ w ∈ listAt g.adj u, w < g.n :=
    fun u w hw => (wf_adj_mem g hwf (by simpa using hw)).1
  have hvdl : v < disc.length := by rw [hdl]; exact hvn
  have hB : ∀ x, reachGE g pos dReg v x → boolAt disc x = false := by
    intro x hx
    rcases hbx : boolAt disc x with _ | _
    · rfl
    · exfalso
      have hxv : reachGE g pos dReg x v :=
        reachGE_symm g hwf pos dReg hvpos hx
      have hvt := reach_closed_disc g pos dReg disc hclosedGE hbx hxv
      rw [hfresh] at hvt
      cases hvt
  have hGT : ∀ x, reachGE g pos dReg v x → reachGT g pos dReg v x := by
    rcases hbridge with hb | hb
    · have hvr : ∀ w, w < g.n → natAt pos w = dReg → w = v := by
        intro w hwn hwp
        rw [hru w hwn hwp, hru v hvn hb]
      intro x hx
      exact reachGE_to_GT_boundary g hwf pos dReg hvr hx
    · have hnor : ¬ reachGE g pos dReg v r := by
        intro hre
        have hcontra := hB r hre
        rw [hb] at hcontra
        cases hcontra
      intro x hx
      exact reachGE_to_GT_avoid g hwf pos dReg hru hnor hx
  have hcnt0 : (disc.set v true).count false + 1 = disc.count false :=
    count_false_set_true disc v hvdl hfresh
  have hphi : ((S ++ [v]).length - S.length) +
      (disc.set v true).count false ≤ 2 * g.n + 2 := by
    have hle : (disc.set v true).count false ≤ (disc.set v true).length :=
      List.count_le_length _ _
    rw [List.length_set, hdl] at hle
    simp only [List.length_append, List.length_cons, List.length_nil]
    omega
  have hclosed0 : ∀ i, i < S.length → ∀ w,
      stepGT g pos dReg ((S ++ [v]).getD i 0) w →
        boolAt (disc.set v true) w = true := by
    intro i hi w hsw
    rw [getD_append_lt S [v] 0 i hi] at hsw
    have hmem3 : S.getD i 0 ∈ S := getD_mem S i 0 hi
    have htrue : boolAt disc (S.getD i 0) = true := (hmemiff _).mpr hmem3
    have hw2 := hclosedGE _ w htrue ⟨hsw.1, le_of_lt hsw.2⟩
    exact boolAt_set_true_mono disc v w hw2
  obtain ⟨Δ, df, heq, hpt, hlen, hnd, hmem2, hcov, hatt⟩ :=
    bfsDrain_spec g pos dReg hadjn (2 * g.n + 2) (S ++ [v]) S.length
      (disc.set v true) 1 (by rw [List.length_set]; exact hdl)
      (by simp) hphi hclosed0
  have hpt0 : ∀ x, boolAt (disc.set v true) x =
      (boolAt disc x || decide (x = v)) := by
    intro x
    by_cases hx : x = v
    · subst hx
      rw [boolAt_set_self disc x hvdl]
      simp
    · rw [boolAt_set_other disc v x (fun hh => hx hh.symm)]
      simp [hx]
  have hΔdisc : ∀ w ∈ Δ, boolAt disc w = false ∧ w ≠ v := by
    intro w hw
    have h3 := (hmem2 w hw).2.2
    rw [hpt0 w] at h3
    rcases Bool.or_eq_false_iff.mp h3 with ⟨h4, h5⟩
    exact ⟨h4, by simpa using h5⟩
  have hΔreach : ∀ w ∈ Δ, reachGE g pos dReg v w := by
    intro w hw
    obtain ⟨u, hu, hr2⟩ := hatt w hw
    rw [List.drop_append_of_le_length (le_refl _)] at hu
    simp [List.drop_length] at hu
    rw [hu] at hr2
    exact reachGT_mono g pos dReg hr2
  have hd2mem : ∀ x, boolAt df x = true ↔ x ∈ (S ++ [v]) ++ Δ := by
    intro x
    rw [hpt x, hpt0 x]
    simp only [Bool.or_eq_true, decide_eq_true_eq, List.mem_append,
      List.mem_singleton, hmemiff x]
  have hdfGT : ∀ u w, boolAt df u = true → stepGT g pos dReg u w →
      boolAt df w = true := by
    intro u w hu hsw
    obtain ⟨i, hi, hg⟩ := mem_getD_index _ u ((hd2mem u).mp hu)
    refine hcov i ?_ w ?_
    · simp only [List.length_append, List.length_cons, List.length_nil]
        at hi ⊢
      omega
    · rw [hg]
      exact hsw
  have hreachdf : ∀ x, reachGT g pos dReg v x → boolAt df x = true := by
    intro x hgt
    induction hgt with
    | refl =>
      rw [hpt v, hpt0 v]
      simp
    | tail _ hstep ih2 => exact hdfGT _ _ ih2 hstep
  have hR2 : ∀ x, boolAt df x = true ↔
      (boolAt disc x = true ∨ reachGE g pos dReg v x) := by
    intro x
    constructor
    · intro hx
      rw [hpt x, hpt0 x] at hx
      simp only [Bool.or_eq_true, decide_eq_true_eq] at hx
      rcases hx with (h3 | h4) | h2
      · exact Or.inl h3
      · right
        rw [h4]
        exact Relation.ReflTransGen.refl
      · exact Or.inr (hΔreach x h2)
    · intro hx
      rcases hx with hx | hx
      · rw [hpt x]
        rw [boolAt_set_true_mono disc v x hx]
        simp
      · exact hreachdf x (hGT x hx)
  have hvnotΔ : v ∉ Δ := fun hvin => absurd (hΔdisc v hvin).2 (by simp)
  have hmemiff2 : ∀ x, x ∈ v :: Δ ↔ x ∈ specComponent g pos dReg v := by
    intro x
    constructor
    · intro hx
      rcases List.mem_cons.mp hx with hxv | hx2
      · rw [hxv]
        exact specComponent_complete g hwf pos dReg v hvn v
          Relation.ReflTransGen.refl
      · exact specComponent_complete g hwf pos dReg v hvn x
          (hΔreach x hx2)
    · intro hx
      have hrx := specComponent_sound g pos dReg v x hx
      have hdfx : boolAt df x = true := hreachdf x (hGT x hrx)
      rw [hpt x, hpt0 x] at hdfx
      simp only [Bool.or_eq_true, decide_eq_true_eq] at hdfx
      rcases hdfx with (h3 | h4) | h2
      · exfalso
        rw [hB x hrx] at h3
        cases h3
      · rw [h4]
        exact List.mem_cons_self v Δ
      · exact List.mem_cons_of_mem v h2
  have hlencnt : (v :: Δ).length = (specComponent g pos dReg v).length :=
    nodup_length_eq_of_mem_iff (List.nodup_cons.mpr ⟨hvnotΔ, hnd⟩)
      (compIter_nodup g pos dReg g.n [v] (List.nodup_singleton v))
      hmemiff2
  have hcntlen : (specComponent g pos dReg v).length = 1 + Δ.length := by
    rw [← hlencnt]
    simp [Nat.add_comm]
  refine ⟨(S ++ [v]) ++ Δ, df, ?_, hlen, hR2, hd2mem, ?_⟩
  · rw [heq, hcntlen, List.length_append (S ++ [v]) Δ]
  · intro u w hu hsw
    rcases (hR2 u).mp hu with h1 | h1
    · exact (hR2 w).mpr (Or.inl (hclosedGE u w h1 hsw))
    · exact (hR2 w).mpr (Or.inr (Relation.ReflTransGen.tail h1 hsw))

/-- Endpoints of tail walks are valid vertices (or the start itself). -/
theorem reachGE_lt (g : Graph) (hwf : g.wf) (pos : List Nat) (dReg : Nat)
    {v w : Nat} (h : reachGE g pos dReg v w) : w = v ∨ w < g.n := by
  induction h with
  | refl => exact Or.inl rfl
  | tail _ hstep _ => exact Or.inr (wf_adj_mem g hwf hstep.1).1

/-- One repeated start of the scan: a start that was already discovered
contributes a count of one and changes no marks. -/
theorem bfsScan_step_repeat (g : Graph) (hwf : g.wf) (pos : List Nat)
    (dReg : Nat)
    (S : List Nat) (head : Nat) (disc : List Bool) (v : Nat)
    (hhead : head = S.length) (hdl : disc.length = g.n)
    (hmemiff : ∀ x, boolAt disc x = true ↔ x ∈ S)
    (hclosedGE : ∀ u w, boolAt disc u = true → stepGE g pos dReg u w →
      boolAt disc w = true)
    (hrep : boolAt disc v = true) :
    ∃ (S2 : List Nat) (d2 : List Bool),
      bfsDrain g pos dReg (2 * g.n + 2) (S ++ [v]) head (disc.set v true)
          1 = (S2, S2.length, d2, 1) ∧
      d2.length = g.n ∧
      (∀ x, boolAt d2 x = boolAt disc x) ∧
      (∀ x, boolAt d2 x = true ↔ x ∈ S2) ∧
      (∀ u w, boolAt d2 u = true → stepGE g pos dReg u w →
        boolAt d2 w = true) := by
  subst hhead
  have hadjn : ∀ u : Nat, ∀ w ∈ listAt g.adj u, w < g.n :=
    fun u w hw => (wf_adj_mem g hwf (by simpa using hw)).1
  rw [set_true_of_boolAt_true disc v hrep]
  have hphi : ((S ++ [v]).length - S.length) + disc.count false ≤
      2 * g.n + 2 := by
    have hle : disc.count false ≤ disc.length := List.count_le_length _ _
    rw [hdl] at hle
    simp only [List.length_append, List.length_cons, List.length_nil]
    omega
  have hclosed0 : ∀ i, i < S.length → ∀ w,
      stepGT g pos dReg ((S ++ [v]).getD i 0) w →
        boolAt disc w = true := by
    intro i hi w hsw
    rw [getD_append_lt S [v] 0 i hi] at hsw
    have hmem3 : S.getD i 0 ∈ S := getD_mem S i 0 hi
    exact hclosedGE _ w ((hmemiff _).mpr hmem3) ⟨hsw.1, le_of_lt hsw.2⟩
  obtain ⟨Δ, df, heq, hpt, hlen, hnd, hmem2, hcov, hatt⟩ :=
    bfsDrain_spec g pos dReg hadjn (2 * g.n + 2) (S ++ [v]) S.length
      disc 1 hdl (by simp) hphi hclosed0
  have hΔnil : Δ = [] := by
    rw [List.eq_nil_iff_forall_not_mem]
    intro w hw
    have h3 := (hmem2 w hw).2.2
    obtain ⟨u, hu, hr2⟩ := hatt w hw
    rw [List.drop_append_of_le_length (le_refl _)] at hu
    simp [List.drop_length] at hu
    rw [hu] at hr2
    have hwt := reach_closed_disc g pos dReg disc hclosedGE hrep
      (reachGT_mono g pos dReg hr2)
    rw [h3] at hwt
    cases hwt
  subst hΔnil
  have hpt2 : ∀ x, boolAt df x = boolAt disc x := by
    intro x
    rw [hpt x]
    simp
  refine ⟨S ++ [v], df, ?_, hlen, hpt2, ?_, ?_⟩
  · rw [heq]
    simp
  · intro x
    rw [hpt2 x]
    constructor
    · intro hx
      exact List.mem_append_left _ ((hmemiff x).mp hx)
    · intro hx
      rcases List.mem_append.mp hx with h1 | h1
      · exact (hmemiff x).mpr h1
      · have hxv : x = v := by simpa using h1
        rw [hxv]
        exact hrep
  · intro u w hu hsw
    rw [hpt2] at hu ⊢
    exact hclosedGE u w hu hsw

/-- The start loop of the scan, run from a state whose marks are exactly
the queue, closed under tail steps, and known not to contain a component
of the target size: it returns true exactly when some tail component has
the target size, among the vertices it can still see. -/
theorem bfsStarts_correct (g : Graph) (hwf : g.wf) (pos : List Nat)
    (dReg dVal : Nat) (r : Nat)
    (hru : ∀ w, w < g.n → natAt pos w = dReg → w = r)
    (hrpos : natAt pos r = dReg)
    (hd : 1 ≤ dVal) :
    ∀ (starts S : List Nat) (head : Nat) (disc : List Bool),
      head = S.length →
      disc.length = g.n →
      (∀ x, boolAt disc x = true ↔ x ∈ S) →
      (∀ u w, boolAt disc u = true → stepGE g pos dReg u w →
        boolAt disc w = true) →
      (∀ v ∈ starts, v < g.n ∧ dReg ≤ natAt pos v) →
      (boolAt disc r = true ∨ ((∀ x, boolAt disc x = false) ∧
        (starts = [] ∨ ∃ rest2, starts = r :: rest2))) →
      (∀ x, boolAt disc x = true →
        (specComponent g pos dReg x).length ≠ dVal + 1) →
      ((bfsStarts g pos dReg dVal starts S head disc = true →
        ∃ x, x < g.n ∧ dReg ≤ natAt pos x ∧
          (specComponent g pos dReg x).length = dVal + 1) ∧
       (bfsStarts g pos dReg dVal starts S head disc = false →
        ∀ x, x < g.n → dReg ≤ natAt pos x →
          (boolAt disc x = true ∨ x ∈ starts) →
          (specComponent g pos dReg x).length ≠ dVal + 1)) := by
  intro starts
  induction starts with
  | nil =>
    intro S head disc hhead hdl hmemiff hclosedGE hstarts hr hsmall
    constructor
    · intro h
      cases h
    · intro _ x _ _ hcov
      rcases hcov with hcov | hcov
      · exact hsmall x hcov
      · cases hcov
  | cons v rest ih =>
    intro S head disc hhead hdl hmemiff hclosedGE hstarts hr hsmall
    have hv := hstarts v (List.mem_cons_self v rest)
    by_cases hrep : boolAt disc v = true
    · -- repeated start
      obtain ⟨S2, d2, heq, hdl2, hpt2, hmemiff2, hclosed2⟩ :=
        bfsScan_step_repeat g hwf pos dReg S head disc v hhead hdl
          hmemiff hclosedGE hrep
      have hr2 : boolAt d2 r = true := by
        rcases hr with hr1 | ⟨hallf, _⟩
        · rw [hpt2 r]; exact hr1
        · rw [hallf v] at hrep; cases hrep
      have hun : bfsStarts g pos dReg dVal (v :: rest) S head disc =
          bfsStarts g pos dReg dVal rest S2 S2.length d2 := by
        conv_lhs => unfold bfsStarts
        simp only [heq]
        rw [if_neg (by omega : ¬ (1 = dVal + 1))]
      obtain ⟨ihT, ihF⟩ := ih S2 S2.length d2 rfl hdl2 hmemiff2 hclosed2
        (fun x hx => hstarts x (List.mem_cons_of_mem v hx))
        (Or.inl hr2)
        (fun x hx => hsmall x (by rw [← hpt2 x]; exact hx))
      constructor
      · intro h
        rw [hun] at h
        exact ihT h
      · intro h x hxn hxpos hcov
        rw [hun] at h
        refine ihF h x hxn hxpos ?_
        rcases hcov with hcov | hcov
        · left; rw [hpt2 x]; exact hcov
        · rcases List.mem_cons.mp hcov with hxv | hxr
          · left
            rw [hpt2 x, hxv]
            exact hrep
          · exact Or.inr hxr
    · -- fresh start
      have hfresh : boolAt disc v = false := by
        rcases hb : boolAt disc v with _ | _
        · rfl
        · exact absurd hb hrep
      have hbridge : natAt pos v = dReg ∨ boolAt disc r = true := by
        rcases hr with hr1 | ⟨hallf, hshape⟩
        · exact Or.inr hr1
        · rcases hshape with hnil | ⟨rest2, hcons⟩
          · cases hnil
          · have hvr : v = r := by
              injection hcons with h1 _
            left
            rw [hvr]
            exact hrpos
      obtain ⟨S2, d2, heq, hdl2, hR2, hmemiff2, hclosed2⟩ :=
        bfsScan_step_fresh g hwf pos dReg r hru S head disc v hhead hdl
          hmemiff hclosedGE hv.1 hv.2 hfresh hbridge
      by_cases hcnt : (specComponent g pos dReg v).length = dVal + 1
      · have hun : bfsStarts g pos dReg dVal (v :: rest) S head disc =
            true := by
          conv_lhs => unfold bfsStarts
          simp only [heq]
          rw [if_pos hcnt]
        constructor
        · intro _
          exact ⟨v, hv.1, hv.2, hcnt⟩
        · intro h
          rw [hun] at h
          cases h
      · have hun : bfsStarts g pos dReg dVal (v :: rest) S head disc =
            bfsStarts g pos dReg dVal rest S2 S2.length d2 := by
          conv_lhs => unfold bfsStarts
          simp only [heq]
          rw [if_neg hcnt]
        have hr2 : boolAt d2 r = true := by
          rcases hr with hr1 | ⟨hallf, hshape⟩
          · exact (hR2 r).mpr (Or.inl hr1)
          · rcases hshape with hnil | ⟨rest2, hcons⟩
            · cases hnil
            · have hvr : v = r := by injection hcons with h1 _
              rw [← hvr]
              exact (hR2 v).mpr (Or.inr Relation.ReflTransGen.refl)
        have hsmall2 : ∀ x, boolAt d2 x = true →
            (specComponent g pos dReg x).length ≠ dVal + 1 := by
          intro x hx
          rcases (hR2 x).mp hx with h1 | h1
          · exact hsmall x h1
          · have hxn : x < g.n := by
              rcases reachGE_lt g hwf pos dReg h1 with hxv | hlt
              · rw [hxv]; exact hv.1
              · exact hlt
            rw [← specComponent_congr g hwf pos dReg hv.1 hxn hv.2 h1]
            exact hcnt
        obtain ⟨ihT, ihF⟩ := ih S2 S2.length d2 rfl hdl2 hmemiff2 hclosed2
          (fun x hx => hstarts x (List.mem_cons_of_mem v hx))
          (Or.inl hr2) hsmall2
        constructor
        · intro h
          rw [hun] at h
          exact ihT h
        · intro h x hxn hxpos hcov
          rw [hun] at h
          refine ihF h x hxn hxpos ?_
          rcases hcov with hcov | hcov
          · exact Or.inl ((hR2 x).mpr (Or.inl hcov))
          · rcases List.mem_cons.mp hcov with hxv | hxr
            · left
              rw [hxv]
              exact (hR2 v).mpr (Or.inr Relation.ReflTransGen.refl)
            · exact Or.inr hxr

/-- Folding a function that preserves a property for the listed elements
preserves the property. -/
theorem foldl_preserves_mem {α β : Type} (P : α → Prop) (f : α → β → α) :
    ∀ (l : List β), (∀ a, ∀ b ∈ l, P a → P (f a b)) →
      ∀ a, P a → P (l.foldl f a) := by
  intro l
  induction l with
  | nil => intro _ a ha; exact ha
  | cons x xs ih =>
    intro hf a ha
    exact ih (fun a2 b hb ha2 => hf a2 b (List.mem_cons_of_mem x hb) ha2)
      (f a x) (hf a x (List.mem_cons_self x xs) ha)

/-- The neighbour processing of the removal loop never touches the
degeneracy accumulator or the regularity detector. -/
theorem degenNbr_frame (minV : Nat) (st : DegenState × Nat) (nbr : Nat) :
    (degenNbr minV st nbr).1.dRegular = st.1.dRegular ∧
      (degenNbr minV st nbr).1.d = st.1.d := by
  rcases st with ⟨s, nV⟩
  unfold degenNbr
  dsimp only
  repeat' split
  all_goals dsimp only
  all_goals exact ⟨rfl, rfl⟩

/-- The initial degeneracy state has the detector off and degeneracy
zero. -/
theorem degenInit_facts (g : Graph) :
    (degenInit g).dRegular = -1 ∧ (degenInit g).d = 0 := by
  unfold degenInit
  dsimp only
  exact ⟨rfl, rfl⟩

/-- One removal step keeps the detector either off or a valid position
with a positive degeneracy. -/
theorem degenStep_dRegInv (g : Graph) (s : DegenState) (i : Nat)
    (hi : i < g.n)
    (h : s.dRegular = -1 ∨
      (0 ≤ s.dRegular ∧ s.dRegular < (g.n : Int) ∧ 1 ≤ s.d)) :
    (degenStep g s i).dRegular = -1 ∨
      (0 ≤ (degenStep g s i).dRegular ∧
        (degenStep g s i).dRegular < (g.n : Int) ∧
        1 ≤ (degenStep g s i).d) := by
  have hfold : ∀ (s3 : DegenState) (l : List Nat) (minV : Nat),
      (l.foldl (degenNbr minV) (s3, 1)).1.dRegular = s3.dRegular ∧
        (l.foldl (degenNbr minV) (s3, 1)).1.d = s3.d := by
    intro s3 l minV
    exact foldl_preserves (fun (a : DegenState × Nat) =>
        a.1.dRegular = s3.dRegular ∧ a.1.d = s3.d)
      (degenNbr minV)
      (fun a b hab => by
        have hf := degenNbr_frame minV a b
        exact ⟨hf.1.trans hab.1, hf.2.trans hab.2⟩)
      l (s3, 1) ⟨rfl, rfl⟩
  unfold degenStep
  dsimp only
  rw [(hfold _ _ _).1, (hfold _ _ _).2]
  rcases h with h | h <;> (repeat' split) <;> dsimp only <;> omega

/-- The removal loop as a whole keeps the detector either off or a valid
position with a positive degeneracy. -/
theorem degenCore_dRegInv (g : Graph) :
    ((List.range g.n).foldl (degenStep g) (degenInit g)).dRegular = -1 ∨
      (0 ≤ ((List.range g.n).foldl (degenStep g) (degenInit g)).dRegular ∧
        ((List.range g.n).foldl (degenStep g) (degenInit g)).dRegular <
          (g.n : Int) ∧
        1 ≤ ((List.range g.n).foldl (degenStep g) (degenInit g)).d) := by
  refine foldl_preserves_mem (fun s : DegenState => s.dRegular = -1 ∨
      (0 ≤ s.dRegular ∧ s.dRegular < (g.n : Int) ∧ 1 ≤ s.d))
    (degenStep g) (List.range g.n) ?_ (degenInit g) ?_
  · intro a b hb ha
    exact degenStep_dRegInv g a b (List.mem_range.mp hb) ha
  · exact Or.inl (degenInit_facts g).1

/-- A fresh mark vector has no marks. -/
theorem boolAt_replicate_false (n x : Nat) :
    boolAt (List.replicate n false) x = false := by
  unfold boolAt List.getD
  rcases h : (List.replicate n false).get? x with _ | b
  · simp
  · simp only [Option.getD_some]
    exact List.eq_of_mem_replicate (List.get?_mem h)

/-- C6, amended: with the final ordering and position arrays mutually
inverse on the tail (which the bucket engine guarantees), the upper bound
is tightened from its default d + 1 to d exactly when the d-regularity
detector fired at a positive position, the lower bound is at most d, and
no connected component of the subgraph induced by the vertices at
positions at least dRegular has exactly d + 1 vertices.  The detector
position dRegular is in general unrelated to the first position of
right-degree d used by the original claim, whose condition the scan does
not test (see the counterexample theorem). -/
theorem C6_upper_bound_tightening (g : Graph) (hwf : g.wf)
    (htp : tailPermB g (degeneracyOrdering g)
        (degeneracyOrdering g).dRegular.toNat = true) :
    (degeneracyOrdering g).cliqueUB = (degeneracyOrdering g).d ↔
      ((degeneracyOrdering g).dRegular > 0 ∧
        (degeneracyOrdering g).cliqueLB ≤ (degeneracyOrdering g).d ∧
        specBigComponentB g (degeneracyOrdering g).position
          (degeneracyOrdering g).dRegular.toNat
          ((degeneracyOrdering g).d + 1) = false) := by
  obtain ⟨s0, hs0⟩ : ∃ s0,
      (List.range g.n).foldl (degenStep g) (degenInit g) = s0 := ⟨_, rfl⟩
  have hinv := degenCore_dRegInv g
  rw [hs0] at hinv
  have hD : degeneracyOrdering g =
      (if s0.dRegular > 0 ∧ s0.cliqueLB < s0.d + 1 then
        (if bfsStarts g s0.position s0.dRegular.toNat s0.d
            (((List.range g.n).drop s0.dRegular.toNat).map
              (natAt s0.ordering)) [] 0 (List.replicate g.n false) = true
         then { s0 with cliqueUB := s0.d + 1 }
         else { s0 with cliqueUB := s0.d })
       else { s0 with cliqueUB := s0.d + 1 }) := by
    unfold degeneracyOrdering
    rw [hs0]
  rw [hD] at htp ⊢
  by_cases hcond : s0.dRegular > 0 ∧ s0.cliqueLB < s0.d + 1
  · rw [if_pos hcond] at htp ⊢
    have hdr3 : 0 ≤ s0.dRegular ∧ s0.dRegular < (g.n : Int) ∧ 1 ≤ s0.d := by
      rcases hinv with h1 | h1
      · rw [h1] at hcond
        exact absurd hcond.1 (by omega)
      · exact h1
    have hdregn : s0.dRegular.toNat < g.n := by omega
    rcases hsc : bfsStarts g s0.position s0.dRegular.toNat s0.d
        (((List.range g.n).drop s0.dRegular.toNat).map
          (natAt s0.ordering)) [] 0 (List.replicate g.n false) with _ | _
    case pos.false =>
      rw [hsc] at htp
      rw [if_neg Bool.false_ne_true] at htp ⊢
      dsimp only at htp ⊢
      have htp2 : tailPermB g s0 s0.dRegular.toNat = true := htp
      unfold tailPermB at htp2
      rw [Bool.and_eq_true, List.all_eq_true, List.all_eq_true] at htp2
      have hcl1 : ∀ p, s0.dRegular.toNat ≤ p → p < g.n →
          natAt s0.ordering p < g.n ∧
            natAt s0.position (natAt s0.ordering p) = p := by
        intro p hp1 hp2
        have h2 := htp2.1 p ((mem_drop_range p g.n _).mpr ⟨hp1, hp2⟩)
        simp only [Bool.and_eq_true, decide_eq_true_eq] at h2
        exact h2
      have hcl2 : ∀ w, w < g.n → s0.dRegular.toNat ≤ natAt s0.position w →
          natAt s0.position w < g.n ∧
            natAt s0.ordering (natAt s0.position w) = w := by
        intro w hw1 hw2
        have h2 := htp2.2 w (List.mem_range.mpr hw1)
        simp only [Bool.or_eq_true, Bool.not_eq_true', decide_eq_false_iff_not,
          Bool.and_eq_true, decide_eq_true_eq] at h2
        rcases h2 with h2 | h2
        · exact absurd hw2 h2
        · exact h2
      have hrfacts := hcl1 s0.dRegular.toNat (le_refl _) hdregn
      have hru : ∀ w, w < g.n → natAt s0.position w = s0.dRegular.toNat →
          w = natAt s0.ordering s0.dRegular.toNat := by
        intro w hwn hwp
        have h2 := (hcl2 w hwn (by omega)).2
        rw [hwp] at h2
        exact h2.symm
      have hstartsmem : ∀ v ∈ ((List.range g.n).drop
          s0.dRegular.toNat).map (natAt s0.ordering),
          v < g.n ∧ s0.dRegular.toNat ≤ natAt s0.position v := by
        intro v hv
        obtain ⟨p, hp, hpv⟩ := List.mem_map.mp hv
        obtain ⟨hp1, hp2⟩ := (mem_drop_range p g.n _).mp hp
        have h2 := hcl1 p hp1 hp2
        rw [← hpv]
        exact ⟨h2.1, by rw [h2.2]; exact hp1⟩
      have hshape : ((List.range g.n).drop s0.dRegular.toNat).map
          (natAt s0.ordering) =
          natAt s0.ordering s0.dRegular.toNat ::
            ((List.range g.n).drop (s0.dRegular.toNat + 1)).map
              (natAt s0.ordering) := by
        have hdrop := drop_eq_getD_cons (List.range g.n)
          s0.dRegular.toNat 0 (by simpa using hdregn)
        have hget : (List.range g.n).getD s0.dRegular.toNat 0 =
            s0.dRegular.toNat := by
          rw [List.getD_eq_getElem _ 0 (by simpa using hdregn)]
          apply List.getElem_range
        rw [hdrop, hget, List.map_cons]
      obtain ⟨hTdir, hFdir⟩ := bfsStarts_correct g hwf s0.position
        s0.dRegular.toNat s0.d (natAt s0.ordering s0.dRegular.toNat) hru
        hrfacts.2 hdr3.2.2
        (((List.range g.n).drop s0.dRegular.toNat).map (natAt s0.ordering))
        [] 0 (List.replicate g.n false) rfl (by simp)
        (by intro x
            rw [boolAt_replicate_false]
            simp)
        (by intro u w hu
            rw [boolAt_replicate_false] at hu
            cases hu)
        hstartsmem
        (Or.inr ⟨fun x => boolAt_replicate_false g.n x,
          Or.inr ⟨_, hshape⟩⟩)
        (by intro x hx
            rw [boolAt_replicate_false] at hx
            cases hx)
      have hbigf : specBigComponentB g s0.position s0.dRegular.toNat
          (s0.d + 1) = false := by
        rcases hb : specBigComponentB g s0.position s0.dRegular.toNat
            (s0.d + 1) with _ | _
        · rfl
        · exfalso
          unfold specBigComponentB at hb
          rw [List.any_eq_true] at hb
          obtain ⟨v, hvr, hvp⟩ := hb
          simp only [Bool.and_eq_true, decide_eq_true_eq] at hvp
          have hvn := List.mem_range.mp hvr
          refine hFdir hsc v hvn hvp.1 ?_ hvp.2
          right
          have h2 := hcl2 v hvn hvp.1
          refine List.mem_map.mpr ⟨natAt s0.position v, ?_, h2.2⟩
          exact (mem_drop_range _ g.n _).mpr ⟨hvp.1, h2.1⟩
      constructor
      · intro _
        exact ⟨hcond.1, by omega, hbigf⟩
      · intro _
        rfl
    case pos.true =>
      rw [hsc] at htp
      rw [if_pos rfl] at htp ⊢
      dsimp only at htp ⊢
      have htp2 : tailPermB g s0 s0.dRegular.toNat = true := htp
      unfold tailPermB at htp2
      rw [Bool.and_eq_true, List.all_eq_true, List.all_eq_true] at htp2
      have hcl1 : ∀ p, s0.dRegular.toNat ≤ p → p < g.n →
          natAt s0.ordering p < g.n ∧
            natAt s0.position (natAt s0.ordering p) = p := by
        intro p hp1 hp2
        have h2 := htp2.1 p ((mem_drop_range p g.n _).mpr ⟨hp1, hp2⟩)
        simp only [Bool.and_eq_true, decide_eq_true_eq] at h2
        exact h2
      have hcl2 : ∀ w, w < g.n → s0.dRegular.toNat ≤ natAt s0.position w →
          natAt s0.position w < g.n ∧
            natAt s0.ordering (natAt s0.position w) = w := by
        intro w hw1 hw2
        have h2 := htp2.2 w (List.mem_range.mpr hw1)
        simp only [Bool.or_eq_true, Bool.not_eq_true', decide_eq_false_iff_not,
          Bool.and_eq_true, decide_eq_true_eq] at h2
        rcases h2 with h2 | h2
        · exact absurd hw2 h2
        · exact h2
      have hrfacts := hcl1 s0.dRegular.toNat (le_refl _) hdregn
      have hru : ∀ w, w < g.n → natAt s0.position w = s0.dRegular.toNat →
          w = natAt s0.ordering s0.dRegular.toNat := by
        intro w hwn hwp
        have h2 := (hcl2 w hwn (by omega)).2
        rw [hwp] at h2
        exact h2.symm
      have hstartsmem : ∀ v ∈ ((List.range g.n).drop
          s0.dRegular.toNat).map (natAt s0.ordering),
          v < g.n ∧ s0.dRegular.toNat ≤ natAt s0.position v := by
        intro v hv
        obtain ⟨p, hp, hpv⟩ := List.mem_map.mp hv
        obtain ⟨hp1, hp2⟩ := (mem_drop_range p g.n _).mp hp
        have h2 := hcl1 p hp1 hp2
        rw [← hpv]
        exact ⟨h2.1, by rw [h2.2]; exact hp1⟩
      have hshape : ((List.range g.n).drop s0.dRegular.toNat).map
          (natAt s0.ordering) =
          natAt s0.ordering s0.dRegular.toNat ::
            ((List.range g.n).drop (s0.dRegular.toNat + 1)).map
              (natAt s0.ordering) := by
        have hdrop := drop_eq_getD_cons (List.range g.n)
          s0.dRegular.toNat 0 (by simpa using hdregn)
        have hget : (List.range g.n).getD s0.dRegular.toNat 0 =
            s0.dRegular.toNat := by
          rw [List.getD_eq_getElem _ 0 (by simpa using hdregn)]
          apply List.getElem_range
        rw [hdrop, hget, List.map_cons]
      obtain ⟨hTdir, hFdir⟩ := bfsStarts_correct g hwf s0.position
        s0.dRegular.toNat s0.d (natAt s0.ordering s0.dRegular.toNat) hru
        hrfacts.2 hdr3.2.2
        (((List.range g.n).drop s0.dRegular.toNat).map (natAt s0.ordering))
        [] 0 (List.replicate g.n false) rfl (by simp)
        (by intro x
            rw [boolAt_replicate_false]
            simp)
        (by intro u w hu
            rw [boolAt_replicate_false] at hu
            cases hu)
        hstartsmem
        (Or.inr ⟨fun x => boolAt_replicate_false g.n x,
          Or.inr ⟨_, hshape⟩⟩)
        (by intro x hx
            rw [boolAt_replicate_false] at hx
            cases hx)
      have hbigt : specBigComponentB g s0.position s0.dRegular.toNat
          (s0.d + 1) = true := by
        obtain ⟨x, hxn, hxpos, hxlen⟩ := hTdir hsc
        unfold specBigComponentB
        rw [List.any_eq_true]
        refine ⟨x, List.mem_range.mpr hxn, ?_⟩
        simp only [Bool.and_eq_true, decide_eq_true_eq]
        exact ⟨hxpos, hxlen⟩
      constructor
      · intro h
        exact absurd h (by omega)
      · rintro ⟨-, -, hbf⟩
        rw [hbigt] at hbf
        cases hbf
  · rw [if_neg hcond] at htp ⊢
    dsimp only at htp ⊢
    constructor
    · intro h
      exact absurd h (by omega)
    · rintro ⟨h1, h2, -⟩
      exact absurd ⟨h1, by omega⟩ hcond

/-- C6, counterexample: on the four-cycle with a pendant vertex the
engine sets the upper bound to d = 2 rather than the default d + 1,
although the condition of the original claim fails: not every vertex at
positions at or beyond the first position of right-degree d has
right-degree exactly d. -/
theorem C6_tightened_without_spec_condition :
    (degeneracyOrdering pendantC4).cliqueUB =
        (degeneracyOrdering pendantC4).d ∧
      (degeneracyOrdering pendantC4).cliqueUB ≠
        (degeneracyOrdering pendantC4).d + 1 ∧
      specDCoreRegularB pendantC4 (degeneracyOrdering pendantC4) =
        false := by
  decide

/-- The amended tightening theorem applied to the pendant four-cycle: its
well-formedness and tail inversion hold by computation, and the theorem
characterises its tightened bound. -/
theorem C6_upper_bound_tightening_witness :
    pendantC4.wf ∧
      tailPermB pendantC4 (degeneracyOrdering pendantC4)
        (degeneracyOrdering pendantC4).dRegular.toNat = true ∧
      ((degeneracyOrdering pendantC4).cliqueUB =
          (degeneracyOrdering pendantC4).d ↔
        ((degeneracyOrdering pendantC4).dRegular > 0 ∧
          (degeneracyOrdering pendantC4).cliqueLB ≤
            (degeneracyOrdering pendantC4).d ∧
          specBigComponentB pendantC4 (degeneracyOrdering pendantC4).position
            (degeneracyOrdering pendantC4).dRegular.toNat
            ((degeneracyOrdering pendantC4).d + 1) = false)) :=
  ⟨by decide, by decide,
    C6_upper_bound_tightening pendantC4 (by decide) (by decide)⟩

/-!
## Correctness of the complement materialiser

The merge walks of generateCompGraphRightNeighbors are verified against
the adjacency of the input graph, for any state satisfying the contract
compInputOkB that the degeneracy phase establishes.
-/

/-- A defaulted read through a drop. -/
theorem getD_drop {α : Type} (l : List α) (k i : Nat) (d : α) :
    (l.drop k).getD i d = l.getD (k + i) d := by
  unfold List.getD
  rw [List.get?_eq_getElem?, List.get?_eq_getElem?, List.getElem?_drop]

/-- A defaulted read through a map of vertex names. -/
theorem getD_map_name (l2 : List vertex) (i : Nat) (h : i < l2.length) :
    (l2.map (fun x => x.v)).getD i 0 = nameAt l2 i := by
  unfold nameAt vertAt List.getD
  rw [List.get?_eq_getElem?, List.get?_eq_getElem?]
  rw [List.getElem?_map]
  rw [List.getElem?_eq_getElem h]
  simp

/-- Reads of a strictly sorted list grow with the index. -/
theorem sortedLtB_getD :
    ∀ (l : List Nat), sortedLtB l = true →
      ∀ i j, i < j → j < l.length → l.getD i 0 < l.getD j 0 := by
  intro l
  induction l with
  | nil => intro _ i j _ hj; simp at hj
  | cons a rest ih =>
    intro hs i j hij hj
    rcases rest with _ | ⟨b, rest2⟩
    · simp at hj
      omega
    · have hs2 : (decide (a < b) && sortedLtB (b :: rest2)) = true := hs
      rw [Bool.and_eq_true, decide_eq_true_eq] at hs2
      cases i with
      | zero =>
        cases j with
        | zero => omega
        | succ j2 =>
          show a < (b :: rest2).getD j2 0
          cases j2 with
          | zero => exact hs2.1
          | succ j3 =>
            have := ih hs2.2 0 (j3 + 1) (by omega) (by simpa using hj)
            calc a < b := hs2.1
              _ < _ := this
      | succ i2 =>
        cases j with
        | zero => omega
        | succ j2 =>
          exact ih hs2.2 i2 j2 (by omega) (by simpa using hj)

/-- Strict sortedness of the name tail, read back at vertex indices. -/
theorem name_tail_sorted (l2 : List vertex)
    (hs : sortedLtB ((l2.map (fun x => x.v)).drop 1) = true) :
    ∀ p q, 1 ≤ p → p < q → q < l2.length → nameAt l2 p < nameAt l2 q := by
  intro p q hp hpq hq
  have h1 := sortedLtB_getD _ hs (p - 1) (q - 1) (by omega)
    (by simp; omega)
  rw [getD_drop, getD_drop] at h1
  have hp2 : 1 + (p - 1) = p := by omega
  have hq2 : 1 + (q - 1) = q := by omega
  rw [hp2, hq2, getD_map_name _ _ (by omega), getD_map_name _ _ hq] at h1
  exact h1

/-- Membership in the name tail, read back at vertex indices. -/
theorem mem_name_tail (l2 : List vertex) (b : Nat) :
    b ∈ (l2.map (fun x => x.v)).drop 1 ↔
      ∃ q, 1 ≤ q ∧ q < l2.length ∧ nameAt l2 q = b := by
  constructor
  · intro h
    obtain ⟨i, hi, hg⟩ := List.mem_iff_getElem.mp h
    simp only [List.length_drop, List.length_map] at hi
    rw [List.getElem_drop] at hg
    have hlen : 1 + i < l2.length := by omega
    refine ⟨1 + i, by omega, hlen, ?_⟩
    rw [← hg]
    have := getD_map_name l2 (1 + i) hlen
    rw [List.getD_eq_getElem _ 0 (by simpa using hlen)] at this
    exact this.symm
  · rintro ⟨q, hq1, hq2, hqv⟩
    have hx : vertAt l2 q ∈ l2.drop 1 := by
      refine List.mem_iff_getElem.mpr ⟨q - 1, ?_, ?_⟩
      · simp only [List.length_drop]
        omega
      · rw [List.getElem_drop]
        unfold vertAt
        rw [List.getD_eq_getElem l2 _ hq2]
        congr 1
        omega
    have hmap : (l2.map (fun x => x.v)).drop 1 =
        (l2.drop 1).map (fun x => x.v) := by
      rw [List.map_drop]
    rw [hmap]
    exact List.mem_map.mpr ⟨vertAt l2 q, hx, hqv⟩

/-- A matrix write preserves the shape. -/
theorem matSet_shape (m : List (List Bool)) (i j : Nat) (x : Bool) :
    (matSet m i j x).length = m.length ∧
      ∀ r, ((matSet m i j x).getD r []).length = (m.getD r []).length := by
  constructor
  · unfold matSet
    exact List.length_set ..
  · intro r
    unfold matSet
    by_cases hri : r = i
    · subst hri
      by_cases hr : r < m.length
      · rw [getD_set_self m r hr]
        exact List.length_set ..
      · rw [List.set_eq_of_length_le (le_of_not_lt hr)]
    · rw [getD_set_other m i r (fun hh => hri hh.symm)]

/-- Reading the written matrix cell. -/
theorem matAt_matSet_self (m : List (List Bool)) (i j : Nat) (x : Bool)
    (hi : i < m.length) (hj : j < (m.getD i []).length) :
    matAt (matSet m i j x) i j = x := by
  unfold matAt matSet
  rw [getD_set_self m i hi]
  unfold boolAt
  exact getD_set_self _ j hj x false

/-- Reading an untouched matrix cell. -/
theorem matAt_matSet_other (m : List (List Bool)) (i j : Nat) (x : Bool)
    (r c : Nat) (h : ¬(r = i ∧ c = j)) :
    matAt (matSet m i j x) r c = matAt m r c := by
  unfold matAt matSet
  by_cases hri : r = i
  · subst hri
    have hcj : c ≠ j := fun hh => h ⟨rfl, hh⟩
    by_cases hr : r < m.length
    · rw [getD_set_self m r hr]
      unfold boolAt
      exact getD_set_other _ j c (fun hh => hcj hh.symm) x false
    · rw [List.set_eq_of_length_le (le_of_not_lt hr)]
  · rw [getD_set_other m i r (fun hh => hri hh.symm)]

/-- The fresh matrix is all false. -/
theorem matAt_replicate_false (n x y : Nat) :
    matAt (List.replicate n (List.replicate n false)) x y = false := by
  unfold matAt boolAt List.getD
  simp only [List.get?_eq_getElem?]
  rcases h : (List.replicate n (List.replicate n false))[x]? with _ | row
  · simp
  · have hrow : row = List.replicate n false :=
      List.eq_of_mem_replicate (List.getElem?_mem h)
    simp only [Option.getD_some, hrow]
    rcases h2 : (List.replicate n false)[y]? with _ | b
    · simp
    · simp only [Option.getD_some]
      exact List.eq_of_mem_replicate (List.getElem?_mem h2)

/-- The edge recording: both incidence bits are set, names and positional
records and shape survive. -/
theorem compAddEdge_spec (ii c1 : Nat) (verts : List vertex)
    (inc : List (List Bool)) (m n : Nat)
    (hlen : verts.length = n)
    (hpos : ∀ idx, idx < n → (vertAt verts idx).pos = idx)
    (hii : ii < n) (hc1 : c1 < n)
    (hincl : inc.length = n)
    (hrow : ∀ r, r < n → (inc.getD r []).length = n) :
    (compAddEdge ii c1 verts inc m).1.length = n ∧
      (∀ idx, (vertAt (compAddEdge ii c1 verts inc m).1 idx).v =
          (vertAt verts idx).v ∧
        (vertAt (compAddEdge ii c1 verts inc m).1 idx).pos =
          (vertAt verts idx).pos) ∧
      (compAddEdge ii c1 verts inc m).2.1.length = n ∧
      (∀ r, r < n →
        ((compAddEdge ii c1 verts inc m).2.1.getD r []).length = n) ∧
      (∀ x y, matAt (compAddEdge ii c1 verts inc m).2.1 x y = true ↔
        (matAt inc x y = true ∨ (x = ii ∧ y = c1) ∨ (x = c1 ∧ y = ii))) := by
  unfold compAddEdge
  dsimp only
  have hstab : ∀ (vs : List vertex) (p : Nat) (rec : vertex) (idx : Nat),
      rec.v = (vertAt vs p).v → rec.pos = (vertAt vs p).pos →
      (vertAt (vs.set p rec) idx).v = (vertAt vs idx).v ∧
        (vertAt (vs.set p rec) idx).pos = (vertAt vs idx).pos := by
    intro vs p rec idx hv hp
    unfold vertAt
    by_cases hpi : p = idx
    · subst hpi
      by_cases hplen : p < vs.length
      · rw [getD_set_self vs p hplen]
        unfold vertAt at hv hp
        exact ⟨hv, hp⟩
      · rw [List.set_eq_of_length_le (le_of_not_lt hplen)]
        exact ⟨rfl, rfl⟩
    · rw [getD_set_other vs p idx hpi]
      exact ⟨rfl, rfl⟩
  constructor
  · simp [hlen]
  constructor
  · intro idx
    have h1 := hstab verts ii { vertAt verts ii with
        degree := (vertAt verts ii).degree + 1 } idx rfl rfl
    have h2 := hstab (verts.set ii { vertAt verts ii with
        degree := (vertAt verts ii).degree + 1 }) c1
      { vertAt (verts.set ii { vertAt verts ii with
          degree := (vertAt verts ii).degree + 1 }) c1 with
        degree := (vertAt (verts.set ii { vertAt verts ii with
          degree := (vertAt verts ii).degree + 1 }) c1).degree + 1 } idx
      rfl rfl
    exact ⟨h2.1.trans h1.1, h2.2.trans h1.2⟩
  have hsh1 := matSet_shape inc ((vertAt verts ii).pos)
    ((vertAt verts c1).pos) true
  have hsh2 := matSet_shape (matSet inc ((vertAt verts ii).pos)
    ((vertAt verts c1).pos) true) ((vertAt verts c1).pos)
    ((vertAt verts ii).pos) true
  constructor
  · rw [hsh2.1, hsh1.1, hincl]
  constructor
  · intro r hr
    rw [hsh2.2 r, hsh1.2 r]
    exact hrow r hr
  · intro x y
    rw [hpos ii hii, hpos c1 hc1] at hsh1 hsh2 ⊢
    by_cases hx2 : x = c1 ∧ y = ii
    · rw [hx2.1, hx2.2]
      rw [matAt_matSet_self _ c1 ii true
        (by rw [hsh1.1, hincl]; exact hc1)
        (by rw [hsh1.2 c1, hrow c1 hc1]; exact hii)]
      simp
    · rw [matAt_matSet_other _ c1 ii true x y hx2]
      by_cases hx1 : x = ii ∧ y = c1
      · rw [hx1.1, hx1.2]
        rw [matAt_matSet_self inc ii c1 true
          (by rw [hincl]; exact hii)
          (by rw [hrow ii hii]; exact hc1)]
        simp
      · rw [matAt_matSet_other inc ii c1 true x y hx1]
        constructor
        · intro h
          exact Or.inl h
        · intro h
          rcases h with h | h | h
          · exact h
          · exact absurd h hx1
          · exact absurd h hx2

/-- Membership in the index list of the materialiser loops. -/
theorem mem_range_drop_one (n r : Nat) :
    r ∈ (List.range n).drop 1 ↔ 1 ≤ r ∧ r < n := by
  constructor
  · intro h
    obtain ⟨i, hi, hg⟩ := List.mem_iff_getElem.mp h
    simp only [List.length_drop, List.length_range] at hi
    rw [List.getElem_drop] at hg
    have hb : 1 + i < (List.range n).length := by
      simp only [List.length_range]
      omega
    have h2 : (List.range n)[1 + i] = 1 + i := by
      apply List.getElem_range
    rw [h2] at hg
    omega
  · rintro ⟨h1, h2⟩
    refine List.mem_iff_getElem.mpr ⟨r - 1, ?_, ?_⟩
    · simp only [List.length_drop, List.length_range]
      omega
    · rw [List.getElem_drop]
      have hb : 1 + (r - 1) < (List.range n).length := by
        simp only [List.length_range]
        omega
      have h3 : (List.range n)[1 + (r - 1)] = 1 + (r - 1) := by
        apply List.getElem_range
      rw [h3]
      omega

/-- Extending the fired range of a recording loop over a slot that does
not fire. -/
theorem bitsRange_noadd (ii c1 B : Nat) (P : Nat → Prop)
    (inc inc' : List (List Bool))
    (hIH : ∀ x y, matAt inc' x y = true ↔
      (matAt inc x y = true ∨ ∃ idx, c1 + 1 ≤ idx ∧ idx < B ∧
        ((x = ii ∧ y = idx) ∨ (x = idx ∧ y = ii)) ∧ P idx))
    (hnof : ¬ P c1) :
    ∀ x y, matAt inc' x y = true ↔
      (matAt inc x y = true ∨ ∃ idx, c1 ≤ idx ∧ idx < B ∧
        ((x = ii ∧ y = idx) ∨ (x = idx ∧ y = ii)) ∧ P idx) := by
  intro x y
  rw [hIH x y]
  constructor
  · rintro (h | ⟨idx, hge, hlt, hp, hf⟩)
    · exact Or.inl h
    · exact Or.inr ⟨idx, by omega, hlt, hp, hf⟩
  · rintro (h | ⟨idx, hge, hlt, hp, hf⟩)
    · exact Or.inl h
    · rcases Nat.eq_or_lt_of_le hge with heq | hlt2
      · exact absurd hf (heq ▸ hnof)
      · exact Or.inr ⟨idx, hlt2, hlt, hp, hf⟩

/-- Extending the fired range of a recording loop over a slot that
fires. -/
theorem bitsRange_add (ii c1 B : Nat) (P : Nat → Prop)
    (inc incE inc' : List (List Bool))
    (hA : ∀ x y, matAt incE x y = true ↔
      (matAt inc x y = true ∨ (x = ii ∧ y = c1) ∨ (x = c1 ∧ y = ii)))
    (hIH : ∀ x y, matAt inc' x y = true ↔
      (matAt incE x y = true ∨ ∃ idx, c1 + 1 ≤ idx ∧ idx < B ∧
        ((x = ii ∧ y = idx) ∨ (x = idx ∧ y = ii)) ∧ P idx))
    (hlt : c1 < B)
    (hf : P c1) :
    ∀ x y, matAt inc' x y = true ↔
      (matAt inc x y = true ∨ ∃ idx, c1 ≤ idx ∧ idx < B ∧
        ((x = ii ∧ y = idx) ∨ (x = idx ∧ y = ii)) ∧ P idx) := by
  intro x y
  rw [hIH x y, hA x y]
  constructor
  · rintro ((h | hp | hp) | ⟨idx, hge, hlt2, hp, hf2⟩)
    · exact Or.inl h
    · exact Or.inr ⟨c1, le_refl c1, hlt, Or.inl hp, hf⟩
    · exact Or.inr ⟨c1, le_refl c1, hlt, Or.inr hp, hf⟩
    · exact Or.inr ⟨idx, by omega, hlt2, hp, hf2⟩
  · rintro (h | ⟨idx, hge, hlt2, hp, hf2⟩)
    · exact Or.inl (Or.inl h)
    · rcases Nat.eq_or_lt_of_le hge with heq | hgt
      · subst heq
        rcases hp with hp | hp
        · exact Or.inl (Or.inr (Or.inl hp))
        · exact Or.inl (Or.inr (Or.inr hp))
      · exact Or.inr ⟨idx, by omega, hlt2, hp, hf2⟩

/-- The merge walk of one outer pass: the counters only move forward, the
names and positional records survive, the matrix keeps its shape, the
incidence bits gained are exactly the firing slots of the range passed
over, and every slot left to the tail loop exceeds all names of the outer
list. -/
theorem compWalk_spec (position : List Nat) (iV ii n : Nat)
    (l2 : List vertex) (nm : Nat → Nat) (hiin : ii < n)
    (hsorted : ∀ p q, 1 ≤ p → p < q → q < n → nm p < nm q)
    (hl2s : ∀ p q, 1 ≤ p → p < q → q < l2.length →
      nameAt l2 p < nameAt l2 q) :
    ∀ (fuel c1 c2 : Nat) (verts : List vertex) (inc : List (List Bool))
      (m : Nat),
      n - c1 + (l2.length - c2) < fuel →
      verts.length = n →
      (∀ idx, idx < n → (vertAt verts idx).v = nm idx) →
      (∀ idx, idx < n → (vertAt verts idx).pos = idx) →
      1 ≤ c1 → c1 ≤ n → 1 ≤ c2 →
      (∀ q, 1 ≤ q → q < c2 → c1 < n → nameAt l2 q < nm c1) →
      inc.length = n →
      (∀ r, r < n → (inc.getD r []).length = n) →
      ∀ c1' verts' inc' m',
        compWalk position iV ii l2 fuel c1 c2 verts inc m =
          (c1', verts', inc', m') →
        c1 ≤ c1' ∧ c1' ≤ n ∧ verts'.length = n ∧
        (∀ idx, idx < n → (vertAt verts' idx).v = nm idx) ∧
        (∀ idx, idx < n → (vertAt verts' idx).pos = idx) ∧
        inc'.length = n ∧
        (∀ r, r < n → (inc'.getD r []).length = n) ∧
        (∀ x y, matAt inc' x y = true ↔
          (matAt inc x y = true ∨ ∃ idx, c1 ≤ idx ∧ idx < c1' ∧
            ((x = ii ∧ y = idx) ∨ (x = idx ∧ y = ii)) ∧
            walkFires position iV l2 nm idx)) ∧
        (c1' < n → ∀ idx, c1' ≤ idx → idx < n →
          ∀ q, 1 ≤ q → q < l2.length → nameAt l2 q < nm idx) := by
  intro fuel
  induction fuel with
  | zero =>
    intro c1 c2 verts inc m hfuel
    exact absurd hfuel (by omega)
  | succ fuel ih =>
    intro c1 c2 verts inc m hfuel hlen hnm hpos hc1lo hc1hi hc2lo hpre
      hincl hrowl c1' verts' inc' m' hres
    simp only [compWalk] at hres
    by_cases hcond : c1 < verts.length ∧ c2 < l2.length
    · rw [if_pos hcond] at hres
      have hc1n : c1 < n := by omega
      have hc2n : c2 < l2.length := hcond.2
      have hnmc1 : (vertAt verts c1).v = nm c1 := hnm c1 hc1n
      by_cases h1 : (vertAt l2 c2).v < (vertAt verts c1).v
      · rw [if_pos h1] at hres
        have hpre2 : ∀ q, 1 ≤ q → q < c2 + 1 → c1 < n →
            nameAt l2 q < nm c1 := by
          intro q hq1 hq2 hcn
          by_cases hqc : q < c2
          · exact hpre q hq1 hqc hcn
          · have hqe : q = c2 := by omega
            rw [hqe]
            show (vertAt l2 c2).v < nm c1
            rw [← hnmc1]
            exact h1
        exact ih c1 (c2 + 1) verts inc m (by omega) hlen hnm hpos hc1lo
          hc1hi (by omega) hpre2 hincl hrowl c1' verts' inc' m' hres
      · rw [if_neg h1] at hres
        by_cases h2 : (vertAt verts c1).v = (vertAt l2 c2).v
        · rw [if_pos h2] at hres
          have hpre2 : ∀ q, 1 ≤ q → q < c2 + 1 → c1 + 1 < n →
              nameAt l2 q < nm (c1 + 1) := by
            intro q hq1 hq2 hcn
            have hstep : nm c1 < nm (c1 + 1) :=
              hsorted c1 (c1 + 1) hc1lo (by omega) hcn
            by_cases hqc : q < c2
            · exact lt_trans (hpre q hq1 hqc (by omega)) hstep
            · have hqe : q = c2 := by omega
              rw [hqe]
              show (vertAt l2 c2).v < nm (c1 + 1)
              rw [← h2, hnmc1]
              exact hstep
          have IH := ih (c1 + 1) (c2 + 1) verts inc m (by omega) hlen hnm
            hpos (by omega) (by omega) (by omega) hpre2 hincl hrowl
            c1' verts' inc' m' hres
          obtain ⟨hge, hle, hl3, hnm3, hpos3, hil3, hrl3, hbits, hexit⟩ := IH
          refine ⟨by omega, hle, hl3, hnm3, hpos3, hil3, hrl3, ?_, hexit⟩
          apply bitsRange_noadd ii c1 c1' (walkFires position iV l2 nm) inc inc' hbits
          intro hf
          apply hf.2 c2 hc2lo hc2n
          show (vertAt l2 c2).v = nm c1
          rw [← h2, hnmc1]
        · rw [if_neg h2] at hres
          by_cases h3 : (vertAt verts c1).v = iV
          · rw [if_pos h3] at hres
            have hpre2 : ∀ q, 1 ≤ q → q < c2 → c1 + 1 < n →
                nameAt l2 q < nm (c1 + 1) := by
              intro q hq1 hq2 hcn
              exact lt_trans (hpre q hq1 hq2 (by omega))
                (hsorted c1 (c1 + 1) hc1lo (by omega) hcn)
            have IH := ih (c1 + 1) c2 verts inc m (by omega) hlen hnm hpos
              (by omega) (by omega) hc2lo hpre2 hincl hrowl
              c1' verts' inc' m' hres
            obtain ⟨hge, hle, hl3, hnm3, hpos3, hil3, hrl3, hbits, hexit⟩ := IH
            refine ⟨by omega, hle, hl3, hnm3, hpos3, hil3, hrl3, ?_, hexit⟩
            apply bitsRange_noadd ii c1 c1' (walkFires position iV l2 nm) inc inc' hbits
            intro hf
            have hirr := hf.1
            rw [← hnmc1, h3] at hirr
            exact lt_irrefl _ hirr
          · rw [if_neg h3] at hres
            by_cases h4 : natAt position iV < natAt position (vertAt verts c1).v
            · rw [if_pos h4] at hres
              rcases hE : compAddEdge ii c1 verts inc m with ⟨vertsE, incE, mE⟩
              rw [hE] at hres
              dsimp only at hres
              have hA := compAddEdge_spec ii c1 verts inc m n hlen hpos hiin
                hc1n hincl hrowl
              rw [hE] at hA
              dsimp only at hA
              obtain ⟨hEl, hEstab, hEil, hErl, hEbits⟩ := hA
              have hnmE : ∀ idx, idx < n → (vertAt vertsE idx).v = nm idx := by
                intro idx h
                rw [(hEstab idx).1]
                exact hnm idx h
              have hposE : ∀ idx, idx < n → (vertAt vertsE idx).pos = idx := by
                intro idx h
                rw [(hEstab idx).2]
                exact hpos idx h
              have hpre2 : ∀ q, 1 ≤ q → q < c2 → c1 + 1 < n →
                  nameAt l2 q < nm (c1 + 1) := by
                intro q hq1 hq2 hcn
                exact lt_trans (hpre q hq1 hq2 (by omega))
                  (hsorted c1 (c1 + 1) hc1lo (by omega) hcn)
              have IH := ih (c1 + 1) c2 vertsE incE mE (by omega) hEl hnmE
                hposE (by omega) (by omega) hc2lo hpre2 hEil hErl
                c1' verts' inc' m' hres
              obtain ⟨hge, hle, hl3, hnm3, hpos3, hil3, hrl3, hbits, hexit⟩ := IH
              have hfire : walkFires position iV l2 nm c1 := by
                constructor
                · rw [← hnmc1]
                  exact h4
                · intro q hq1 hq2
                  by_cases hqc : q < c2
                  · exact Nat.ne_of_lt (hpre q hq1 hqc hc1n)
                  · have hlt12 : nm c1 < (vertAt l2 c2).v := by
                      rw [← hnmc1]
                      omega
                    have hge2 : (vertAt l2 c2).v ≤ nameAt l2 q := by
                      rcases Nat.eq_or_lt_of_le (by omega : c2 ≤ q) with
                        heq | hlt3
                      · rw [← heq]
                        exact Nat.le_refl _
                      · exact le_of_lt (hl2s c2 q hc2lo hlt3 hq2)
                    intro hqe
                    rw [hqe] at hge2
                    omega
              refine ⟨by omega, hle, hl3, hnm3, hpos3, hil3, hrl3, ?_, hexit⟩
              exact bitsRange_add ii c1 c1' (walkFires position iV l2 nm)
                inc incE inc' hEbits hbits (by omega) hfire
            · rw [if_neg h4] at hres
              have hpre2 : ∀ q, 1 ≤ q → q < c2 → c1 + 1 < n →
                  nameAt l2 q < nm (c1 + 1) := by
                intro q hq1 hq2 hcn
                exact lt_trans (hpre q hq1 hq2 (by omega))
                  (hsorted c1 (c1 + 1) hc1lo (by omega) hcn)
              have IH := ih (c1 + 1) c2 verts inc m (by omega) hlen hnm hpos
                (by omega) (by omega) hc2lo hpre2 hincl hrowl
                c1' verts' inc' m' hres
              obtain ⟨hge, hle, hl3, hnm3, hpos3, hil3, hrl3, hbits, hexit⟩ := IH
              refine ⟨by omega, hle, hl3, hnm3, hpos3, hil3, hrl3, ?_, hexit⟩
              apply bitsRange_noadd ii c1 c1' (walkFires position iV l2 nm) inc inc' hbits
              intro hf
              apply h4
              rw [hnmc1]
              exact hf.1
    · rw [if_neg hcond] at hres
      simp only [Prod.mk.injEq] at hres
      obtain ⟨rfl, rfl, rfl, rfl⟩ := hres
      refine ⟨le_refl c1, hc1hi, hlen, hnm, hpos, hincl, hrowl, ?_, ?_⟩
      · intro x y
        constructor
        · intro h
          exact Or.inl h
        · rintro (h | ⟨idx, hge2, hlt2, _, _⟩)
          · exact h
          · omega
      · intro hc1n idx hge2 hlt2 q hq1 hq2
        have hc2e : l2.length ≤ c2 := by
          by_contra hc
          exact hcond ⟨by omega, by omega⟩
        have h5 := hpre q hq1 (by omega) hc1n
        rcases Nat.eq_or_lt_of_le hge2 with heq | hlt3
        · rw [← heq]
          exact h5
        · exact lt_trans h5 (hsorted c1 idx hc1lo hlt3 hlt2)

/-- The tail loop of one outer pass: every remaining slot fires exactly
when the outer vertex precedes its name in the ordering. -/
theorem compTail_spec (position : List Nat) (iV ii n : Nat)
    (nm : Nat → Nat) (hiin : ii < n) :
    ∀ (fuel c1 : Nat) (verts : List vertex) (inc : List (List Bool))
      (m : Nat),
      n - c1 < fuel →
      verts.length = n →
      (∀ idx, idx < n → (vertAt verts idx).v = nm idx) →
      (∀ idx, idx < n → (vertAt verts idx).pos = idx) →
      inc.length = n →
      (∀ r, r < n → (inc.getD r []).length = n) →
      ∀ verts' inc' m',
        compTail position iV ii fuel c1 verts inc m = (verts', inc', m') →
        verts'.length = n ∧
        (∀ idx, idx < n → (vertAt verts' idx).v = nm idx) ∧
        (∀ idx, idx < n → (vertAt verts' idx).pos = idx) ∧
        inc'.length = n ∧
        (∀ r, r < n → (inc'.getD r []).length = n) ∧
        (∀ x y, matAt inc' x y = true ↔
          (matAt inc x y = true ∨ ∃ idx, c1 ≤ idx ∧ idx < n ∧
            ((x = ii ∧ y = idx) ∨ (x = idx ∧ y = ii)) ∧
            natAt position iV < natAt position (nm idx))) := by
  intro fuel
  induction fuel with
  | zero =>
    intro c1 verts inc m hfuel
    exact absurd hfuel (by omega)
  | succ fuel ih =>
    intro c1 verts inc m hfuel hlen hnm hpos hincl hrowl verts' inc' m' hres
    simp only [compTail] at hres
    by_cases hcond : c1 < verts.length
    · rw [if_pos hcond] at hres
      have hc1n : c1 < n := by omega
      have hnmc1 : (vertAt verts c1).v = nm c1 := hnm c1 hc1n
      by_cases h4 : natAt position iV < natAt position (vertAt verts c1).v
      · rw [if_pos h4] at hres
        rcases hE : compAddEdge ii c1 verts inc m with ⟨vertsE, incE, mE⟩
        rw [hE] at hres
        dsimp only at hres
        have hA := compAddEdge_spec ii c1 verts inc m n hlen hpos hiin
          hc1n hincl hrowl
        rw [hE] at hA
        dsimp only at hA
        obtain ⟨hEl, hEstab, hEil, hErl, hEbits⟩ := hA
        have hnmE : ∀ idx, idx < n → (vertAt vertsE idx).v = nm idx := by
          intro idx h
          rw [(hEstab idx).1]
          exact hnm idx h
        have hposE : ∀ idx, idx < n → (vertAt vertsE idx).pos = idx := by
          intro idx h
          rw [(hEstab idx).2]
          exact hpos idx h
        have IH := ih (c1 + 1) vertsE incE mE (by omega) hEl hnmE hposE
          hEil hErl verts' inc' m' hres
        obtain ⟨hl3, hnm3, hpos3, hil3, hrl3, hbits⟩ := IH
        refine ⟨hl3, hnm3, hpos3, hil3, hrl3, ?_⟩
        apply bitsRange_add ii c1 n
          (fun idx => natAt position iV < natAt position (nm idx))
          inc incE inc' hEbits hbits hc1n
        rw [← hnmc1]
        exact h4
      · rw [if_neg h4] at hres
        have IH := ih (c1 + 1) verts inc m (by omega) hlen hnm hpos
          hincl hrowl verts' inc' m' hres
        obtain ⟨hl3, hnm3, hpos3, hil3, hrl3, hbits⟩ := IH
        refine ⟨hl3, hnm3, hpos3, hil3, hrl3, ?_⟩
        apply bitsRange_noadd ii c1 n
          (fun idx => natAt position iV < natAt position (nm idx))
          inc inc' hbits
        intro hf
        apply h4
        rw [hnmc1]
        exact hf
    · rw [if_neg hcond] at hres
      simp only [Prod.mk.injEq] at hres
      obtain ⟨rfl, rfl, rfl⟩ := hres
      refine ⟨hlen, hnm, hpos, hincl, hrowl, ?_⟩
      intro x y
      constructor
      · intro h
        exact Or.inl h
      · rintro (h | ⟨idx, hge2, hlt2, _, _⟩)
        · exact h
        · omega

/-- One outer pass of the materialiser: the bits gained are exactly the
pairs of the outer slot ii with the slots whose pass fires. -/
theorem compVertexStep_spec (position : List Nat) (sgs : List subgraph)
    (n : Nat) (nm : Nat → Nat) (ii : Nat) (hii1 : 1 ≤ ii) (hiin : ii < n)
    (hsorted : ∀ p q, 1 ≤ p → p < q → q < n → nm p < nm q)
    (hl2s : ∀ p q, 1 ≤ p → p < q →
      q < (sgAt sgs (nm ii)).vertices.length →
      nameAt (sgAt sgs (nm ii)).vertices p <
        nameAt (sgAt sgs (nm ii)).vertices q)
    (verts : List vertex) (inc : List (List Bool)) (m ldv : Nat)
    (hlen : verts.length = n)
    (hnm : ∀ idx, idx < n → (vertAt verts idx).v = nm idx)
    (hpos : ∀ idx, idx < n → (vertAt verts idx).pos = idx)
    (hincl : inc.length = n)
    (hrowl : ∀ r, r < n → (inc.getD r []).length = n) :
    ∀ verts' inc' m' ldv',
      compVertexStep position sgs (verts, inc, m, ldv) ii =
        (verts', inc', m', ldv') →
      verts'.length = n ∧
      (∀ idx, idx < n → (vertAt verts' idx).v = nm idx) ∧
      (∀ idx, idx < n → (vertAt verts' idx).pos = idx) ∧
      inc'.length = n ∧
      (∀ r, r < n → (inc'.getD r []).length = n) ∧
      (∀ x y, matAt inc' x y = true ↔
        (matAt inc x y = true ∨ ∃ idx, 1 ≤ idx ∧ idx < n ∧
          ((x = ii ∧ y = idx) ∨ (x = idx ∧ y = ii)) ∧
          compFire position sgs nm ii idx)) := by
  intro verts' inc' m' ldv' hres
  simp only [compVertexStep] at hres
  rw [hnm ii hiin] at hres
  rcases hW : compWalk position (nm ii) ii (sgAt sgs (nm ii)).vertices
      (verts.length + (sgAt sgs (nm ii)).vertices.length + 2) 1 1
      verts inc m with ⟨c1w, vertsW, incW, mW⟩
  rw [hW] at hres
  dsimp only at hres
  rcases hT : compTail position (nm ii) ii (vertsW.length + 2) c1w
      vertsW incW mW with ⟨vertsT, incT, mT⟩
  rw [hT] at hres
  dsimp only at hres
  simp only [Prod.mk.injEq] at hres
  obtain ⟨rfl, rfl, rfl, rfl⟩ := hres
  have hWs := compWalk_spec position (nm ii) ii n
    (sgAt sgs (nm ii)).vertices nm hiin hsorted hl2s
    (verts.length + (sgAt sgs (nm ii)).vertices.length + 2) 1 1
    verts inc m (by omega) hlen hnm hpos (le_refl 1) (by omega)
    (le_refl 1) (by intro q hq1 hq2 hcn; omega) hincl hrowl
    c1w vertsW incW mW hW
  obtain ⟨hc1wlo, hc1whi, hWl, hWnm, hWpos, hWil, hWrl, hWbits, hWexit⟩ := hWs
  have hTs := compTail_spec position (nm ii) ii n nm hiin
    (vertsW.length + 2) c1w vertsW incW mW (by omega) hWl hWnm hWpos
    hWil hWrl vertsT incT mT hT
  obtain ⟨hTl, hTnm, hTpos, hTil, hTrl, hTbits⟩ := hTs
  refine ⟨hTl, hTnm, hTpos, hTil, hTrl, ?_⟩
  simp only [compFire]
  intro x y
  rw [hTbits x y, hWbits x y]
  constructor
  · rintro ((h | ⟨idx, h1, hlt, hp, hf⟩) | ⟨idx, hge, hlt, hp, hpc⟩)
    · exact Or.inl h
    · exact Or.inr ⟨idx, h1, by omega, hp, hf⟩
    · refine Or.inr ⟨idx, by omega, hlt, hp, hpc, ?_⟩
      intro q hq1 hq2
      exact Nat.ne_of_lt (hWexit (by omega) idx hge hlt q hq1 hq2)
  · rintro (h | ⟨idx, h1, hltn, hp, hf⟩)
    · exact Or.inl (Or.inl h)
    · by_cases hc : idx < c1w
      · exact Or.inl (Or.inr ⟨idx, h1, hc, hp, hf⟩)
      · exact Or.inr ⟨idx, by omega, hltn, hp, hf.1⟩

/-- The outer loop of the materialiser over any list of outer slots: the
bits present at the end are the initial ones plus one symmetric pair for
every firing (outer, slot) combination. -/
theorem compFold_spec (position : List Nat) (sgs : List subgraph)
    (n : Nat) (nm : Nat → Nat)
    (hsorted : ∀ p q, 1 ≤ p → p < q → q < n → nm p < nm q)
    (hl2all : ∀ i, 1 ≤ i → i < n → ∀ p q, 1 ≤ p → p < q →
      q < (sgAt sgs (nm i)).vertices.length →
      nameAt (sgAt sgs (nm i)).vertices p <
        nameAt (sgAt sgs (nm i)).vertices q) :
    ∀ (L : List Nat), (∀ i, i ∈ L → 1 ≤ i ∧ i < n) →
    ∀ (verts : List vertex) (inc : List (List Bool)) (m ldv : Nat),
      verts.length = n →
      (∀ idx, idx < n → (vertAt verts idx).v = nm idx) →
      (∀ idx, idx < n → (vertAt verts idx).pos = idx) →
      inc.length = n →
      (∀ r, r < n → (inc.getD r []).length = n) →
      ∀ verts' inc' m' ldv',
        L.foldl (compVertexStep position sgs) (verts, inc, m, ldv) =
          (verts', inc', m', ldv') →
        verts'.length = n ∧
        (∀ idx, idx < n → (vertAt verts' idx).v = nm idx) ∧
        (∀ idx, idx < n → (vertAt verts' idx).pos = idx) ∧
        inc'.length = n ∧
        (∀ r, r < n → (inc'.getD r []).length = n) ∧
        (∀ x y, matAt inc' x y = true ↔
          (matAt inc x y = true ∨ ∃ ii, ii ∈ L ∧ ∃ idx, 1 ≤ idx ∧
            idx < n ∧ ((x = ii ∧ y = idx) ∨ (x = idx ∧ y = ii)) ∧
            compFire position sgs nm ii idx)) := by
  intro L
  induction L with
  | nil =>
    intro hmem verts inc m ldv hlen hnm hpos hincl hrowl
      verts' inc' m' ldv' hres
    simp only [List.foldl_nil, Prod.mk.injEq] at hres
    obtain ⟨rfl, rfl, rfl, rfl⟩ := hres
    refine ⟨hlen, hnm, hpos, hincl, hrowl, ?_⟩
    intro x y
    constructor
    · intro h
      exact Or.inl h
    · rintro (h | ⟨ii, hii, _⟩)
      · exact h
      · exact absurd hii (List.not_mem_nil ii)
  | cons a L ih =>
    intro hmem verts inc m ldv hlen hnm hpos hincl hrowl
      verts' inc' m' ldv' hres
    rw [List.foldl_cons] at hres
    rcases hS : compVertexStep position sgs (verts, inc, m, ldv) a with
      ⟨vertsS, incS, mS, ldvS⟩
    rw [hS] at hres
    have ha := hmem a (List.mem_cons_self a L)
    have hA := compVertexStep_spec position sgs n nm a ha.1 ha.2 hsorted
      (hl2all a ha.1 ha.2) verts inc m ldv hlen hnm hpos hincl hrowl
      vertsS incS mS ldvS hS
    obtain ⟨hSl, hSnm, hSpos, hSil, hSrl, hSbits⟩ := hA
    have IH := ih (fun i hi => hmem i (List.mem_cons_of_mem a hi))
      vertsS incS mS ldvS hSl hSnm hSpos hSil hSrl
      verts' inc' m' ldv' hres
    obtain ⟨hl3, hnm3, hpos3, hil3, hrl3, hbits⟩ := IH
    refine ⟨hl3, hnm3, hpos3, hil3, hrl3, ?_⟩
    intro x y
    rw [hbits x y, hSbits x y]
    constructor
    · rintro ((h | ⟨idx, h1, h2, hp, hf⟩) | ⟨ii, hii, idx, h1, h2, hp, hf⟩)
      · exact Or.inl h
      · exact Or.inr ⟨a, List.mem_cons_self a L, idx, h1, h2, hp, hf⟩
      · exact Or.inr ⟨ii, List.mem_cons_of_mem a hii, idx, h1, h2, hp, hf⟩
    · rintro (h | ⟨ii, hii, idx, h1, h2, hp, hf⟩)
      · exact Or.inl (Or.inl h)
      · rcases List.mem_cons.mp hii with heq | hin
        · subst heq
          exact Or.inl (Or.inr ⟨idx, h1, h2, hp, hf⟩)
        · exact Or.inr ⟨ii, hin, idx, h1, h2, hp, hf⟩

/-- Reading the fresh all-empty row store. -/
theorem getD_replicate_nil (n i : Nat) :
    (List.replicate n ([] : List Nat)).getD i [] = [] := by
  unfold List.getD
  rcases h : (List.replicate n ([] : List Nat)).get? i with _ | row
  · simp
  · simp only [Option.getD_some]
    exact List.eq_of_mem_replicate (List.get?_mem h)

/-- The row-extraction loop of the materialiser: each processed slot gets
the filtered matrix row of its position, the others keep their value. -/
theorem rowsFold_getD (verts : List vertex) (inc : List (List Bool))
    (nn : Nat) :
    ∀ (L : List Nat) (acc : List (List Nat)),
      (∀ i, i ∈ L → (vertAt verts i).pos = i ∧ i < acc.length) →
      ∀ r, ((L.foldl (fun acc2 r2 => acc2.set (vertAt verts r2).pos
          (((List.range nn).drop 1).filter
            (fun j => matAt inc (vertAt verts r2).pos j))) acc).getD r []) =
        if r ∈ L then
          ((List.range nn).drop 1).filter (fun j => matAt inc r j)
        else acc.getD r [] := by
  intro L
  induction L with
  | nil =>
    intro acc hmem r
    rw [List.foldl_nil, if_neg (List.not_mem_nil r)]
  | cons a L ih =>
    intro acc hmem r
    rw [List.foldl_cons]
    have ha := hmem a (List.mem_cons_self a L)
    rw [ha.1]
    rw [ih (acc.set a (((List.range nn).drop 1).filter
        (fun j => matAt inc a j)))
      (fun i hi => ⟨(hmem i (List.mem_cons_of_mem a hi)).1, by
        rw [List.length_set]
        exact (hmem i (List.mem_cons_of_mem a hi)).2⟩) r]
    by_cases hrL : r ∈ L
    · rw [if_pos hrL, if_pos (List.mem_cons_of_mem a hrL)]
    · rw [if_neg hrL]
      by_cases hra : r = a
      · subst hra
        rw [if_pos (List.mem_cons_self r L)]
        exact getD_set_self acc r ha.2 _ _
      · rw [if_neg (fun h => (List.mem_cons.mp h).elim hra hrL)]
        exact getD_set_other acc a r (fun h => hra h.symm) _ _


/-- A defaulted read through a map of ordering positions of names. -/
theorem getD_map_posName (position : List Nat) (l2 : List vertex) (i : Nat)
    (h : i < l2.length) :
    (l2.map (fun x => natAt position x.v)).getD i 0 =
      natAt position (nameAt l2 i) := by
  unfold nameAt vertAt List.getD
  rw [List.get?_eq_getElem?, List.get?_eq_getElem?]
  rw [List.getElem?_map]
  rw [List.getElem?_eq_getElem h]
  simp

/-- Reading the written slot of the subgraph store. -/
theorem sgAt_set_self (l : List subgraph) (i : Nat) (h : i < l.length)
    (s : subgraph) : sgAt (l.set i s) i = s := by
  unfold sgAt
  exact getD_set_self l i h s _

/-- The materialised complement of the pivot subgraph realises exactly the
non-adjacency of the input graph on the recorded vertex set. -/
theorem C4_complement_contract (g : Graph) (position : List Nat)
    (sgs : List subgraph) (v : Nat) (hwf : g.wf)
    (hok : compInputOkB g position sgs v = true) :
    ∀ i j, i < (sgAt sgs v).n → j < (sgAt sgs v).n → i ≠ j →
      ((listAt (sgAt (generateComp position sgs v) v).adjLists i).contains j
          = true ↔
        (listAt g.adj (nameAt (sgAt sgs v).vertices i)).contains
          (nameAt (sgAt sgs v).vertices j) = false) := by
  have hok2 := hok
  simp only [compInputOkB, Bool.and_eq_true, Bool.or_eq_true,
    Bool.not_eq_true', decide_eq_true_eq, decide_eq_false_iff_not,
    List.all_eq_true] at hok2
  obtain ⟨⟨⟨⟨⟨⟨⟨hA, hB⟩, hC⟩, hD⟩, hE⟩, hF⟩, hG⟩, hH⟩ := hok2
  have hvlt : v < sgs.length := by
    by_contra hc
    have hdef : sgAt sgs v = subgraph.empty := by
      unfold sgAt
      exact List.getD_eq_default _ _ (le_of_not_lt hc)
    rw [hdef] at hB
    simp [subgraph.empty] at hB
  have hsorted : ∀ p q, 1 ≤ p → p < q → q < (sgAt sgs v).n →
      nameAt (sgAt sgs v).vertices p < nameAt (sgAt sgs v).vertices q := by
    intro p q h1 h2 h3
    exact name_tail_sorted _ hE p q h1 h2 (by omega)
  have hl2all : ∀ i2, 1 ≤ i2 → i2 < (sgAt sgs v).n → ∀ p q, 1 ≤ p → p < q →
      q < (sgAt sgs (nameAt (sgAt sgs v).vertices i2)).vertices.length →
      nameAt (sgAt sgs (nameAt (sgAt sgs v).vertices i2)).vertices p <
        nameAt (sgAt sgs (nameAt (sgAt sgs v).vertices i2)).vertices q := by
    intro i2 h1 h2 p q hp hpq hq
    have hHi := hH i2
      ((mem_range_drop_one (sgAt sgs v).vertices.length i2).mpr
        ⟨h1, by omega⟩)
    exact name_tail_sorted _ hHi.1.1 p q hp hpq hq
  have hnm0 : ∀ idx, idx < (sgAt sgs v).n →
      (vertAt (sgAt sgs v).vertices idx).v =
        nameAt (sgAt sgs v).vertices idx := fun idx h => rfl
  have hpos0 : ∀ idx, idx < (sgAt sgs v).n →
      (vertAt (sgAt sgs v).vertices idx).pos = idx := by
    intro idx h
    exact hD idx (List.mem_range.mpr (by omega))
  have hincl0 : (List.replicate (sgAt sgs v).n
      (List.replicate (sgAt sgs v).n false)).length = (sgAt sgs v).n := by
    exact List.length_replicate ..
  have hrowl0 : ∀ r, r < (sgAt sgs v).n →
      ((List.replicate (sgAt sgs v).n
        (List.replicate (sgAt sgs v).n false)).getD r []).length =
        (sgAt sgs v).n := by
    intro r hr
    have hb : r < (List.replicate (sgAt sgs v).n
        (List.replicate (sgAt sgs v).n false)).length := by
      rw [List.length_replicate]
      exact hr
    rw [List.getD_eq_getElem _ _ hb, List.getElem_replicate]
    exact List.length_replicate ..
  have hmemL : ∀ i2, i2 ∈ (List.range (sgAt sgs v).vertices.length).drop 1 →
      1 ≤ i2 ∧ i2 < (sgAt sgs v).n := by
    intro i2 hi2
    have h2 := (mem_range_drop_one _ _).mp hi2
    exact ⟨h2.1, by omega⟩
  rcases hR : ((List.range (sgAt sgs v).vertices.length).drop 1).foldl
      (compVertexStep position sgs)
      ((sgAt sgs v).vertices,
       List.replicate (sgAt sgs v).n (List.replicate (sgAt sgs v).n false),
       (sgAt sgs v).m, (sgAt sgs v).largestDegreeVertex) with
    ⟨vertsR, incR, mR, ldvR⟩
  have hFold := compFold_spec position sgs (sgAt sgs v).n
    (nameAt (sgAt sgs v).vertices) hsorted hl2all
    ((List.range (sgAt sgs v).vertices.length).drop 1) hmemL
    (sgAt sgs v).vertices
    (List.replicate (sgAt sgs v).n (List.replicate (sgAt sgs v).n false))
    (sgAt sgs v).m (sgAt sgs v).largestDegreeVertex hA hnm0 hpos0 hincl0
    hrowl0 vertsR incR mR ldvR hR
  obtain ⟨hRl, hRnm, hRpos, hRil, hRrl, hRbits⟩ := hFold
  have hmemRows : ∀ i2, i2 ∈ (List.range vertsR.length).drop 1 →
      (vertAt vertsR i2).pos = i2 ∧
        i2 < (List.replicate (sgAt sgs v).n ([] : List Nat)).length := by
    intro i2 hi2
    have h2 := (mem_range_drop_one _ _).mp hi2
    refine ⟨hRpos i2 (by omega), ?_⟩
    rw [List.length_replicate]
    omega
  have hrow : ∀ r, listAt (sgAt (generateComp position sgs v) v).adjLists r =
      if r ∈ (List.range vertsR.length).drop 1 then
        ((List.range (sgAt sgs v).n).drop 1).filter
          (fun j2 => matAt incR r j2)
      else [] := by
    intro r
    simp only [generateComp]
    rw [hR]
    dsimp only
    rw [sgAt_set_self sgs v hvlt _]
    unfold listAt
    dsimp only
    rw [rowsFold_getD vertsR incR (sgAt sgs v).n
      ((List.range vertsR.length).drop 1)
      (List.replicate (sgAt sgs v).n ([] : List Nat)) hmemRows r]
    rw [getD_replicate_nil]
  have hbitsFinal : ∀ x y, matAt incR x y = true ↔
      ∃ ii, (1 ≤ ii ∧ ii < (sgAt sgs v).n) ∧ ∃ idx, 1 ≤ idx ∧
        idx < (sgAt sgs v).n ∧
        ((x = ii ∧ y = idx) ∨ (x = idx ∧ y = ii)) ∧
        compFire position sgs (nameAt (sgAt sgs v).vertices) ii idx := by
    intro x y
    rw [hRbits x y]
    constructor
    · rintro (h | ⟨ii, hii, rest⟩)
      · rw [matAt_replicate_false] at h
        exact absurd h (by simp)
      · exact ⟨ii, hmemL ii hii, rest⟩
    · rintro ⟨ii, ⟨hii1, hii2⟩, rest⟩
      exact Or.inr ⟨ii,
        (mem_range_drop_one _ _).mpr ⟨hii1, by omega⟩, rest⟩
  have hcontains : ∀ r j2, 1 ≤ r → r < (sgAt sgs v).n →
      ((listAt (sgAt (generateComp position sgs v) v).adjLists r).contains
          j2 = true ↔
        (1 ≤ j2 ∧ j2 < (sgAt sgs v).n ∧ matAt incR r j2 = true)) := by
    intro r j2 h1 h2
    rw [hrow r, if_pos ((mem_range_drop_one _ _).mpr ⟨h1, by omega⟩)]
    rw [List.elem_iff, List.mem_filter, mem_range_drop_one]
    constructor
    · rintro ⟨⟨ha1, ha2⟩, hb⟩
      exact ⟨ha1, ha2, hb⟩
    · rintro ⟨ha1, ha2, hb⟩
      exact ⟨⟨ha1, ha2⟩, hb⟩
  have hfire_mk : ∀ a b, 1 ≤ a → a < (sgAt sgs v).n → 1 ≤ b →
      b < (sgAt sgs v).n →
      natAt position (nameAt (sgAt sgs v).vertices a) <
        natAt position (nameAt (sgAt sgs v).vertices b) →
      (listAt g.adj (nameAt (sgAt sgs v).vertices a)).contains
        (nameAt (sgAt sgs v).vertices b) = false →
      compFire position sgs (nameAt (sgAt sgs v).vertices) a b := by
    intro a b ha1 ha2 hb1 hb2 hpl hnadj
    have hHa := hH a ((mem_range_drop_one _ _).mpr ⟨ha1, by omega⟩)
    simp only [compFire, walkFires]
    refine ⟨hpl, ?_⟩
    intro q hq1 hq2 hqe
    have hmem2 := (mem_name_tail _ _).mpr ⟨q, hq1, hq2, hqe⟩
    have h4 := hHa.1.2 (nameAt (sgAt sgs v).vertices b) hmem2
    rw [hnadj] at h4
    exact absurd h4.1 (by simp)
  have hfire_absurd : ∀ a b, 1 ≤ a → a < (sgAt sgs v).n →
      compFire position sgs (nameAt (sgAt sgs v).vertices) a b →
      (listAt g.adj (nameAt (sgAt sgs v).vertices a)).contains
        (nameAt (sgAt sgs v).vertices b) = true → False := by
    intro a b ha1 ha2 hf hadj
    simp only [compFire, walkFires] at hf
    have hHa := hH a ((mem_range_drop_one _ _).mpr ⟨ha1, by omega⟩)
    have hmem3 := List.elem_iff.mp hadj
    rcases hHa.2 (nameAt (sgAt sgs v).vertices b) hmem3 with hnp | hc
    · exact hnp hf.1
    · obtain ⟨q, hq1, hq2, hqe⟩ :=
        (mem_name_tail _ _).mp (List.elem_iff.mp hc)
      exact hf.2 q hq1 hq2 hqe
  intro i j hi hj hij
  by_cases h1i : 1 ≤ i
  · by_cases h1j : 1 ≤ j
    · -- both in the tail
      have hnmne : nameAt (sgAt sgs v).vertices i ≠
          nameAt (sgAt sgs v).vertices j := by
        rcases Nat.lt_or_ge i j with hlt | hge
        · exact Nat.ne_of_lt (hsorted i j h1i hlt hj)
        · exact (Nat.ne_of_lt (hsorted j i h1j (by omega) hi)).symm
      have hposne : natAt position (nameAt (sgAt sgs v).vertices i) ≠
          natAt position (nameAt (sgAt sgs v).vertices j) := by
        intro he
        have hbi : i - 1 < (((sgAt sgs v).vertices.map
            (fun x => natAt position x.v)).drop 1).length := by
          simp only [List.length_drop, List.length_map]
          omega
        have hbj : j - 1 < (((sgAt sgs v).vertices.map
            (fun x => natAt position x.v)).drop 1).length := by
          simp only [List.length_drop, List.length_map]
          omega
        have hgi : (((sgAt sgs v).vertices.map
            (fun x => natAt position x.v)).drop 1)[i - 1] =
            natAt position (nameAt (sgAt sgs v).vertices i) := by
          rw [← List.getD_eq_getElem _ 0 hbi, getD_drop]
          have he2 : 1 + (i - 1) = i := by omega
          rw [he2]
          exact getD_map_posName position (sgAt sgs v).vertices i (by omega)
        have hgj : (((sgAt sgs v).vertices.map
            (fun x => natAt position x.v)).drop 1)[j - 1] =
            natAt position (nameAt (sgAt sgs v).vertices j) := by
          rw [← List.getD_eq_getElem _ 0 hbj, getD_drop]
          have he2 : 1 + (j - 1) = j := by omega
          rw [he2]
          exact getD_map_posName position (sgAt sgs v).vertices j (by omega)
        have hidx : i - 1 = j - 1 :=
          (List.Nodup.getElem_inj_iff hG).mp (by rw [hgi, hgj]; exact he)
        omega
      rw [hcontains i j h1i hi]
      have hkey : matAt incR i j = true ↔
          (listAt g.adj (nameAt (sgAt sgs v).vertices i)).contains
            (nameAt (sgAt sgs v).vertices j) = false := by
        rw [hbitsFinal i j]
        constructor
        · rintro ⟨ii, ⟨hii1, hii2⟩, idx, hidx1, hidx2, hp, hf⟩
          rcases hp with ⟨hxi, hyj⟩ | ⟨hxi, hyj⟩
          · subst hxi
            subst hyj
            rcases hcb : (listAt g.adj
                (nameAt (sgAt sgs v).vertices i)).contains
                (nameAt (sgAt sgs v).vertices j) with _ | _
            · rfl
            · exact absurd (hfire_absurd i j hii1 hii2 hf hcb) (by simp)
          · subst hxi
            subst hyj
            rcases hcb : (listAt g.adj
                (nameAt (sgAt sgs v).vertices i)).contains
                (nameAt (sgAt sgs v).vertices j) with _ | _
            · rfl
            · have hsymmb := (wf_adj_mem g hwf hcb).2.2
              exact absurd (hfire_absurd j i hii1 hii2 hf hsymmb)
                (by simp)
        · intro hnadj
          rcases Nat.lt_or_ge
              (natAt position (nameAt (sgAt sgs v).vertices i))
              (natAt position (nameAt (sgAt sgs v).vertices j)) with
            hpl | hpg
          · exact ⟨i, ⟨h1i, hi⟩, j, h1j, hj, Or.inl ⟨rfl, rfl⟩,
              hfire_mk i j h1i hi h1j hj hpl hnadj⟩
          · have hpl2 : natAt position (nameAt (sgAt sgs v).vertices j) <
                natAt position (nameAt (sgAt sgs v).vertices i) := by
              omega
            have hnadj2 : (listAt g.adj
                (nameAt (sgAt sgs v).vertices j)).contains
                (nameAt (sgAt sgs v).vertices i) = false := by
              rcases hcb : (listAt g.adj
                  (nameAt (sgAt sgs v).vertices j)).contains
                  (nameAt (sgAt sgs v).vertices i) with _ | _
              · rfl
              · have h3 := (wf_adj_mem g hwf hcb).2.2
                rw [hnadj] at h3
                exact absurd h3 (by simp)
            exact ⟨j, ⟨h1j, hj⟩, i, h1i, hi, Or.inr ⟨rfl, rfl⟩,
              hfire_mk j i h1j hj h1i hi hpl2 hnadj2⟩
      constructor
      · rintro ⟨_, _, hm⟩
        exact hkey.mp hm
      · intro h
        exact ⟨h1j, hj, hkey.mpr h⟩
    · -- j = 0 : the pivot, adjacent to every tail member
      have hj0 : j = 0 := by omega
      subst hj0
      have hFi := hF i ((mem_range_drop_one _ _).mpr ⟨h1i, by omega⟩)
      have hsymmv := (wf_adj_mem g hwf hFi).2.2
      constructor
      · intro h
        rw [hcontains i 0 h1i hi] at h
        omega
      · intro h
        rw [hC] at h
        rw [hsymmv] at h
        exact absurd h (by simp)
  · -- i = 0 : the pivot row is empty and the pivot is adjacent to all
    have hi0 : i = 0 := by omega
    subst hi0
    have h1j : 1 ≤ j := by omega
    have hFj := hF j ((mem_range_drop_one _ _).mpr ⟨h1j, by omega⟩)
    constructor
    · intro h
      rw [hrow 0, if_neg (fun hm =>
        absurd ((mem_range_drop_one _ _).mp hm).1 (by omega))] at h
      simp at h
    · intro h
      rw [hC] at h
      rw [hFj] at h
      exact absurd h (by simp)

/-- Witness instantiating the complement contract on the 4-cycle with a
pendant vertex, for the pivot at vertex 1 after the degeneracy phase. -/
theorem C4_complement_contract_witness :
    Graph.wf pendantC4 ∧
    compInputOkB pendantC4 (degeneracyOrdering pendantC4).position
      (degeneracyOrdering pendantC4).subgraphs 1 = true ∧
    (1 : Nat) < (sgAt (degeneracyOrdering pendantC4).subgraphs 1).n ∧
    (2 : Nat) < (sgAt (degeneracyOrdering pendantC4).subgraphs 1).n ∧
    ((listAt (sgAt (generateComp (degeneracyOrdering pendantC4).position
        (degeneracyOrdering pendantC4).subgraphs 1) 1).adjLists 1).contains 2
        = true ↔
      (listAt pendantC4.adj (nameAt
        (sgAt (degeneracyOrdering pendantC4).subgraphs 1).vertices
          1)).contains
        (nameAt (sgAt (degeneracyOrdering pendantC4).subgraphs 1).vertices 2)
        = false) :=
  ⟨by decide, by decide, by decide, by decide,
    C4_complement_contract pendantC4 (degeneracyOrdering pendantC4).position
      (degeneracyOrdering pendantC4).subgraphs 1 (by decide) (by decide)
      1 2 (by decide) (by decide) (by decide)⟩

end DOmega
